import Mathlib

/-!
# Verification of the pg3 grounding / policy-query / search core

Shallow embedding of `src/pg3/utils.py` and `src/pg3/search.py`.

Conventions of the embedding:
* Python `frozenset` / `set` arguments are embedded as `List`s: a frozenset is
  iterated in a fixed (arbitrary) order inside one process, and the embedding
  fixes that order as the list order.  No verified claim depends on the
  particular order chosen.
* Python floats (heuristic values, edge costs) are embedded as integers `ℤ`
  (heuristic values that start at `float("inf")` are embedded as `WithTop ℤ`).
* `np.random.choice` is embedded by threading an explicit choice oracle
  `rand : ℕ → ℕ` (call counter ↦ chosen index); a run of the Python code
  corresponds to some oracle, and any oracle corresponds to a possible run.
* Code that can raise (`KeyError` from a dict lookup, `ValueError` from
  `np.random.choice([])`, `NameError` after the unreachable-`ipdb` branch)
  is embedded in `Except String`.
* `functools.lru_cache` is embedded by explicit cache-state passing
  (section `Memo`).
-/

set_option maxHeartbeats 1000000

namespace PG3

/-- Modelled from the spec: `pg3.structs.Type` (the file `pg3/structs.py` is
not under `src/`).  "name + optional parent Type; forms a forest; subtype
test = ancestor-chain walk."  `base n` has no parent, `sub n p` has parent
`p`. -/
inductive PGType where
  | base (name : String)
  | sub (name : String) (parent : PGType)
deriving DecidableEq, Repr

def PGType.name : PGType → String
  | .base n => n
  | .sub n _ => n

/-- Modelled from the spec: the subtype test walks the ancestor chain:
`t` is a subtype of `vt` iff `t = vt` or an ancestor of `t` equals `vt`. -/
def PGType.isSubtypeOf : PGType → PGType → Bool
  | t@(.base _), vt => t == vt
  | t@(.sub _ p), vt => t == vt || p.isSubtypeOf vt

/-- Modelled from the spec: `pg3.structs.Object`: "name + Type; a concrete
domain entity". -/
structure Object where
  name : String
  type : PGType
deriving DecidableEq, Repr

/-- Modelled from the spec: `entity.is_instance(vt)`: the entity's type equals
`vt` or is a subtype of it. -/
def Object.isInstance (o : Object) (vt : PGType) : Bool :=
  o.type.isSubtypeOf vt

/-- Modelled from the spec: `pg3.structs.Variable`: "name + Type; a placeholder
used only inside lifted structures". -/
structure Var where
  name : String
  type : PGType
deriving DecidableEq, Repr

/-- Modelled from the spec: `pg3.structs.Predicate`: "name + ordered list of
parameter Types". -/
structure Predicate where
  name : String
  types : List PGType
deriving DecidableEq, Repr

/-- Modelled from the spec: `pg3.structs.LiftedAtom`: "Predicate + ordered list
of Variables". -/
structure LiftedAtom where
  pred : Predicate
  args : List Var
deriving DecidableEq, Repr

/-- Modelled from the spec: `pg3.structs.GroundAtom`: "Predicate + ordered list
of Objects". -/
structure GroundAtom where
  pred : Predicate
  args : List Object
deriving DecidableEq, Repr

/-- Modelled from the spec: `pg3.structs.STRIPSOperator`: "name, parameter
Variables, precondition/add-effect/delete-effect sets of LiftedAtoms". -/
structure STRIPSOperator where
  name : String
  parameters : List Var
  preconditions : List LiftedAtom
  addEffects : List LiftedAtom
  deleteEffects : List LiftedAtom
deriving DecidableEq, Repr

/-- Modelled from the spec: `pg3.structs._GroundSTRIPSOperator`: an operator
with parameters substituted by Objects. -/
structure GroundOp where
  name : String
  objects : List Object
  preconditions : List GroundAtom
  addEffects : List GroundAtom
  deleteEffects : List GroundAtom
deriving DecidableEq, Repr

/-- Modelled from the spec: `pg3.structs.LDLRule`: "name, parameter Variables,
positive/negative state-precondition LiftedAtoms, goal-precondition
LiftedAtoms, and an action template". -/
structure LDLRule where
  name : String
  parameters : List Var
  posPre : List LiftedAtom
  negPre : List LiftedAtom
  goalPre : List LiftedAtom
  op : STRIPSOperator
deriving DecidableEq, Repr

/-- Modelled from the spec: `pg3.structs._GroundLDLRule`: an LDLRule with
parameters bound to Objects; carries substituted preconditions and the
resulting ground operator. -/
structure GroundLDLRule where
  rule : LDLRule
  objects : List Object
  posPre : List GroundAtom
  negPre : List GroundAtom
  goalPre : List GroundAtom
  groundOp : GroundOp
deriving DecidableEq, Repr

/-- Modelled from the spec: `pg3.structs.LiftedDecisionList`: "an ordered
sequence of LDLRules". -/
structure LiftedDecisionList where
  rules : List LDLRule
deriving DecidableEq, Repr

/-- First-match lookup in an association list of variable bindings
(Python dict lookup, insertion keeps first binding of a key). -/
def lookupVar (σ : List (Var × Object)) (v : Var) : Option Object :=
  (σ.find? (fun p => p.1 == v)).map Prod.snd

/-- Substitute a variable under a binding; a variable missing from the binding
is mapped to a placeholder object (the Python code would raise `KeyError`;
all verified uses establish that every variable is bound). -/
def substVar (σ : List (Var × Object)) (v : Var) : Object :=
  (lookupVar σ v).getD ⟨"?unbound", v.type⟩

/-- Substitution of a lifted atom under a binding. -/
def substAtom (σ : List (Var × Object)) (la : LiftedAtom) : GroundAtom :=
  ⟨la.pred, la.args.map (substVar σ)⟩

/-- Modelled from the spec: `LDLRule.ground(objects)`: substitute the rule's
parameters (positionally) by the given objects in preconditions,
goal-preconditions and the action template. -/
def LDLRule.ground (r : LDLRule) (objs : List Object) : GroundLDLRule :=
  let σ := r.parameters.zip objs
  { rule := r
    objects := objs
    posPre := r.posPre.map (substAtom σ)
    negPre := r.negPre.map (substAtom σ)
    goalPre := r.goalPre.map (substAtom σ)
    groundOp :=
      { name := r.op.name
        objects := r.op.parameters.map (substVar σ)
        preconditions := r.op.preconditions.map (substAtom σ)
        addEffects := r.op.addEffects.map (substAtom σ)
        deleteEffects := r.op.deleteEffects.map (substAtom σ) } }

/-! ## The pddlgym-level constraint matcher

`src/pg3/utils.py` translates rules and states into `pddlgym` literals
(erasing predicate argument types to the universal type `"object"`, tagging
goal facts by prefixing the predicate name with `"WANT-"`, tagging negative
preconditions by a negation marker) and calls
`pddlgym.inference.find_satisfying_assignments`. -/

/-- A pddlgym-level ground literal: predicate name, arity and argument
entities (predicate argument types are erased by the translation in
`special_all_ground_rules` / `_cached_all_ground_ldl_rules`). -/
structure Fact where
  pname : String
  arity : ℕ
  args : List Object
deriving DecidableEq, Repr

/-- A pddlgym-level condition literal over variables, with a negation flag. -/
structure Cond where
  neg : Bool
  pname : String
  arity : ℕ
  args : List Var
deriving DecidableEq, Repr

/-- The distinct variables of a condition list, in first-occurrence order. -/
def condVars (conds : List Cond) : List Var :=
  ((conds.map Cond.args).flatten).dedup

/-- The distinct objects of a fact list, in first-occurrence order. -/
def factObjects (facts : List Fact) : List Object :=
  ((facts.map Fact.args).flatten).dedup

/-- All total assignments of the given variables to the given objects, in
lexicographic order of per-variable candidate indices. -/
def allAssignments : List Var → List Object → List (List (Var × Object))
  | [], _ => [[]]
  | v :: vs, objs => objs.flatMap (fun o => (allAssignments vs objs).map ((v, o) :: ·))

/-- Whether an assignment satisfies one condition against a fact database:
positive conditions must ground to a present fact, negated ones to an absent
fact. -/
def condHolds (facts : List Fact) (σ : List (Var × Object)) (c : Cond) : Bool :=
  let f : Fact := ⟨c.pname, c.arity, c.args.map (substVar σ)⟩
  match c.neg with
  | true => !(decide (f ∈ facts))
  | false => decide (f ∈ facts)

/-- Modelled from the spec: `pddlgym.inference.find_satisfying_assignments`
(an external library; the file is not part of this repository).  Spec §4.2:
"return up to K variable-to-object bindings such that the rule's positive
state preconditions hold in the current atoms, negative preconditions do not,
and goal preconditions hold in the goal set — all under the same binding";
candidates are the entities of the fact database.  The enumeration order of
the backtracking search is abstracted to lexicographic order; no verified
claim depends on which satisfying assignment is returned first. -/
def findSatisfyingAssignments (facts : List Fact) (conds : List Cond)
    (maxCount : ℕ) : List (List (Var × Object)) :=
  ((allAssignments (condVars conds) (factObjects facts)).filter
    (fun σ => conds.all (condHolds facts σ))).take maxCount

/-! ## The grounders of `src/pg3/utils.py` -/

/-- Type-erased translation of a ground atom to a pddlgym literal
(`state_literals.append(...)`, utils.py lines 134-138). -/
def toFact (a : GroundAtom) : Fact :=
  ⟨a.pred.name, a.pred.types.length, a.args⟩

/-- Translation of a goal atom to a `"WANT-"`-tagged pddlgym literal
(utils.py lines 140-146). -/
def toWantFact (a : GroundAtom) : Fact :=
  ⟨"WANT-" ++ a.pred.name, a.pred.types.length, a.args⟩

/-- The objects appearing in the given atoms, in first-occurrence order:
`objects_to_pddlgym_typedentities` (utils.py lines 106-113) is built from the
state atoms only. -/
def atomObjects (atoms : List GroundAtom) : List Object :=
  ((atoms.map GroundAtom.args).flatten).dedup

/-- The rule's condition literals: positive preconditions, negated
preconditions, `"WANT-"`-tagged goal preconditions (utils.py lines 115-131). -/
def ruleConds (rule : LDLRule) : List Cond :=
  rule.posPre.map (fun la => ⟨false, la.pred.name, la.pred.types.length, la.args⟩)
  ++ rule.negPre.map (fun la => ⟨true, la.pred.name, la.pred.types.length, la.args⟩)
  ++ rule.goalPre.map (fun la => ⟨false, "WANT-" ++ la.pred.name, la.pred.types.length, la.args⟩)

/-- Insertion into a list sorted by a boolean comparison. -/
def insertBy (le : α → α → Bool) (x : α) : List α → List α
  | [] => [x]
  | y :: ys => if le x y then x :: y :: ys else y :: insertBy le x ys

/-- Insertion sort by a boolean comparison (Python `sorted`). -/
def sortWith (le : α → α → Bool) : List α → List α
  | [] => []
  | x :: xs => insertBy le x (sortWith le xs)

/-- Lexicographic strict comparison of character lists by code point. -/
def strLtB : List Char → List Char → Bool
  | [], [] => false
  | [], _ :: _ => true
  | _ :: _, [] => false
  | a :: as, b :: bs =>
    decide (a.toNat < b.toNat) || (a.toNat == b.toNat && strLtB as bs)

/-- Modelled from the spec: entity ordering used by Python `sorted` on
objects — "ordered by object name" (spec §8), with the type name as a
tie-break. -/
def objLe (a b : Object) : Bool :=
  strLtB a.name.data b.name.data ||
    (a.name == b.name && !(strLtB b.type.name.data a.type.name.data))

/-- Fill rule parameters missing from the matcher's assignment with
`np.random.choice(sorted(objects))` (utils.py lines 158-161 / 275-278):
a uniformly random object drawn from ALL objects, with no type filter.
`rand` is the random oracle, `ctr` the call counter; `np.random.choice`
on an empty list raises `ValueError`. -/
def fillMissing (sortedObjs : List Object) (rand : ℕ → ℕ) :
    List Var → List (Var × Object) → ℕ → Except String (List (Var × Object) × ℕ)
  | [], final, ctr => .ok (final, ctr)
  | v :: vs, final, ctr =>
    if (lookupVar final v).isSome then
      fillMissing sortedObjs rand vs final ctr
    else
      match sortedObjs with
      | [] => .error "ValueError"
      | o :: os =>
        fillMissing (o :: os) rand vs
          (final ++ [(v, (o :: os).getD (rand ctr % (o :: os).length) o)]) (ctr + 1)

/-- Look up every rule parameter in the final matching
(`ground_rule_params = [final_matching[var] for var in rule.parameters]`). -/
def paramObjs : List Var → List (Var × Object) → Option (List Object)
  | [], _ => some []
  | v :: vs, final =>
    match lookupVar final v, paramObjs vs final with
    | some o, some os => some (o :: os)
    | _, _ => none

/-- Turn one matcher assignment into a ground rule (utils.py lines 151-166):
if the assignment leaves parameters unbound, fill them with random fallback
objects, then ground the rule at the resulting parameter objects. -/
def buildGroundRule (rule : LDLRule) (objects : List Object) (rand : ℕ → ℕ)
    (σ : List (Var × Object)) (ctr : ℕ) : Except String (GroundLDLRule × ℕ) :=
  let filled :=
    if σ.length ≠ rule.parameters.length then
      fillMissing (sortWith objLe objects) rand rule.parameters σ ctr
    else
      .ok (σ, ctr)
  match filled with
  | .error e => .error e
  | .ok (final, ctr') =>
    match paramObjs rule.parameters final with
    | some objs => .ok (rule.ground objs, ctr')
    | none => .error "KeyError"

/-- Build ground rules from all returned assignments, threading the random
call counter. -/
def buildGroundRules (rule : LDLRule) (objects : List Object) (rand : ℕ → ℕ) :
    List (List (Var × Object)) → ℕ → Except String (List GroundLDLRule)
  | [], _ => .ok []
  | σ :: σs, ctr =>
    match buildGroundRule rule objects rand σ ctr with
    | .error e => .error e
    | .ok (g, ctr') =>
      match buildGroundRules rule objects rand σs ctr' with
      | .error e => .error e
      | .ok rest => .ok (g :: rest)

/-- Guard for the dict lookups `objects_to_pddlgym_typedentities[arg]` on goal
atoms (utils.py line 141 / 258): every object of a goal atom must occur in
some state atom, else the Python code raises `KeyError`. -/
def goalObjectsOk (atoms goalAtoms : List GroundAtom) : Bool :=
  goalAtoms.all (fun g => g.args.all (fun o => decide (o ∈ atomObjects atoms)))

/-- `special_all_ground_rules` (utils.py lines 54-167): translate the rule and
the state/goal atoms to pddlgym literals, ask the matcher for up to
`maxAssignments` satisfying assignments, and turn each into a ground rule,
filling unbound parameters with random objects.  Despite its docstring
("Get all possible groundings"), it returns at most `maxAssignments` ground
rules. -/
def special_all_ground_rules (rule : LDLRule) (objects : List Object)
    (atoms : List GroundAtom) (goalAtoms : List GroundAtom)
    (rand : ℕ → ℕ) (maxAssignments : ℕ) : Except String (List GroundLDLRule) :=
  if goalObjectsOk atoms goalAtoms then
    let facts := atoms.map toFact ++ goalAtoms.map toWantFact
    let ret := findSatisfyingAssignments facts (ruleConds rule) maxAssignments
    buildGroundRules rule objects rand ret 0
  else
    .error "KeyError"

/-- The goal-precondition literals of `_cached_all_ground_ldl_rules`
(utils.py lines 241-248): that function fails to register the goal
preconditions' predicates in `predicators_to_pddlgym_predicates` (built at
lines 187-199 from state atoms, goal atoms and positive/negative
preconditions only), so a goal precondition whose predicate is not among
those hits an `ipdb.set_trace()` branch and leaves `pred` unbound; in a
non-interactive run this aborts the call, embedded as an error. -/
def cachedGoalConds (known : List Predicate) :
    List LiftedAtom → Except String (List Cond)
  | [] => .ok []
  | la :: las =>
    if decide (la.pred ∈ known) then
      match cachedGoalConds known las with
      | .error e => .error e
      | .ok rest =>
        .ok (⟨false, "WANT-" ++ la.pred.name, la.pred.types.length, la.args⟩ :: rest)
    else
      .error "NameError"

/-- `_cached_all_ground_ldl_rules` (utils.py lines 169-284): same
matcher-based grounding as `special_all_ground_rules`, hard-wired to at most
ONE assignment (`max_assignment_count = 1`); the `static_predicates` argument
is accepted but never used. -/
def cached_all_ground_ldl_rules (rule : LDLRule) (objects : List Object)
    (staticPredicates : List Predicate) (atoms : List GroundAtom)
    (goalAtoms : List GroundAtom) (rand : ℕ → ℕ) :
    Except String (List GroundLDLRule) :=
  let _ := staticPredicates
  if goalObjectsOk atoms goalAtoms then
    let known := atoms.map GroundAtom.pred ++ goalAtoms.map GroundAtom.pred
      ++ rule.posPre.map LiftedAtom.pred ++ rule.negPre.map LiftedAtom.pred
    match cachedGoalConds known rule.goalPre with
    | .error e => .error e
    | .ok goalConds =>
      let conds :=
        rule.posPre.map (fun la => ⟨false, la.pred.name, la.pred.types.length, la.args⟩)
        ++ rule.negPre.map (fun la => ⟨true, la.pred.name, la.pred.types.length, la.args⟩)
        ++ goalConds
      let facts := atoms.map toFact ++ goalAtoms.map toWantFact
      let ret := findSatisfyingAssignments facts conds 1
      buildGroundRules rule objects rand ret 0
  else
    .error "KeyError"

/-- `all_ground_ldl_rules` (utils.py lines 30-52): defaults the optional set
arguments to empty sets and delegates to the cached helper.  The `init_atoms`
argument is accepted but never forwarded. -/
def all_ground_ldl_rules (rule : LDLRule) (atoms : List GroundAtom)
    (objects : List Object) (staticPredicates : List Predicate)
    (initAtoms : List GroundAtom) (goalAtoms : List GroundAtom)
    (rand : ℕ → ℕ) : Except String (List GroundLDLRule) :=
  let _ := initAtoms
  cached_all_ground_ldl_rules rule objects staticPredicates atoms goalAtoms rand

/-- `get_all_valid_actions` (utils.py lines 287-301): the ground operators of
the ground rules produced by `special_all_ground_rules` (with the default
`max_assignments = 1`). -/
def get_all_valid_actions (rule : LDLRule) (atoms : List GroundAtom)
    (objects : List Object) (goal : List GroundAtom) (rand : ℕ → ℕ) :
    Except String (List GroundOp) :=
  (special_all_ground_rules rule objects atoms goal rand 1).map
    (·.map GroundLDLRule.groundOp)

/-- The rule iteration of `query_ldl` (utils.py lines 320-329): for each rule
in order, the first ground operator yielded by `get_all_valid_actions` is
returned; an empty yield moves on to the next rule. -/
def queryLdlRules (atoms : List GroundAtom) (objects : List Object)
    (goal : List GroundAtom) (rand : ℕ → ℕ) :
    List LDLRule → Except String (Option GroundOp)
  | [] => .ok none
  | r :: rs =>
    match get_all_valid_actions r atoms objects goal rand with
    | .error e => .error e
    | .ok [] => queryLdlRules atoms objects goal rand rs
    | .ok (op :: _) => .ok (some op)

/-- `query_ldl` (utils.py lines 304-329): query a lifted decision list; the
`static_predicates` and `init_atoms` arguments are accepted but never used by
the body. -/
def query_ldl (ldl : LiftedDecisionList) (atoms : List GroundAtom)
    (objects : List Object) (goal : List GroundAtom)
    (staticPredicates : List Predicate) (initAtoms : List GroundAtom)
    (rand : ℕ → ℕ) : Except String (Option GroundOp) :=
  let _ := staticPredicates
  let _ := initAtoms
  queryLdlRules atoms objects goal rand ldl.rules

/-! ## Memoization (`functools.lru_cache` on `_cached_all_ground_ldl_rules`)

The process-wide unbounded cache is embedded by explicit state passing: a
call first looks its key up in the cache; on a hit the cached result is
returned unchanged, on a miss the body runs (consuming fresh randomness) and
a successful result is stored.  `lru_cache` does not cache a call that
raises. -/

/-- The cache key: the five frozen arguments of
`_cached_all_ground_ldl_rules`. -/
structure GrounderKey where
  rule : LDLRule
  objects : List Object
  staticPredicates : List Predicate
  atoms : List GroundAtom
  goalAtoms : List GroundAtom
deriving DecidableEq, Repr

/-- The memoization cache state. -/
abbrev GrounderCache : Type :=
  List (GrounderKey × Except String (List GroundLDLRule))

/-- One call of the memoized grounder: cache hit returns the stored result;
a miss runs the body with the current random oracle and stores a successful
result. -/
def cachedCall (cache : GrounderCache) (k : GrounderKey) (rand : ℕ → ℕ) :
    Except String (List GroundLDLRule) × GrounderCache :=
  match cache.find? (fun p => p.1 == k) with
  | some p => (p.2, cache)
  | none =>
    let r := cached_all_ground_ldl_rules k.rule k.objects k.staticPredicates
      k.atoms k.goalAtoms rand
    match r with
    | .ok _ => (r, (k, r) :: cache)
    | .error _ => (r, cache)

/-! ## `apply_operator` (utils.py lines 406-414) -/

/-- `apply_operator`: copy the atom set, discard every delete effect, then
add every add effect. -/
def apply_operator (op : GroundOp) (atoms : Finset GroundAtom) :
    Finset GroundAtom :=
  let afterDel := op.deleteEffects.foldl (fun s a => s.erase a) atoms
  op.addEffects.foldl (fun s a => insert a s) afterDel

/-! ## The spec-side satisfaction notion

Spec §4.3: "positive preconditions ⊆ current atoms, negative preconditions
disjoint from current atoms, goal preconditions ⊆ goal set", under one
binding. -/

/-- A binding `σ` is a satisfying grounding of a rule against a state and a
goal (the spec's live-state precondition check, spec §4.3 / §4.4). -/
def SemSatRule (rule : LDLRule) (atoms goal : List GroundAtom)
    (σ : List (Var × Object)) : Prop :=
  (∀ la ∈ rule.posPre, substAtom σ la ∈ atoms) ∧
  (∀ la ∈ rule.negPre, substAtom σ la ∉ atoms) ∧
  (∀ la ∈ rule.goalPre, substAtom σ la ∈ goal)

/-! ## A concrete scenario (spec §8)

Types {block} (plus a gripper type for the type-safety claim), predicate
`on-table(block)`, operator `pick-up(?b - block)` with precondition
`on-table(?b)`, a rule with parameter `?x - block`, positive precondition
`on-table(?x)`, empty goal, action `pick-up(?x)`, objects {a, b} both
satisfying `on-table`. -/

def blockT : PGType := .base "block"

def gripperT : PGType := .base "gripper"

def objA : Object := ⟨"a", blockT⟩

def objB : Object := ⟨"b", blockT⟩

def objG : Object := ⟨"g", gripperT⟩

def onTableP : Predicate := ⟨"on-table", [blockT]⟩

def clearP : Predicate := ⟨"clear", [blockT]⟩

def varX : Var := ⟨"?x", blockT⟩

def varY : Var := ⟨"?y", gripperT⟩

def onTableX : LiftedAtom := ⟨onTableP, [varX]⟩

def onTableA : GroundAtom := ⟨onTableP, [objA]⟩

def onTableB : GroundAtom := ⟨onTableP, [objB]⟩

def clearA : GroundAtom := ⟨clearP, [objA]⟩

def pickUpOp : STRIPSOperator :=
  ⟨"pick-up", [varX], [onTableX], [], [onTableX]⟩

def pickUpRule : LDLRule :=
  ⟨"pick-up-rule", [varX], [onTableX], [], [], pickUpOp⟩

/-- A two-parameter variant for the type-safety claim: `?y - gripper` is not
constrained by any precondition. -/
def typedOp : STRIPSOperator :=
  ⟨"pick-up2", [varX, varY], [onTableX], [], [onTableX]⟩

def typedRule : LDLRule :=
  ⟨"typed-rule", [varX, varY], [onTableX], [], [], typedOp⟩

/-- A constant random oracle (every `np.random.choice` call picks index 0). -/
def rand0 : ℕ → ℕ := fun _ => 0

/-- A concrete memoization key for the scenario. -/
def key0 : GrounderKey := ⟨pickUpRule, [objA, objB], [], [onTableA, onTableB], []⟩

/-- The cache state after the first scenario call. -/
def cache1 : GrounderCache := [(key0, .ok [pickUpRule.ground [objA]])]

instance {ε α : Type _} [DecidableEq ε] [DecidableEq α] :
    DecidableEq (Except ε α) := fun x y =>
  match x, y with
  | .ok a, .ok b =>
    if h : a = b then .isTrue (by rw [h])
    else .isFalse (fun c => h (Except.ok.inj c))
  | .error e, .error f =>
    if h : e = f then .isTrue (by rw [h])
    else .isFalse (fun c => h (Except.error.inj c))
  | .ok _, .error _ => .isFalse (fun c => Except.noConfusion c)
  | .error _, .ok _ => .isFalse (fun c => Except.noConfusion c)

/-! ## The generic heuristic-search engine (`src/pg3/search.py`)

Embedding conventions for the search code:
* edge costs, cumulative costs and heuristic values (Python floats) are `ℤ`;
  `float("inf")` initial values are `⊤` in `WithTop ℤ` (hill climbing) or are
  eliminated by treating the first root specially (best-node tracking);
* the wall-clock timeout checks (`time.perf_counter()` at search.py lines
  64 and 76) are modelled as never firing — all verified claims are stated
  "with sufficient budgets";
* the `heapq` priority queue is a list popped at the minimal
  (priority, tiebreak) pair in lexicographic order, exactly the order the
  heap delivers since tiebreaks are unique;
* ghost fields (`expandedG`, `pushedG`, `evaledG`) record history for
  specification only; no computed result depends on them;
* the `while` loops are run on explicit fuel; `none` means the fuel was
  exhausted, and theorems quantify over runs that return. -/

/-- `_HeuristicSearchNode` (search.py lines 19-24). -/
inductive SNode (S A : Type) where
  | mk (state : S) (edgeCost : ℤ) (cumCost : ℤ)
       (parent : Option (SNode S A)) (action : Option A)

def SNode.state : SNode S A → S
  | .mk s _ _ _ _ => s

def SNode.edgeCost : SNode S A → ℤ
  | .mk _ e _ _ _ => e

def SNode.cumCost : SNode S A → ℤ
  | .mk _ _ c _ _ => c

def SNode.parent : SNode S A → Option (SNode S A)
  | .mk _ _ _ p _ => p

def SNode.action : SNode S A → Option A
  | .mk _ _ _ _ a => a

/-- A root search node (`_HeuristicSearchNode(initial_state, 0, 0)`). -/
def rootNode (s : S) : SNode S A := .mk s 0 0 none none

/-- `_finish_plan` (search.py lines 108-121): walk the parent chain and
return the forward state and action sequences. -/
def finishPlan : SNode S A → List S × List A
  | .mk s _ _ none _ => ([s], [])
  | .mk s _ _ (some p) a =>
    let r := finishPlan p
    (r.1 ++ [s], r.2 ++ a.toList)

/-- Strict lexicographic comparison of (priority, tiebreak) pairs — the
order in which `heapq` delivers queue entries. -/
def entryLt (x y : ℤ × ℕ) : Bool :=
  decide (x.1 < y.1) || (x.1 == y.1 && decide (x.2 < y.2))

/-- Pop the queue entry minimal in (priority, tiebreak) order, returning it
and the remaining entries. -/
def popMin : List (ℤ × ℕ × SNode S A) →
    Option ((ℤ × ℕ × SNode S A) × List (ℤ × ℕ × SNode S A))
  | [] => none
  | e :: es =>
    match popMin es with
    | none => some (e, [])
    | some (m, rest) =>
      if entryLt (m.1, m.2.1) (e.1, e.2.1) then some (m, e :: rest)
      else some (e, es)

/-- `state_to_best_path_cost` lookup (`defaultdict` mapping absent states to
`float("inf")`). -/
def lookupCost [DecidableEq S] (m : List (S × ℤ)) (s : S) : Option ℤ :=
  (m.find? (fun p => p.1 == s)).map Prod.snd

/-- `state_to_best_path_cost[s] <= c` (absent = infinity, so `false`). -/
def costLE [DecidableEq S] (m : List (S × ℤ)) (s : S) (c : ℤ) : Bool :=
  match lookupCost m s with
  | none => false
  | some v => decide (v ≤ c)

/-- `state_to_best_path_cost[s] < c` (absent = infinity, so `false`). -/
def costLT [DecidableEq S] (m : List (S × ℤ)) (s : S) (c : ℤ) : Bool :=
  match lookupCost m s with
  | none => false
  | some v => decide (v < c)

/-- The mutable state of `_run_heuristic_search`'s loop, plus ghost history
fields (`expandedG`: states expanded with their cumulative cost; `pushedG`:
(state, cost) of every queue push; `evaledG`: every `get_priority`
evaluation). -/
structure SearchState (S A : Type) where
  queue : List (ℤ × ℕ × SNode S A)
  costs : List (S × ℤ)
  best : SNode S A
  bestPrio : ℤ
  tb : ℕ
  nExp : ℕ
  nEvals : ℕ
  expandedG : List (S × ℤ)
  pushedG : List (S × ℤ)
  evaledG : List (ℤ × SNode S A)

/-- The successor-processing loop of `_run_heuristic_search` (search.py
lines 75-102): skip children not improving the recorded cost; push improved
children (recording the new cost); update the best node; on `lazy_expansion`
re-push the parent at the child's priority and stop; stop when the
evaluation budget is reached. -/
def procSuccs [DecidableEq S] (prio : SNode S A → ℤ) (maxEvals : ℕ)
    (lazy : Bool) (node : SNode S A) :
    List (A × S × ℤ) → SearchState S A → SearchState S A
  | [], st => st
  | (a, s', c) :: rest, st =>
    let childCost := node.cumCost + c
    if costLE st.costs s' childCost then
      procSuccs prio maxEvals lazy node rest st
    else
      let child : SNode S A := .mk s' c childCost (some node) (some a)
      let p := prio child
      let st' : SearchState S A :=
        { st with
          queue := (p, st.tb, child) :: st.queue
          tb := st.tb + 1
          nEvals := st.nEvals + 1
          costs := (s', childCost) :: st.costs
          pushedG := (s', childCost) :: st.pushedG
          evaledG := (p, child) :: st.evaledG }
      if p < st.bestPrio then
        let st'' := { st' with best := child, bestPrio := p }
        if lazy then
          { st'' with queue := (p, st''.tb, node) :: st''.queue, tb := st''.tb + 1 }
        else if maxEvals ≤ st''.nEvals then st''
        else procSuccs prio maxEvals lazy node rest st''
      else if maxEvals ≤ st'.nEvals then st'
      else procSuccs prio maxEvals lazy node rest st'

/-- How a search run ended: a goal state was popped, or the queue emptied /
a resource budget was exhausted. -/
inductive ExitKind where
  | goalFound
  | exhausted
deriving DecidableEq, Repr

/-- The result of a search run: the returned plan, the exit kind, the node
the plan was reconstructed from, and the final loop state (with ghost
history). -/
structure SearchResult (S A : Type) where
  states : List S
  actions : List A
  exit : ExitKind
  node : SNode S A
  final : SearchState S A

def mkResult (k : ExitKind) (n : SNode S A) (st : SearchState S A) :
    SearchResult S A :=
  ⟨(finishPlan n).1, (finishPlan n).2, k, n, st⟩

/-- The main loop of `_run_heuristic_search` (search.py lines 64-105), on
fuel: exit with the best node seen when the queue is empty or a budget is
exhausted; otherwise pop the minimal entry, skip it if a strictly better
path to its state is recorded, return its plan if it is a goal, else expand
it. -/
def searchLoop [DecidableEq S] (goal : S → Bool) (succ : S → List (A × S × ℤ))
    (prio : SNode S A → ℤ) (maxExp maxEvals : ℕ) (lazy : Bool) :
    ℕ → SearchState S A → Option (SearchResult S A)
  | 0, _ => none
  | fuel + 1, st =>
    if st.queue.isEmpty || decide (maxExp ≤ st.nExp) || decide (maxEvals ≤ st.nEvals) then
      some (mkResult .exhausted st.best st)
    else
      match popMin st.queue with
      | none => none
      | some ((_, _, node), rest) =>
        if costLT st.costs node.state node.cumCost then
          searchLoop goal succ prio maxExp maxEvals lazy fuel { st with queue := rest }
        else if goal node.state then
          some (mkResult .goalFound node { st with queue := rest })
        else
          searchLoop goal succ prio maxExp maxEvals lazy fuel
            (procSuccs prio maxEvals lazy node (succ node.state)
              { st with
                queue := rest
                nExp := st.nExp + 1
                expandedG := (node.state, node.cumCost) :: st.expandedG })

/-- Add one (non-first) root to the initial search state (search.py lines
53-61). -/
def addRoot (prio : SNode S A → ℤ) (st : SearchState S A) (s : S) :
    SearchState S A :=
  let root : SNode S A := rootNode s
  let p := prio root
  let st' : SearchState S A :=
    { st with
      queue := (p, st.tb, root) :: st.queue
      tb := st.tb + 1
      nEvals := st.nEvals + 1
      pushedG := (s, 0) :: st.pushedG
      evaledG := (p, root) :: st.evaledG }
  if p < st.bestPrio then { st' with best := root, bestPrio := p } else st'

/-- The root-initialization loop (search.py lines 53-62): the first root
always becomes the best node (`best_node is None`); later roots only on a
strictly better priority.  Empty `initial_states` hits the Python
`assert best_node is not None`, embedded as `none`. -/
def initState (prio : SNode S A → ℤ) : List S → Option (SearchState S A)
  | [] => none
  | i :: is =>
    let root : SNode S A := rootNode i
    let p := prio root
    some (is.foldl (addRoot prio)
      { queue := [(p, 0, root)]
        costs := []
        best := root
        bestPrio := p
        tb := 1
        nExp := 0
        nEvals := 1
        expandedG := []
        pushedG := [(i, 0)]
        evaledG := [(p, root)] })

/-- `_run_heuristic_search` (search.py lines 28-105). -/
def runHeuristicSearch [DecidableEq S] (fuel : ℕ) (inits : List S)
    (goal : S → Bool) (succ : S → List (A × S × ℤ)) (prio : SNode S A → ℤ)
    (maxExp maxEvals : ℕ) (lazy : Bool) : Option (SearchResult S A) :=
  match initState prio inits with
  | none => none
  | some st => searchLoop goal succ prio maxExp maxEvals lazy fuel st

/-- `run_gbfs` (search.py lines 124-136): priority is the heuristic alone. -/
def run_gbfs [DecidableEq S] (fuel : ℕ) (inits : List S) (goal : S → Bool)
    (succ : S → List (A × S × ℤ)) (h : S → ℤ) (maxExp maxEvals : ℕ)
    (lazy : Bool) : Option (SearchResult S A) :=
  runHeuristicSearch fuel inits goal succ (fun n => h n.state) maxExp maxEvals lazy

/-- `run_astar` (search.py lines 139-151): priority is heuristic plus
cumulative path cost. -/
def run_astar [DecidableEq S] (fuel : ℕ) (inits : List S) (goal : S → Bool)
    (succ : S → List (A × S × ℤ)) (h : S → ℤ) (maxExp maxEvals : ℕ)
    (lazy : Bool) : Option (SearchResult S A) :=
  runHeuristicSearch fuel inits goal succ (fun n => h n.state + n.cumCost)
    maxExp maxEvals lazy

/-- Chains that the search engine can actually build: a root node at an
initial state, or a child produced from a parent by the successor function,
with the cumulative cost accumulated along the chain. -/
inductive NodeOK (inits : List S) (succ : S → List (A × S × ℤ)) :
    SNode S A → Prop where
  | root (s : S) (h : s ∈ inits) : NodeOK inits succ (.mk s 0 0 none none)
  | child (parent : SNode S A) (a : A) (s' : S) (c : ℤ)
      (hp : NodeOK inits succ parent) (hs : (a, s', c) ∈ succ parent.state) :
      NodeOK inits succ (.mk s' c (parent.cumCost + c) (some parent) (some a))

/-! ## Enforced hill climbing (`run_hill_climbing`, search.py lines 154-269)

`best_heuristic = float("inf")` is `(⊤ : WithTop ℤ)`; the `parallelize`
branch is not modelled (the sequential branch is; the claims do not involve
it); `print` and logging are dropped. -/

/-- The accumulator of one depth level's successor generation: the child
nodes generated so far, the running best (heuristic, node), the visited set
and the early-break flag. -/
structure ScanAcc (S A : Type) where
  succs : List (SNode S A)
  bestH : WithTop ℤ
  bestChild : Option (SNode S A)
  visited : List S
  earlyBreak : Bool

/-- Record one freshly created child (search.py lines 214-228): mark it
visited, append it to this depth's successors, and update the running best
on a strictly smaller heuristic. -/
def hcScanUpd (h : S → ℤ) (s' : S) (child : SNode S A)
    (acc : ScanAcc S A) : ScanAcc S A :=
  if ((h s' : ℤ) : WithTop ℤ) < acc.bestH then
    { acc with
      succs := acc.succs ++ [child]
      visited := s' :: acc.visited
      bestH := ((h s' : ℤ) : WithTop ℤ)
      bestChild := some child }
  else
    { acc with
      succs := acc.succs ++ [child]
      visited := s' :: acc.visited }

/-- The early-termination test of the inner child loop (search.py lines
230-233). -/
def hcEarlyStop (thresh : Option ℤ) (bH : WithTop ℤ) : Bool :=
  match thresh with
  | some th => decide (bH ≤ (th : WithTop ℤ))
  | none => false

def hcScan [DecidableEq S] (h : S → ℤ) (thresh : Option ℤ)
    (parent : SNode S A) :
    List (A × S × ℤ) → ScanAcc S A → ScanAcc S A
  | [], acc => acc
  | (a, s', c) :: rest, acc =>
    if s' ∈ acc.visited then hcScan h thresh parent rest acc
    else
      let child : SNode S A := .mk s' c (parent.cumCost + c) (some parent) (some a)
      let acc' := hcScanUpd h s' child acc
      if hcEarlyStop thresh acc'.bestH then { acc' with earlyBreak := true }
      else hcScan h thresh parent rest acc'

/-- One depth level: generate successors of every node of the current depth
(search.py lines 209-233). -/
def hcDepthStep [DecidableEq S] (h : S → ℤ) (thresh : Option ℤ)
    (succ : S → List (A × S × ℤ)) :
    List (SNode S A) → ScanAcc S A → ScanAcc S A
  | [], acc => acc
  | parent :: ps, acc =>
    hcDepthStep h thresh succ ps (hcScan h thresh parent (succ parent.state) acc)

/-- The result of the depth loop: the best heuristic and child found, the
per-depth best-heuristic entries (`all_best_heuristics`), the visited set
and the early-break flag. -/
structure DepthRes (S A : Type) where
  bestH : WithTop ℤ
  bestChild : Option (SNode S A)
  allBest : List (WithTop ℤ)
  visited : List S
  earlyBreak : Bool

/-- The depth loop (search.py lines 205-252): explore one depth, append the
running best to `all_best_heuristics`, stop as soon as the best improves on
`last_heuristic`, else descend to the next depth with the generated
successors. -/
def hcDepthLoop [DecidableEq S] (h : S → ℤ) (thresh : Option ℤ)
    (succ : S → List (A × S × ℤ)) (lastH : WithTop ℤ) :
    ℕ → List (SNode S A) → ScanAcc S A → List (WithTop ℤ) → DepthRes S A
  | 0, _, acc, allBest => ⟨acc.bestH, acc.bestChild, allBest, acc.visited, acc.earlyBreak⟩
  | n + 1, parents, acc, allBest =>
    let acc' := hcDepthStep h thresh succ parents
      { succs := [], bestH := acc.bestH, bestChild := acc.bestChild
        visited := acc.visited, earlyBreak := acc.earlyBreak }
    let allBest' := allBest ++ [acc'.bestH]
    if acc'.bestH < lastH then
      ⟨acc'.bestH, acc'.bestChild, allBest', acc'.visited, acc'.earlyBreak⟩
    else
      hcDepthLoop h thresh succ lastH n acc'.succs acc' allBest'

/-- The outer `while True` of `run_hill_climbing` (search.py lines 190-266),
on fuel: stop at the threshold or at a goal; search the depth levels for an
improving child; stop if none improves; else move to the best child, extend
the heuristic trace by the per-depth bests, and iterate. -/
def hcLoop [DecidableEq S] (goal : S → Bool) (succ : S → List (A × S × ℤ))
    (h : S → ℤ) (thresh : Option ℤ) (depth : ℕ) :
    ℕ → SNode S A → List S → WithTop ℤ → List (WithTop ℤ) →
    Option (SNode S A × List (WithTop ℤ))
  | 0, _, _, _, _ => none
  | fuel + 1, cur, vis, lastH, trace =>
    if (match thresh with
        | some th => decide (lastH ≤ (th : WithTop ℤ))
        | none => false) then
      some (cur, trace)
    else if goal cur.state then
      some (cur, trace)
    else
      let r := hcDepthLoop h thresh succ lastH (depth + 1) [cur]
        { succs := [], bestH := ⊤, bestChild := none
          visited := vis, earlyBreak := false } []
      match r.bestChild with
      | none => some (cur, trace)
      | some bc =>
        if lastH ≤ r.bestH then some (cur, trace)
        else if r.earlyBreak then some (bc, trace ++ r.allBest)
        else hcLoop goal succ h thresh depth fuel bc r.visited r.bestH
          (trace ++ r.allBest)

/-- Pick the best root (search.py lines 174-187): the first initial state
always becomes current (`cur_node is None`); later ones on a strictly
smaller heuristic; every initial state is marked visited. -/
def hcInitFold (h : S → ℤ) :
    List S → (SNode S A × ℤ) → List S → ((SNode S A × ℤ) × List S)
  | [], cur, vis => (cur, vis)
  | i :: is, cur, vis =>
    let rh := h i
    let cur' := if rh < cur.2 then ((rootNode i : SNode S A), rh) else cur
    hcInitFold h is cur' (vis ++ [i])

/-- `run_hill_climbing` (search.py lines 154-269): returns the state
sequence, action sequence and heuristic trace; `none` when the fuel runs out
(the Python loop has no budget) or `initial_states` is empty (the Python
code hits an assert). -/
def run_hill_climbing [DecidableEq S] (fuel : ℕ) (inits : List S)
    (goal : S → Bool) (succ : S → List (A × S × ℤ)) (h : S → ℤ)
    (thresh : Option ℤ) (depth : ℕ) :
    Option (List S × List A × List (WithTop ℤ)) :=
  match inits with
  | [] => none
  | i :: is =>
    let start := hcInitFold h is ((rootNode i : SNode S A), h i) [i]
    match hcLoop goal succ h thresh depth fuel start.1.1 start.2
        (start.1.2 : WithTop ℤ) [(start.1.2 : WithTop ℤ)] with
    | none => none
    | some (cur, trace) =>
      some ((finishPlan cur).1, (finishPlan cur).2, trace)

/-- The claim's trace property, decidably: each entry is ≤ its predecessor. -/
def nonIncreasingB : List (WithTop ℤ) → Bool
  | [] => true
  | [_] => true
  | a :: b :: rest => decide (b ≤ a) && nonIncreasingB (b :: rest)

/-- Concrete three-state graph for the hill-climbing trace claim:
`0 → 1 → 2`, heuristics 3, 5, 1: at enforced depth 1 the improving
grandchild is found only after recording the worse depth-0 best. -/
def succ4 : ℕ → List (ℕ × ℕ × ℤ)
  | 0 => [(0, 1, 1)]
  | 1 => [(0, 2, 1)]
  | _ => []

def h4 : ℕ → ℤ
  | 0 => 3
  | 1 => 5
  | _ => 1

/-- Invariant of the search loop used for the anytime/shape claims: every
queued node and the best node are constructible chains; the best node was
evaluated and its priority is minimal among all evaluations so far. -/
structure SInv (inits : List S) (succ : S → List (A × S × ℤ))
    (st : SearchState S A) : Prop where
  queueOK : ∀ e ∈ st.queue, NodeOK inits succ (e.2.2 : SNode S A)
  bestOK : NodeOK inits succ st.best
  bestEvaled : (st.bestPrio, st.best) ∈ st.evaledG
  bestMin : ∀ e ∈ st.evaledG, st.bestPrio ≤ e.1

/-- A concrete root node over natural-number states. -/
def root00 : SNode ℕ ℕ := .mk 0 0 0 none none

/-- The result of exhausting a successor-less one-state search space. -/
def res0 : SearchResult ℕ ℕ :=
  ⟨[0], [], .exhausted, root00,
    ⟨[], [], root00, 0, 1, 1, 1, [(0, 0)], [(0, 0)], [(0, root00)]⟩⟩

/-! ## Weighted-graph traces (for the A* path-cost claim)

A trace is a list of actions, edge costs and visited states, each step drawn
from the successor function.  These are the spec-side notions the A*
optimality claim quantifies over. -/

/-- `IsTrace succ s as cs ss`: starting from `s`, the actions `as` with edge
costs `cs` traverse the states `ss`, each step belonging to the successor
function. -/
def IsTrace (succ : S → List (A × S × ℤ)) : S → List A → List ℤ → List S → Prop
  | _, [], [], [] => True
  | s, a :: as, c :: cs, s' :: ss => (a, s', c) ∈ succ s ∧ IsTrace succ s' as cs ss
  | _, _, _, _ => False

/-- The final state of a trace starting at `s` through `ss`. -/
def traceEnd (s : S) (ss : List S) : S := ss.getLastD s

/-- `s` is reachable from some initial state at total cost `k`. -/
def ReachCost (inits : List S) (succ : S → List (A × S × ℤ)) (s : S) (k : ℤ) :
    Prop :=
  ∃ i ∈ inits, ∃ as cs ss, IsTrace succ i as cs ss ∧ traceEnd i ss = s ∧
    cs.sum = k

/-- Some goal state is reachable from `s` at total cost `k`. -/
def GoalFrom (succ : S → List (A × S × ℤ)) (goal : S → Bool) (s : S) (k : ℤ) :
    Prop :=
  ∃ as cs ss, IsTrace succ s as cs ss ∧ goal (traceEnd s ss) = true ∧
    cs.sum = k

/-- Some goal state is reachable from some initial state at total cost
`k`. -/
def GoalReach (inits : List S) (succ : S → List (A × S × ℤ)) (goal : S → Bool)
    (k : ℤ) : Prop :=
  ∃ i ∈ inits, GoalFrom succ goal i k

/-- The spec's admissibility requirement on the heuristic: non-negative, and
never exceeding the cost of any trace from the state to a goal. -/
def Admissible (succ : S → List (A × S × ℤ)) (goal : S → Bool) (h : S → ℤ) :
    Prop :=
  ∀ s : S, 0 ≤ h s ∧ ∀ k : ℤ, GoalFrom succ goal s k → h s ≤ k

/-- The A* priority function of `run_astar`. -/
def astarPrio (h : S → ℤ) : SNode S A → ℤ :=
  fun n => h n.state + n.cumCost

/-- The invariant of the A* run (lazy expansion off).  `univ` is a finite
superset of the reachable states (for termination).  The ghost fields tie
recorded path costs, pushes and expansions to genuine traces:
every queued node is a well-formed chain carrying its own cost and the A*
priority; every recorded/pushed cost is the cost of an actual trace; every
ever-pushed (state, cost) pair is still queued, or was expanded, or has been
strictly improved upon; expanded states are not goals and all their
successors carry a recorded cost at most the expansion cost plus the edge
cost; every initial state was pushed at cost 0.  `nd`/`pend` weaken the
successor condition for the expansion pair `nd` to the successors not in
`pend` — during `procSuccs` the pending suffix is still unprocessed; the
established invariant is the one with `pend = []`. -/
structure AInv [DecidableEq S] (univ : Finset S) (inits : List S)
    (succ : S → List (A × S × ℤ)) (goal : S → Bool) (h : S → ℤ)
    (nd : S × ℤ) (pend : List (A × S × ℤ))
    (st : SearchState S A) : Prop where
  queueOK : ∀ e ∈ st.queue, NodeOK inits succ (e.2.2 : SNode S A)
  queuePrio : ∀ e ∈ st.queue, e.1 = astarPrio h e.2.2
  queueUniv : ∀ e ∈ st.queue, (e.2.2 : SNode S A).state ∈ univ
  costsReach : ∀ p ∈ st.costs, ReachCost inits succ p.1 p.2
  costsUniv : ∀ p ∈ st.costs, p.1 ∈ univ
  costsPushed : ∀ (s : S) (v : ℤ), lookupCost st.costs s = some v →
    (s, v) ∈ st.pushedG
  pushedReach : ∀ p ∈ st.pushedG, ReachCost inits succ p.1 p.2
  pushedDisj : ∀ p ∈ st.pushedG,
    (∃ e ∈ st.queue, (e.2.2 : SNode S A).state = p.1 ∧
      (e.2.2 : SNode S A).cumCost = p.2) ∨
    p ∈ st.expandedG ∨ costLT st.costs p.1 p.2 = true
  expGoal : ∀ p ∈ st.expandedG, goal p.1 = false
  expSucc : ∀ p ∈ st.expandedG, ∀ x ∈ succ p.1,
    (p = nd ∧ x ∈ pend) ∨ costLE st.costs x.2.1 (p.2 + x.2.2) = true
  rootIn : ∀ i ∈ inits, (i, (0 : ℤ)) ∈ st.pushedG

/-- Termination measure, first component: the number of `univ` states with
no recorded cost. -/
def measOne [DecidableEq S] (univ : Finset S) (st : SearchState S A) : ℕ :=
  (univ.filter (fun s => lookupCost st.costs s = none)).card

/-- Termination measure, second component: the sum of the recorded costs
over `univ` (clipped at zero; all recorded costs are non-negative). -/
def measTwo [DecidableEq S] (univ : Finset S) (st : SearchState S A) : ℕ :=
  univ.sum (fun s =>
    match lookupCost st.costs s with
    | some v => v.toNat
    | none => 0)

/-- Concrete two-node graph for the A* witness: `0 —1→ 1`, goal `1`. -/
def succW : ℕ → List (ℕ × ℕ × ℤ)
  | 0 => [(0, 1, 1)]
  | _ => []

def goalW : ℕ → Bool := fun s => s == 1

/-- Budget-free idealization of `procSuccs` (proof infrastructure, not a
source translation): identical successor processing with the evaluation
budget removed.  `procSuccs` coincides with it whenever the budget exceeds
every evaluation count the run reaches. -/
def procSuccsU [DecidableEq S] (prio : SNode S A → ℤ) (node : SNode S A) :
    List (A × S × ℤ) → SearchState S A → SearchState S A
  | [], st => st
  | (a, s', c) :: rest, st =>
    let childCost := node.cumCost + c
    if costLE st.costs s' childCost then
      procSuccsU prio node rest st
    else
      let child : SNode S A := .mk s' c childCost (some node) (some a)
      let p := prio child
      let st' : SearchState S A :=
        { st with
          queue := (p, st.tb, child) :: st.queue
          tb := st.tb + 1
          nEvals := st.nEvals + 1
          costs := (s', childCost) :: st.costs
          pushedG := (s', childCost) :: st.pushedG
          evaledG := (p, child) :: st.evaledG }
      if p < st.bestPrio then
        procSuccsU prio node rest { st' with best := child, bestPrio := p }
      else procSuccsU prio node rest st'

/-- Budget-free idealization of `searchLoop` (proof infrastructure, not a
source translation): the same loop with the expansion and evaluation
budgets removed, exiting only on an empty queue or a popped goal. -/
def searchLoopU [DecidableEq S] (goal : S → Bool)
    (succ : S → List (A × S × ℤ)) (prio : SNode S A → ℤ) :
    ℕ → SearchState S A → Option (SearchResult S A)
  | 0, _ => none
  | fuel + 1, st =>
    if st.queue.isEmpty then some (mkResult .exhausted st.best st)
    else
      match popMin st.queue with
      | none => none
      | some ((_, _, node), rest) =>
        if costLT st.costs node.state node.cumCost then
          searchLoopU goal succ prio fuel { st with queue := rest }
        else if goal node.state then
          some (mkResult .goalFound node { st with queue := rest })
        else
          searchLoopU goal succ prio fuel
            (procSuccsU prio node (succ node.state)
              { st with
                queue := rest
                nExp := st.nExp + 1
                expandedG := (node.state, node.cumCost) :: st.expandedG })

/-- The suffix of an optimal goal trace, walked from state `s` reached at
prefix cost `g`: each step is a real successor step, every visited state is
reached at its cheapest possible cost, and the last state is a goal with
total cost `cstar`. -/
def OptSuffix (inits : List S) (succ : S → List (A × S × ℤ))
    (goal : S → Bool) (cstar : ℤ) :
    S → ℤ → List A → List ℤ → List S → Prop
  | s, g, [], [], [] =>
      goal s = true ∧ g = cstar ∧ ∀ m, ReachCost inits succ s m → g ≤ m
  | s, g, a :: as, c :: cs, s' :: ss =>
      (a, s', c) ∈ succ s ∧ (∀ m, ReachCost inits succ s m → g ≤ m) ∧
      OptSuffix inits succ goal cstar s' (g + c) as cs ss
  | _, _, _, _, _ => False

/-! ## Supporting lemmas -/

lemma mem_foldl_erase {l : List GroundAtom} {s : Finset GroundAtom}
    {x : GroundAtom} :
    x ∈ l.foldl (fun s a => s.erase a) s ↔ x ∈ s ∧ x ∉ l := by
  induction l generalizing s with
  | nil => simp
  | cons a l ih =>
    simp only [List.foldl_cons, ih, Finset.mem_erase, List.mem_cons]
    tauto

lemma mem_foldl_insert {l : List GroundAtom} {s : Finset GroundAtom}
    {x : GroundAtom} :
    x ∈ l.foldl (fun s a => insert a s) s ↔ x ∈ s ∨ x ∈ l := by
  induction l generalizing s with
  | nil => simp
  | cons a l ih =>
    simp only [List.foldl_cons, ih, Finset.mem_insert, List.mem_cons]
    tauto

lemma buildGroundRules_ok_length {rule : LDLRule} {objects : List Object}
    {rand : ℕ → ℕ} {σs : List (List (Var × Object))} {ctr : ℕ}
    {l : List GroundLDLRule}
    (h : buildGroundRules rule objects rand σs ctr = .ok l) :
    l.length = σs.length := by
  induction σs generalizing ctr l with
  | nil =>
    simp only [buildGroundRules] at h
    cases h
    rfl
  | cons σ σs ih =>
    simp only [buildGroundRules] at h
    split at h
    · cases h
    · split at h
      · cases h
      · rename_i hr
        cases h
        simp [ih hr]

lemma findSatisfyingAssignments_one_length (facts : List Fact)
    (conds : List Cond) :
    (findSatisfyingAssignments facts conds 1).length ≤ 1 := by
  simp only [findSatisfyingAssignments]
  exact (List.length_take_le 1 _)

/-! ## Claim theorems: grounder cardinality, type safety, memoization,
operator application -/

/-- Claim C1: the grounder `_cached_all_ground_ldl_rules` is claimed to
return the complete, lexicographically ordered list of all type-consistent
ground rule instances — two of them in the concrete {a, b} `on-table`
scenario.  In fact the function calls the pddlgym matcher with
`max_assignment_count = 1` and therefore returns AT MOST ONE ground rule on
every input on which it returns at all; on the concrete scenario it returns
exactly one ground rule (the grounding at `a`), not two. -/
theorem claim_C1_grounder_returns_at_most_one :
    (∀ (rule : LDLRule) (objects : List Object) (statics : List Predicate)
      (atoms goals : List GroundAtom) (rand : ℕ → ℕ) (l : List GroundLDLRule),
      cached_all_ground_ldl_rules rule objects statics atoms goals rand = .ok l →
        l.length ≤ 1)
    ∧ all_ground_ldl_rules pickUpRule [onTableA, onTableB] [objA, objB] [] [] []
        rand0 = .ok [pickUpRule.ground [objA]] := by
  constructor
  · intro rule objects statics atoms goals rand l h
    simp only [cached_all_ground_ldl_rules] at h
    by_cases hg : goalObjectsOk atoms goals = true
    · rw [if_pos hg] at h
      cases hc : cachedGoalConds
          (atoms.map GroundAtom.pred ++ goals.map GroundAtom.pred
            ++ rule.posPre.map LiftedAtom.pred ++ rule.negPre.map LiftedAtom.pred)
          rule.goalPre with
      | error e => rw [hc] at h; cases h
      | ok gc =>
        rw [hc] at h
        have hl := buildGroundRules_ok_length h
        rw [hl]
        exact findSatisfyingAssignments_one_length _ _
    · rw [if_neg hg] at h
      cases h
  · decide

/-- Witness for the hypothesis of C1's first conjunct: the concrete scenario
returns a one-element list. -/
theorem claim_C1_grounder_returns_at_most_one_witness :
    ([pickUpRule.ground [objA]] : List GroundLDLRule).length ≤ 1 :=
  claim_C1_grounder_returns_at_most_one.1 pickUpRule [objA, objB] []
    [onTableA, onTableB] [] rand0 _ (by decide)

/-- Claim C3: both grounders are claimed to bind every rule parameter to an
object whose type equals or is a subtype of the parameter's declared type;
in particular a parameter left unconstrained by the preconditions is claimed
to be filled with an object of the correct type.  In fact the fallback
(utils.py lines 158-161 / 275-278) is `np.random.choice(sorted(objects))`
over ALL objects with no type filter: on the concrete two-typed input, the
run whose random draw picks index 0 binds the gripper-typed parameter `?y`
to the block-typed object `a`, which is not an instance of `?y`'s type. -/
theorem claim_C3_fallback_ignores_types :
    special_all_ground_rules typedRule [objA, objG] [onTableA] [] rand0 1 =
      .ok [typedRule.ground [objA, objA]]
    ∧ typedRule.parameters[1]? = some varY
    ∧ (typedRule.ground [objA, objA]).objects[1]? = some objA
    ∧ objA.isInstance varY.type = false := by
  refine ⟨by decide, by decide, by decide, by decide⟩

/-- Claim C6: two calls of the memoized grounder with identical arguments
return identical results in identical order: the first successful call
stores its result under the frozen-argument key, and the second call is a
cache hit, returning the stored list unchanged — regardless of the random
draws the second call would otherwise make. -/
theorem claim_C6_memoized_grounder_deterministic (cache : GrounderCache)
    (k : GrounderKey) (rand₁ rand₂ : ℕ → ℕ) (l : List GroundLDLRule)
    (c₁ : GrounderCache) (h : cachedCall cache k rand₁ = (.ok l, c₁)) :
    (cachedCall c₁ k rand₂).1 = .ok l := by
  simp only [cachedCall] at h ⊢
  cases hfind : cache.find? (fun p => p.1 == k) with
  | some p =>
    rw [hfind] at h
    simp only [Prod.mk.injEq] at h
    obtain ⟨h1, h2⟩ := h
    rw [← h2, hfind]
    exact h1
  | none =>
    rw [hfind] at h
    cases hr : cached_all_ground_ldl_rules k.rule k.objects k.staticPredicates
        k.atoms k.goalAtoms rand₁ with
    | error e => rw [hr] at h; simp at h
    | ok l' =>
      rw [hr] at h
      simp only [Prod.mk.injEq] at h
      obtain ⟨h1, h2⟩ := h
      rw [← h2]
      simp [List.find?, h1]

/-- Witness for C6: a concrete first call followed by a second call with a
different random oracle returns the same one-element list. -/
theorem claim_C6_memoized_grounder_deterministic_witness :
    (cachedCall cache1 key0 (fun n => n + 7)).1 = .ok [pickUpRule.ground [objA]] :=
  claim_C6_memoized_grounder_deterministic [] key0 rand0 (fun n => n + 7)
    [pickUpRule.ground [objA]] cache1 (by decide)

/-- Claim C10: `apply_operator` returns exactly (atoms minus the delete
effects) union the add effects; consequently an atom appearing in both the
delete and the add effects is present in the result.  (The embedding is a
pure function on `Finset`s, matching the Python code's copy-then-mutate of a
fresh set: the input set is never mutated.) -/
theorem claim_C10_apply_operator (op : GroundOp) (atoms : Finset GroundAtom) :
    apply_operator op atoms =
      atoms \ op.deleteEffects.toFinset ∪ op.addEffects.toFinset
    ∧ ∀ a, a ∈ op.deleteEffects → a ∈ op.addEffects →
        a ∈ apply_operator op atoms := by
  have hmain : apply_operator op atoms =
      atoms \ op.deleteEffects.toFinset ∪ op.addEffects.toFinset := by
    ext x
    simp only [apply_operator, mem_foldl_insert, mem_foldl_erase,
      Finset.mem_union, Finset.mem_sdiff, List.mem_toFinset]
  refine ⟨hmain, fun a _ ha => ?_⟩
  simp only [apply_operator, mem_foldl_insert]
  exact Or.inr ha

/-- Witness for C10: a delete-and-add atom is present after application. -/
theorem claim_C10_apply_operator_witness :
    onTableA ∈ apply_operator ⟨"op", [], [], [onTableA], [onTableA]⟩ {onTableA} :=
  (claim_C10_apply_operator ⟨"op", [], [], [onTableA], [onTableA]⟩ {onTableA}).2
    onTableA (by simp) (by simp)

/-! ## Soundness of the matcher translation

The pddlgym translation erases predicate argument types and tags goal facts
by name prefixing; the lemmas below recover the spec-level satisfaction
notion from a satisfying matcher assignment, under the hygiene conditions
that no involved state or precondition predicate name is itself a
`"WANT-"`-tagged name and that predicate names (with arities) determine
predicates among the involved atoms. -/

lemma want_tag_inj {s t : String} (h : "WANT-" ++ s = "WANT-" ++ t) :
    s = t := by
  obtain ⟨sd⟩ := s
  obtain ⟨td⟩ := t
  have h2 : ('W' :: 'A' :: 'N' :: 'T' :: '-' :: sd)
      = ('W' :: 'A' :: 'N' :: 'T' :: '-' :: td) := congrArg String.data h
  simp only [List.cons.injEq, true_and] at h2
  rw [h2]

lemma head_data_want_append (s : String) :
    ("WANT-" ++ s).data.head? = some 'W' := by
  obtain ⟨sd⟩ := s
  rfl

/-- Convenient discharge form for the hygiene hypotheses: a name whose first
character is not `'W'` is not a `"WANT-"`-tagging of anything. -/
lemma ne_want_append {nm : String} (h : nm.data.head? ≠ some 'W')
    (s : String) : nm ≠ "WANT-" ++ s := by
  intro hEq
  exact h (hEq ▸ head_data_want_append s)

lemma mem_condVars_of_pos {rule : LDLRule} {la : LiftedAtom} {v : Var}
    (hla : la ∈ rule.posPre) (hv : v ∈ la.args) :
    v ∈ condVars (ruleConds rule) := by
  simp only [condVars, List.mem_dedup, List.mem_flatten]
  refine ⟨la.args, ?_, hv⟩
  simp only [List.mem_map, ruleConds, List.mem_append]
  exact ⟨⟨false, la.pred.name, la.pred.types.length, la.args⟩,
    Or.inl (Or.inl ⟨la, hla, rfl⟩), rfl⟩

lemma mem_condVars_of_neg {rule : LDLRule} {la : LiftedAtom} {v : Var}
    (hla : la ∈ rule.negPre) (hv : v ∈ la.args) :
    v ∈ condVars (ruleConds rule) := by
  simp only [condVars, List.mem_dedup, List.mem_flatten]
  refine ⟨la.args, ?_, hv⟩
  simp only [List.mem_map, ruleConds, List.mem_append]
  exact ⟨⟨true, la.pred.name, la.pred.types.length, la.args⟩,
    Or.inl (Or.inr ⟨la, hla, rfl⟩), rfl⟩

lemma mem_condVars_of_goal {rule : LDLRule} {la : LiftedAtom} {v : Var}
    (hla : la ∈ rule.goalPre) (hv : v ∈ la.args) :
    v ∈ condVars (ruleConds rule) := by
  simp only [condVars, List.mem_dedup, List.mem_flatten]
  refine ⟨la.args, ?_, hv⟩
  simp only [List.mem_map, ruleConds, List.mem_append]
  exact ⟨⟨false, "WANT-" ++ la.pred.name, la.pred.types.length, la.args⟩,
    Or.inr ⟨la, hla, rfl⟩, rfl⟩

/-- A satisfying matcher assignment over the translated literals is a
spec-level satisfying grounding. -/
lemma matcher_sound {rule : LDLRule} {atoms goal : List GroundAtom}
    {σ : List (Var × Object)}
    (hatomW : ∀ a ∈ atoms, ∀ s : String, a.pred.name ≠ "WANT-" ++ s)
    (hposW : ∀ la ∈ rule.posPre, ∀ s : String, la.pred.name ≠ "WANT-" ++ s)
    (hpredPos : ∀ la ∈ rule.posPre, ∀ a ∈ atoms, la.pred.name = a.pred.name →
      la.pred.types.length = a.pred.types.length → la.pred = a.pred)
    (hpredGoal : ∀ la ∈ rule.goalPre, ∀ gl ∈ goal, la.pred.name = gl.pred.name →
      la.pred.types.length = gl.pred.types.length → la.pred = gl.pred)
    (hsat : (ruleConds rule).all
      (condHolds (atoms.map toFact ++ goal.map toWantFact) σ) = true) :
    SemSatRule rule atoms goal σ := by
  rw [List.all_eq_true] at hsat
  refine ⟨?_, ?_, ?_⟩
  · intro la hla
    have hc := hsat ⟨false, la.pred.name, la.pred.types.length, la.args⟩ ?hmem
    case hmem =>
      simp only [ruleConds, List.mem_append, List.mem_map]
      exact Or.inl (Or.inl ⟨la, hla, rfl⟩)
    simp only [condHolds, decide_eq_true_eq,
      List.mem_append, List.mem_map] at hc
    rcases hc with ⟨a, ha, hfa⟩ | ⟨gl, _, hfg⟩
    · simp only [toFact, Fact.mk.injEq] at hfa
      obtain ⟨hn, hlen, hargs⟩ := hfa
      have hpred := hpredPos la hla a ha hn.symm hlen.symm
      have : substAtom σ la = a := by
        simp only [substAtom]
        cases a
        simp_all
      rw [this]
      exact ha
    · simp only [toWantFact, Fact.mk.injEq] at hfg
      exact absurd hfg.1.symm (hposW la hla gl.pred.name)
  · intro la hla
    have hc := hsat ⟨true, la.pred.name, la.pred.types.length, la.args⟩ ?hmem
    case hmem =>
      simp only [ruleConds, List.mem_append, List.mem_map]
      exact Or.inl (Or.inr ⟨la, hla, rfl⟩)
    simp only [condHolds, Bool.not_eq_true', decide_eq_false_iff_not,
      List.mem_append, List.mem_map] at hc
    intro hmematoms
    apply hc
    left
    exact ⟨substAtom σ la, hmematoms, rfl⟩
  · intro la hla
    have hc := hsat ⟨false, "WANT-" ++ la.pred.name, la.pred.types.length, la.args⟩ ?hmem
    case hmem =>
      simp only [ruleConds, List.mem_append, List.mem_map]
      exact Or.inr ⟨la, hla, rfl⟩
    simp only [condHolds, decide_eq_true_eq,
      List.mem_append, List.mem_map] at hc
    rcases hc with ⟨a, ha, hfa⟩ | ⟨gl, hgl, hfg⟩
    · simp only [toFact, Fact.mk.injEq] at hfa
      exact absurd hfa.1 (hatomW a ha la.pred.name)
    · simp only [toWantFact, Fact.mk.injEq] at hfg
      obtain ⟨hn, hlen, hargs⟩ := hfg
      have hn' : gl.pred.name = la.pred.name := want_tag_inj hn
      have hpred := hpredGoal la hla gl hgl hn'.symm hlen.symm
      have : substAtom σ la = gl := by
        simp only [substAtom]
        cases gl
        simp_all
      rw [this]
      exact hgl

/-! ## Inversion of the grounder -/

lemma allAssignments_fst {vs : List Var} {objs : List Object}
    {σ : List (Var × Object)} (h : σ ∈ allAssignments vs objs) :
    σ.map Prod.fst = vs := by
  induction vs generalizing σ with
  | nil =>
    simp only [allAssignments, List.mem_singleton] at h
    simp [h]
  | cons v vs ih =>
    simp only [allAssignments, List.mem_flatMap, List.mem_map] at h
    obtain ⟨o, _, σ', hσ', rfl⟩ := h
    simp [ih hσ']

lemma lookupVar_isSome_of_mem_fst {σ : List (Var × Object)} {v : Var}
    (h : v ∈ σ.map Prod.fst) : (lookupVar σ v).isSome := by
  induction σ with
  | nil => simp at h
  | cons p σ ih =>
    simp only [List.map_cons, List.mem_cons] at h
    rcases h with h | h
    · simp [lookupVar, List.find?, h]
    · by_cases hp : p.1 == v
      · simp [lookupVar, List.find?, hp]
      · simpa [lookupVar, List.find?, hp] using ih h

lemma lookupVar_append_left {σ τ : List (Var × Object)} {v : Var}
    (h : (lookupVar σ v).isSome) : lookupVar (σ ++ τ) v = lookupVar σ v := by
  induction σ with
  | nil => simp [lookupVar] at h
  | cons p σ ih =>
    by_cases hp : p.1 == v
    · simp [lookupVar, List.find?, hp]
    · have h' : (lookupVar σ v).isSome := by
        simpa [lookupVar, List.find?, hp] using h
      simpa [lookupVar, List.find?, hp] using ih h'

lemma fillMissing_extends {objs : List Object} {rand : ℕ → ℕ}
    {vs : List Var} {σ final : List (Var × Object)} {ctr ctr' : ℕ}
    (h : fillMissing objs rand vs σ ctr = .ok (final, ctr')) :
    ∃ extra, final = σ ++ extra := by
  induction vs generalizing σ ctr with
  | nil =>
    simp only [fillMissing] at h
    cases h
    exact ⟨[], by simp⟩
  | cons v vs ih =>
    simp only [fillMissing] at h
    split at h
    · exact ih h
    · cases objs with
      | nil => cases h
      | cons o os =>
        obtain ⟨extra, hextra⟩ := ih h
        rw [List.append_assoc] at hextra
        exact ⟨_, hextra⟩

lemma buildGroundRule_ok {rule : LDLRule} {objects : List Object}
    {rand : ℕ → ℕ} {σ : List (Var × Object)} {ctr ctr' : ℕ} {g : GroundLDLRule}
    (h : buildGroundRule rule objects rand σ ctr = .ok (g, ctr')) :
    ∃ final objs, (∃ extra, final = σ ++ extra) ∧
      paramObjs rule.parameters final = some objs ∧ g = rule.ground objs := by
  simp only [buildGroundRule] at h
  by_cases hl : σ.length ≠ rule.parameters.length
  · rw [if_pos hl] at h
    cases hfill : fillMissing (sortWith objLe objects) rand rule.parameters σ ctr with
    | error e => rw [hfill] at h; cases h
    | ok p =>
      obtain ⟨fin, c2⟩ := p
      rw [hfill] at h
      dsimp only at h
      cases hobjs : paramObjs rule.parameters fin with
      | none => rw [hobjs] at h; cases h
      | some objs =>
        rw [hobjs] at h
        cases h
        exact ⟨fin, objs, fillMissing_extends hfill, hobjs, rfl⟩
  · rw [if_neg hl] at h
    dsimp only at h
    cases hobjs : paramObjs rule.parameters σ with
    | none => rw [hobjs] at h; cases h
    | some objs =>
      rw [hobjs] at h
      cases h
      exact ⟨σ, objs, ⟨[], by simp⟩, hobjs, rfl⟩

lemma buildGroundRules_singleton_ok {rule : LDLRule} {objects : List Object}
    {rand : ℕ → ℕ} {σ : List (Var × Object)} {g : GroundLDLRule}
    {gs : List GroundLDLRule}
    (h : buildGroundRules rule objects rand [σ] 0 = .ok (g :: gs)) :
    gs = [] ∧ ∃ ctr', buildGroundRule rule objects rand σ 0 = .ok (g, ctr') := by
  simp only [buildGroundRules] at h
  cases hp : buildGroundRule rule objects rand σ 0 with
  | error e => rw [hp] at h; cases h
  | ok p =>
    obtain ⟨g', c'⟩ := p
    rw [hp] at h
    dsimp only at h
    cases h
    exact ⟨rfl, c', rfl⟩

/-- Inversion of a successful one-assignment grounding call: the head ground
rule comes from a satisfying matcher assignment over the translated
literals. -/
lemma special_ok_cons {rule : LDLRule} {objects : List Object}
    {atoms goal : List GroundAtom} {rand : ℕ → ℕ} {g : GroundLDLRule}
    {gs : List GroundLDLRule}
    (h : special_all_ground_rules rule objects atoms goal rand 1 = .ok (g :: gs)) :
    goalObjectsOk atoms goal = true ∧ gs = [] ∧
    ∃ σ, σ ∈ allAssignments (condVars (ruleConds rule))
        (factObjects (atoms.map toFact ++ goal.map toWantFact)) ∧
      (ruleConds rule).all
        (condHolds (atoms.map toFact ++ goal.map toWantFact) σ) = true ∧
      ∃ ctr', buildGroundRule rule objects rand σ 0 = .ok (g, ctr') := by
  simp only [special_all_ground_rules] at h
  split at h
  case isFalse => cases h
  case isTrue hg =>
    refine ⟨hg, ?_⟩
    simp only [findSatisfyingAssignments] at h
    cases hfil : (allAssignments (condVars (ruleConds rule))
        (factObjects (atoms.map toFact ++ goal.map toWantFact))).filter
        (fun σ => (ruleConds rule).all
          (condHolds (atoms.map toFact ++ goal.map toWantFact) σ)) with
    | nil =>
      rw [hfil] at h
      simp only [List.take_nil, buildGroundRules] at h
      cases h
    | cons σ rest =>
      rw [hfil] at h
      simp only [List.take_succ_cons, List.take_zero] at h
      obtain ⟨hgs, ctr', hb⟩ := buildGroundRules_singleton_ok h
      have hσ : σ ∈ (allAssignments (condVars (ruleConds rule))
          (factObjects (atoms.map toFact ++ goal.map toWantFact))).filter
          (fun σ => (ruleConds rule).all
            (condHolds (atoms.map toFact ++ goal.map toWantFact) σ)) := by
        rw [hfil]; exact List.mem_cons_self _ _
      rw [List.mem_filter] at hσ
      exact ⟨hgs, σ, hσ.1, hσ.2, ctr', hb⟩

/-- A call that finds no satisfying assignment returns the empty list. -/
lemma special_empty_of_unsat {rule : LDLRule} {objects : List Object}
    {atoms goal : List GroundAtom} {rand : ℕ → ℕ}
    (hg : goalObjectsOk atoms goal = true)
    (hunsat : ∀ σ ∈ allAssignments (condVars (ruleConds rule))
        (factObjects (atoms.map toFact ++ goal.map toWantFact)),
      (ruleConds rule).all
        (condHolds (atoms.map toFact ++ goal.map toWantFact) σ) = false) :
    special_all_ground_rules rule objects atoms goal rand 1 = .ok [] := by
  simp only [special_all_ground_rules]
  rw [if_pos hg]
  simp only [findSatisfyingAssignments]
  have hfil : (allAssignments (condVars (ruleConds rule))
      (factObjects (atoms.map toFact ++ goal.map toWantFact))).filter
      (fun σ => (ruleConds rule).all
        (condHolds (atoms.map toFact ++ goal.map toWantFact) σ)) = [] := by
    rw [List.filter_eq_nil_iff]
    intro σ hσ
    simp [hunsat σ hσ]
  rw [hfil]
  simp [buildGroundRules]

/-! ## Transfer of satisfaction to the ground rule -/

lemma lookupVar_zip_of_paramObjs {params : List Var}
    {final : List (Var × Object)} {objs : List Object}
    (hnd : params.Nodup) (h : paramObjs params final = some objs)
    {v : Var} (hv : v ∈ params) :
    lookupVar (params.zip objs) v = lookupVar final v := by
  induction params generalizing objs with
  | nil => simp at hv
  | cons p ps ih =>
    simp only [paramObjs] at h
    cases ho : lookupVar final p with
    | none => rw [ho] at h; cases h
    | some o =>
      rw [ho] at h
      cases hos : paramObjs ps final with
      | none => rw [hos] at h; cases h
      | some os =>
        rw [hos] at h
        cases h
        rcases List.mem_cons.mp hv with rfl | hv'
        · rw [List.zip_cons_cons, ho]
          simp [lookupVar, List.find?]
        · have hne : ¬(p == v) = true := by
            simp only [beq_iff_eq]
            rintro rfl
            exact (List.nodup_cons.mp hnd).1 hv'
          have hih := ih (List.nodup_cons.mp hnd).2 hos hv'
          rw [List.zip_cons_cons]
          simpa [lookupVar, List.find?, hne] using hih

lemma substVar_eq_of_lookup_eq {σ₁ σ₂ : List (Var × Object)} {v : Var}
    (h : lookupVar σ₁ v = lookupVar σ₂ v) : substVar σ₁ v = substVar σ₂ v := by
  simp [substVar, h]

lemma substAtom_congr {σ₁ σ₂ : List (Var × Object)} {la : LiftedAtom}
    (h : ∀ v ∈ la.args, substVar σ₁ v = substVar σ₂ v) :
    substAtom σ₁ la = substAtom σ₂ la := by
  simp only [substAtom, GroundAtom.mk.injEq, true_and]
  exact List.map_congr_left h

/-- The three satisfaction clauses of a ground rule produced from a
satisfying matcher assignment. -/
lemma ground_rule_satisfaction {rule : LDLRule} {objects : List Object}
    {atoms goal : List GroundAtom} {rand : ℕ → ℕ} {g : GroundLDLRule}
    {gs : List GroundLDLRule}
    (h : special_all_ground_rules rule objects atoms goal rand 1 = .ok (g :: gs))
    (hvars : ∀ la ∈ rule.posPre ++ rule.negPre ++ rule.goalPre,
      ∀ v ∈ la.args, v ∈ rule.parameters)
    (hnd : rule.parameters.Nodup)
    (hatomW : ∀ a ∈ atoms, ∀ s : String, a.pred.name ≠ "WANT-" ++ s)
    (hposW : ∀ la ∈ rule.posPre, ∀ s : String, la.pred.name ≠ "WANT-" ++ s)
    (hpredPos : ∀ la ∈ rule.posPre, ∀ a ∈ atoms, la.pred.name = a.pred.name →
      la.pred.types.length = a.pred.types.length → la.pred = a.pred)
    (hpredGoal : ∀ la ∈ rule.goalPre, ∀ gl ∈ goal, la.pred.name = gl.pred.name →
      la.pred.types.length = gl.pred.types.length → la.pred = gl.pred) :
    (∀ a ∈ g.posPre, a ∈ atoms) ∧ (∀ a ∈ g.negPre, a ∉ atoms) ∧
      (∀ a ∈ g.goalPre, a ∈ goal) := by
  obtain ⟨-, -, σ, hσdom, hσsat, ctr', hbuild⟩ := special_ok_cons h
  obtain ⟨final, objs, ⟨extra, rfl⟩, hparam, rfl⟩ := buildGroundRule_ok hbuild
  have hsem := matcher_sound hatomW hposW hpredPos hpredGoal hσsat
  have hfst := allAssignments_fst hσdom
  -- substitution along the ground-rule parameter binding agrees with the
  -- matcher assignment on every condition variable
  have hagree : ∀ (la : LiftedAtom), la ∈ rule.posPre ++ rule.negPre ++ rule.goalPre →
      (∀ v ∈ la.args, v ∈ condVars (ruleConds rule)) →
      substAtom (rule.parameters.zip objs) la = substAtom σ la := by
    intro la hla hcv
    apply substAtom_congr
    intro v hv
    have hvp : v ∈ rule.parameters := hvars la hla v hv
    have h1 : lookupVar (rule.parameters.zip objs) v = lookupVar (σ ++ extra) v :=
      lookupVar_zip_of_paramObjs hnd hparam hvp
    have h2 : lookupVar (σ ++ extra) v = lookupVar σ v :=
      lookupVar_append_left
        (lookupVar_isSome_of_mem_fst (by rw [hfst]; exact hcv v hv))
    exact substVar_eq_of_lookup_eq (h1.trans h2)
  obtain ⟨hpos, hneg, hgoal⟩ := hsem
  refine ⟨?_, ?_, ?_⟩
  · intro a ha
    simp only [LDLRule.ground, List.mem_map] at ha
    obtain ⟨la, hla, rfl⟩ := ha
    rw [hagree la (by simp [hla]) (fun v hv => mem_condVars_of_pos hla hv)]
    exact hpos la hla
  · intro a ha
    simp only [LDLRule.ground, List.mem_map] at ha
    obtain ⟨la, hla, rfl⟩ := ha
    rw [hagree la (by simp [hla]) (fun v hv => mem_condVars_of_neg hla hv)]
    exact hneg la hla
  · intro a ha
    simp only [LDLRule.ground, List.mem_map] at ha
    obtain ⟨la, hla, rfl⟩ := ha
    rw [hagree la (by simp [hla]) (fun v hv => mem_condVars_of_goal hla hv)]
    exact hgoal la hla

/-! ## Query-engine claim theorems -/

lemma queryLdlRules_append_empty {atoms : List GroundAtom}
    {objects : List Object} {goal : List GroundAtom} {rand : ℕ → ℕ}
    {pre rest : List LDLRule}
    (hpre : ∀ r ∈ pre,
      special_all_ground_rules r objects atoms goal rand 1 = .ok []) :
    queryLdlRules atoms objects goal rand (pre ++ rest) =
      queryLdlRules atoms objects goal rand rest := by
  induction pre with
  | nil => rfl
  | cons r pre ih =>
    have hr := hpre r (List.mem_cons_self _ _)
    simp only [List.cons_append, queryLdlRules, get_all_valid_actions, hr,
      Except.map]
    exact ih (fun r' h => hpre r' (List.mem_cons_of_mem _ h))

/-- Claim C2: `query_ldl` iterates the rules in list order; the first rule
whose grounder call yields any candidate determines the answer — the ground
operator of the first candidate in the grounder's own enumeration order —
and the rules after it are never consulted (the statement holds for every
choice of `post`).  The returned candidate satisfies the live-state check:
its ground positive preconditions are in the state, its ground negative
preconditions are not, and its ground goal preconditions are in the goal
(under the hygiene hypotheses that rule precondition variables are declared
parameters, parameters are distinct, no involved state/precondition
predicate name is a `"WANT-"`-tagging, and predicate names with arities
determine predicates). -/
theorem claim_C2_query_first_rule_first_candidate
    (pre post : List LDLRule) (r : LDLRule) (atoms : List GroundAtom)
    (objects : List Object) (goal : List GroundAtom)
    (statics : List Predicate) (inits : List GroundAtom) (rand : ℕ → ℕ)
    (g : GroundLDLRule) (gs : List GroundLDLRule)
    (hpre : ∀ r' ∈ pre,
      special_all_ground_rules r' objects atoms goal rand 1 = .ok [])
    (hr : special_all_ground_rules r objects atoms goal rand 1 = .ok (g :: gs))
    (hvars : ∀ la ∈ r.posPre ++ r.negPre ++ r.goalPre,
      ∀ v ∈ la.args, v ∈ r.parameters)
    (hnd : r.parameters.Nodup)
    (hatomW : ∀ a ∈ atoms, ∀ s : String, a.pred.name ≠ "WANT-" ++ s)
    (hposW : ∀ la ∈ r.posPre, ∀ s : String, la.pred.name ≠ "WANT-" ++ s)
    (hpredPos : ∀ la ∈ r.posPre, ∀ a ∈ atoms, la.pred.name = a.pred.name →
      la.pred.types.length = a.pred.types.length → la.pred = a.pred)
    (hpredGoal : ∀ la ∈ r.goalPre, ∀ gl ∈ goal, la.pred.name = gl.pred.name →
      la.pred.types.length = gl.pred.types.length → la.pred = gl.pred) :
    query_ldl ⟨pre ++ r :: post⟩ atoms objects goal statics inits rand =
      .ok (some g.groundOp)
    ∧ (∀ a ∈ g.posPre, a ∈ atoms) ∧ (∀ a ∈ g.negPre, a ∉ atoms)
    ∧ (∀ a ∈ g.goalPre, a ∈ goal) := by
  refine ⟨?_, ground_rule_satisfaction hr hvars hnd hatomW hposW hpredPos hpredGoal⟩
  simp only [query_ldl]
  rw [queryLdlRules_append_empty hpre]
  simp only [queryLdlRules, get_all_valid_actions, hr, Except.map, List.map_cons]

/-- Witness for C2 at the concrete scenario: the single-rule policy over
state {on-table(a), on-table(b)} returns pick-up grounded at `a`. -/
theorem claim_C2_query_first_rule_first_candidate_witness :
    query_ldl ⟨[pickUpRule]⟩ [onTableA, onTableB] [objA, objB] [] [] [] rand0 =
      .ok (some (pickUpRule.ground [objA]).groundOp) :=
  (claim_C2_query_first_rule_first_candidate [] [] pickUpRule
    [onTableA, onTableB] [objA, objB] [] [] [] rand0
    (pickUpRule.ground [objA]) []
    (fun r' h => absurd h (List.not_mem_nil _))
    (by decide)
    (by decide)
    (by decide)
    (by intro a ha s
        refine ne_want_append ?_ s
        fin_cases ha <;> decide)
    (by intro la hla s
        refine ne_want_append ?_ s
        fin_cases hla <;> decide)
    (by intro la hla a ha
        fin_cases hla <;> fin_cases ha <;> decide)
    (by intro la hla
        simp [pickUpRule] at hla)).1

lemma queryLdlRules_none_of_unsat (atoms : List GroundAtom)
    (objects : List Object) (goal : List GroundAtom) (rand : ℕ → ℕ)
    (hgo : goalObjectsOk atoms goal = true)
    (hatomW : ∀ a ∈ atoms, ∀ s : String, a.pred.name ≠ "WANT-" ++ s) :
    ∀ (rules : List LDLRule),
    (∀ r ∈ rules, ∀ la ∈ r.posPre, ∀ s : String, la.pred.name ≠ "WANT-" ++ s) →
    (∀ r ∈ rules, ∀ la ∈ r.posPre, ∀ a ∈ atoms, la.pred.name = a.pred.name →
      la.pred.types.length = a.pred.types.length → la.pred = a.pred) →
    (∀ r ∈ rules, ∀ la ∈ r.goalPre, ∀ gl ∈ goal, la.pred.name = gl.pred.name →
      la.pred.types.length = gl.pred.types.length → la.pred = gl.pred) →
    (∀ r ∈ rules, ∀ σ : List (Var × Object), ¬ SemSatRule r atoms goal σ) →
    queryLdlRules atoms objects goal rand rules = .ok none := by
  intro rules
  induction rules with
  | nil => intro _ _ _ _; rfl
  | cons r rs ih =>
    intro hposW hpredPos hpredGoal hnosat
    have hempty : special_all_ground_rules r objects atoms goal rand 1 = .ok [] := by
      apply special_empty_of_unsat hgo
      intro σ hσ
      cases hb : (ruleConds r).all
          (condHolds (atoms.map toFact ++ goal.map toWantFact) σ) with
      | false => rfl
      | true =>
        exact absurd
          (matcher_sound hatomW (hposW r (List.mem_cons_self _ _))
            (hpredPos r (List.mem_cons_self _ _))
            (hpredGoal r (List.mem_cons_self _ _)) hb)
          (hnosat r (List.mem_cons_self _ _) σ)
    simp only [queryLdlRules, get_all_valid_actions, hempty, Except.map]
    exact ih (fun r' h => hposW r' (List.mem_cons_of_mem _ h))
      (fun r' h => hpredPos r' (List.mem_cons_of_mem _ h))
      (fun r' h => hpredGoal r' (List.mem_cons_of_mem _ h))
      (fun r' h => hnosat r' (List.mem_cons_of_mem _ h))

/-- Claim C7 (amended): if no rule of the policy has any satisfying
grounding, `query_ldl` returns `None` — PROVIDED every object of every goal
atom occurs in some current state atom (and the usual predicate-name hygiene
holds); without that proviso the goal-literal translation raises `KeyError`
(see the counterexample). -/
theorem claim_C7_amended_no_match_returns_none (ldl : LiftedDecisionList)
    (atoms : List GroundAtom) (objects : List Object) (goal : List GroundAtom)
    (statics : List Predicate) (inits : List GroundAtom) (rand : ℕ → ℕ)
    (hgo : goalObjectsOk atoms goal = true)
    (hatomW : ∀ a ∈ atoms, ∀ s : String, a.pred.name ≠ "WANT-" ++ s)
    (hposW : ∀ r ∈ ldl.rules, ∀ la ∈ r.posPre, ∀ s : String,
      la.pred.name ≠ "WANT-" ++ s)
    (hpredPos : ∀ r ∈ ldl.rules, ∀ la ∈ r.posPre, ∀ a ∈ atoms,
      la.pred.name = a.pred.name →
      la.pred.types.length = a.pred.types.length → la.pred = a.pred)
    (hpredGoal : ∀ r ∈ ldl.rules, ∀ la ∈ r.goalPre, ∀ gl ∈ goal,
      la.pred.name = gl.pred.name →
      la.pred.types.length = gl.pred.types.length → la.pred = gl.pred)
    (hnosat : ∀ r ∈ ldl.rules, ∀ σ : List (Var × Object),
      ¬ SemSatRule r atoms goal σ) :
    query_ldl ldl atoms objects goal statics inits rand = .ok none :=
  queryLdlRules_none_of_unsat atoms objects goal rand hgo hatomW ldl.rules
    hposW hpredPos hpredGoal hnosat

/-- Witness for the amended C7: a policy whose single rule requires
`on-table(?x)` has no satisfying grounding in the state {clear(a)}, and the
query returns `None`. -/
theorem claim_C7_amended_no_match_returns_none_witness :
    query_ldl ⟨[pickUpRule]⟩ [clearA] [objA] [] [] [] rand0 = .ok none :=
  claim_C7_amended_no_match_returns_none ⟨[pickUpRule]⟩ [clearA] [objA] [] [] []
    rand0
    (by decide)
    (by intro a ha s
        refine ne_want_append ?_ s
        fin_cases ha <;> decide)
    (by intro r hr la hla s
        refine ne_want_append ?_ s
        fin_cases hr
        fin_cases hla <;> decide)
    (by intro r hr la hla a ha
        fin_cases hr
        fin_cases hla <;> fin_cases ha <;> decide)
    (by intro r hr la hla
        fin_cases hr
        simp [pickUpRule] at hla)
    (by intro r hr σ hsem
        fin_cases hr
        have h := hsem.1 onTableX (by simp [pickUpRule])
        simp only [List.mem_singleton] at h
        have hp := congrArg GroundAtom.pred h
        simp [substAtom, onTableX, clearA, onTableP, clearP] at hp)

/-- Claim C7 (counterexample to the claim as stated): with state `{}` and
goal `{on-table(a)}` the single `on-table(?x)` rule has no satisfying
grounding, yet `query_ldl` does not return `None`: the goal-literal
translation looks the goal atom's object up in a dict built only from state
atoms and raises `KeyError`. -/
theorem claim_C7_no_match_raises_keyerror :
    query_ldl ⟨[pickUpRule]⟩ [] [objA] [onTableA] [] [] rand0 =
      .error "KeyError"
    ∧ query_ldl ⟨[pickUpRule]⟩ [] [objA] [onTableA] [] [] rand0 ≠ .ok none
    ∧ (∀ σ : List (Var × Object), ¬ SemSatRule pickUpRule [] [onTableA] σ) := by
  refine ⟨by decide, by decide, ?_⟩
  intro σ hsem
  exact absurd (hsem.1 onTableX (by simp [pickUpRule])) (List.not_mem_nil _)

/-! ## Hill-climbing trace claims -/

lemma nonIncreasingB_append_singleton {t : List (WithTop ℤ)} {x y : WithTop ℤ}
    (ht : nonIncreasingB t = true) (hlast : t.getLast? = some x) (hyx : y ≤ x) :
    nonIncreasingB (t ++ [y]) = true := by
  induction t with
  | nil => cases hlast
  | cons a t ih =>
    cases t with
    | nil =>
      simp only [List.getLast?_singleton, Option.some.injEq] at hlast
      subst hlast
      simpa [nonIncreasingB] using hyx
    | cons b t =>
      simp only [nonIncreasingB, Bool.and_eq_true] at ht
      have hlast' : (b :: t).getLast? = some x := by
        simpa [List.getLast?_cons_cons] using hlast
      have := ih ht.2 hlast'
      simpa [nonIncreasingB, ht.1] using this

/-- The depth loop appends a non-empty block to `all_best_heuristics` whose
last entry is the returned best heuristic. -/
lemma hcDepthLoop_succ_eq {S A : Type} [DecidableEq S] (h : S → ℤ)
    (thresh : Option ℤ) (succ : S → List (A × S × ℤ)) (lastH : WithTop ℤ)
    (n : ℕ) (parents : List (SNode S A)) (acc : ScanAcc S A)
    (allBest : List (WithTop ℤ)) :
    hcDepthLoop h thresh succ lastH (n + 1) parents acc allBest =
      (let acc' := hcDepthStep h thresh succ parents
        { succs := [], bestH := acc.bestH, bestChild := acc.bestChild
          visited := acc.visited, earlyBreak := acc.earlyBreak }
       let allBest' := allBest ++ [acc'.bestH]
       if acc'.bestH < lastH then
         ⟨acc'.bestH, acc'.bestChild, allBest', acc'.visited, acc'.earlyBreak⟩
       else
         hcDepthLoop h thresh succ lastH n acc'.succs acc' allBest') := rfl

lemma hcDepthLoop_allBest {S A : Type} [DecidableEq S] (h : S → ℤ)
    (thresh : Option ℤ) (succ : S → List (A × S × ℤ)) (lastH : WithTop ℤ) :
    ∀ (n : ℕ) (parents : List (SNode S A)) (acc : ScanAcc S A)
      (allBest : List (WithTop ℤ)),
    ∃ ext, ext ≠ [] ∧
      (hcDepthLoop h thresh succ lastH (n + 1) parents acc allBest).allBest =
        allBest ++ ext ∧
      ext.getLast? =
        some (hcDepthLoop h thresh succ lastH (n + 1) parents acc allBest).bestH := by
  intro n
  induction n with
  | zero =>
    intro parents acc allBest
    simp only [hcDepthLoop]
    split
    · exact ⟨[(hcDepthStep h thresh succ parents
        { succs := [], bestH := acc.bestH, bestChild := acc.bestChild
          visited := acc.visited, earlyBreak := acc.earlyBreak }).bestH],
        by simp, rfl, by simp⟩
    · exact ⟨[(hcDepthStep h thresh succ parents
        { succs := [], bestH := acc.bestH, bestChild := acc.bestChild
          visited := acc.visited, earlyBreak := acc.earlyBreak }).bestH],
        by simp, rfl, by simp⟩
  | succ m ih =>
    intro parents acc allBest
    rw [hcDepthLoop_succ_eq]
    simp only
    split
    · exact ⟨[(hcDepthStep h thresh succ parents
        { succs := [], bestH := acc.bestH, bestChild := acc.bestChild
          visited := acc.visited, earlyBreak := acc.earlyBreak }).bestH],
        by simp, rfl, by simp⟩
    · set acc' := hcDepthStep h thresh succ parents
        { succs := [], bestH := acc.bestH, bestChild := acc.bestChild
          visited := acc.visited, earlyBreak := acc.earlyBreak } with hacc
      obtain ⟨ext, hne, happ, hlast⟩ := ih acc'.succs acc' (allBest ++ [acc'.bestH])
      refine ⟨[acc'.bestH] ++ ext, by simp, ?_, ?_⟩
      · rw [happ, List.append_assoc]
      · rw [List.getLast?_append_of_ne_nil _ hne]
        exact hlast

/-- For enforced depth 0 the depth loop's appended block is exactly the
singleton of the returned best heuristic. -/
lemma hcDepthLoop_zero_allBest {S A : Type} [DecidableEq S] (h : S → ℤ)
    (thresh : Option ℤ) (succ : S → List (A × S × ℤ)) (lastH : WithTop ℤ)
    (parents : List (SNode S A)) (acc : ScanAcc S A) :
    (hcDepthLoop h thresh succ lastH 1 parents acc []).allBest =
      [(hcDepthLoop h thresh succ lastH 1 parents acc []).bestH] := by
  simp only [hcDepthLoop]
  split
  · rfl
  · rfl

/-- Trace invariant of the hill-climbing outer loop: the trace stays
non-empty, its head is preserved, and its final entry only decreases. -/
lemma hcLoop_trace {S A : Type} [DecidableEq S] (goal : S → Bool)
    (succ : S → List (A × S × ℤ)) (h : S → ℤ) (thresh : Option ℤ) (depth : ℕ) :
    ∀ (fuel : ℕ) (cur : SNode S A) (vis : List S) (lastH : WithTop ℤ)
      (trace : List (WithTop ℤ)) (res : SNode S A × List (WithTop ℤ)),
    hcLoop goal succ h thresh depth fuel cur vis lastH trace = some res →
    trace ≠ [] → trace.getLast? = some lastH →
    res.2 ≠ [] ∧ res.2.head? = trace.head? ∧
      ∃ L, res.2.getLast? = some L ∧ L ≤ lastH := by
  intro fuel
  induction fuel with
  | zero => intro cur vis lastH trace res hrun; cases hrun
  | succ fuel ih =>
    intro cur vis lastH trace res hrun hne hlast
    simp only [hcLoop] at hrun
    split at hrun
    · cases hrun
      exact ⟨hne, rfl, lastH, hlast, le_refl _⟩
    · split at hrun
      · cases hrun
        exact ⟨hne, rfl, lastH, hlast, le_refl _⟩
      · set r := hcDepthLoop h thresh succ lastH (depth + 1) [cur]
          { succs := [], bestH := ⊤, bestChild := none
            visited := vis, earlyBreak := false } [] with hr
        obtain ⟨ext, hextne, happ, hextlast⟩ :=
          hcDepthLoop_allBest h thresh succ lastH (depth) [cur]
            { succs := [], bestH := ⊤, bestChild := none
              visited := vis, earlyBreak := false } []
        rw [← hr] at happ hextlast
        simp only [List.nil_append] at happ
        split at hrun
        · cases hrun
          exact ⟨hne, rfl, lastH, hlast, le_refl _⟩
        · rename_i bc hbc
          split at hrun
          · cases hrun
            exact ⟨hne, rfl, lastH, hlast, le_refl _⟩
          · rename_i hlt
            have hblt : r.bestH < lastH := lt_of_not_le hlt
            have htrne : (trace ++ r.allBest) ≠ [] := by
              simp [hne]
            have htrhead : (trace ++ r.allBest).head? = trace.head? :=
              List.head?_append_of_ne_nil trace hne
            have htrlast : (trace ++ r.allBest).getLast? = some r.bestH := by
              rw [happ, List.getLast?_append_of_ne_nil _ hextne, hextlast]
            split at hrun
            · cases hrun
              exact ⟨htrne, htrhead, r.bestH, htrlast, le_of_lt hblt⟩
            · obtain ⟨hne', hhead', L, hlast', hle'⟩ :=
                ih bc r.visited r.bestH (trace ++ r.allBest) res hrun htrne htrlast
              exact ⟨hne', hhead'.trans htrhead, L, hlast',
                hle'.trans (le_of_lt hblt)⟩

/-- For depth 0 the trace additionally stays non-increasing entry to
entry. -/
lemma hcLoop_trace_zero {S A : Type} [DecidableEq S] (goal : S → Bool)
    (succ : S → List (A × S × ℤ)) (h : S → ℤ) (thresh : Option ℤ) :
    ∀ (fuel : ℕ) (cur : SNode S A) (vis : List S) (lastH : WithTop ℤ)
      (trace : List (WithTop ℤ)) (res : SNode S A × List (WithTop ℤ)),
    hcLoop goal succ h thresh 0 fuel cur vis lastH trace = some res →
    trace ≠ [] → trace.getLast? = some lastH → nonIncreasingB trace = true →
    nonIncreasingB res.2 = true := by
  intro fuel
  induction fuel with
  | zero => intro cur vis lastH trace res hrun; cases hrun
  | succ fuel ih =>
    intro cur vis lastH trace res hrun hne hlast hni
    simp only [hcLoop] at hrun
    split at hrun
    · cases hrun; exact hni
    · split at hrun
      · cases hrun; exact hni
      · set r := hcDepthLoop h thresh succ lastH 1 [cur]
          { succs := [], bestH := ⊤, bestChild := none
            visited := vis, earlyBreak := false } [] with hr
        have hall : r.allBest = [r.bestH] := by
          rw [hr]
          exact hcDepthLoop_zero_allBest h thresh succ lastH [cur] _
        split at hrun
        · cases hrun; exact hni
        · rename_i bc hbc
          split at hrun
          · cases hrun; exact hni
          · rename_i hlt
            have hblt : r.bestH < lastH := lt_of_not_le hlt
            have hni' : nonIncreasingB (trace ++ r.allBest) = true := by
              rw [hall]
              exact nonIncreasingB_append_singleton hni hlast (le_of_lt hblt)
            have htrlast : (trace ++ r.allBest).getLast? = some r.bestH := by
              rw [hall]
              exact List.getLast?_concat _
            split at hrun
            · cases hrun; exact hni'
            · exact ih bc r.visited r.bestH (trace ++ r.allBest) res hrun
                (by simp [hne]) htrlast hni'

/-- Claim C4 (corrected): the trace produced by a terminating
`run_hill_climbing` call is non-empty and its final entry is ≤ its first
entry, for EVERY enforced depth; but the step-to-step non-increasing
property holds only for enforced depth 0 — at depth ≥ 1 the trace records
the per-depth running bests of the lookahead, which can exceed the previous
value (see the counterexample). -/
theorem claim_C4_trace_monotonicity {S A : Type} [DecidableEq S] (fuel : ℕ)
    (inits : List S) (goal : S → Bool) (succ : S → List (A × S × ℤ))
    (h : S → ℤ) (thresh : Option ℤ) (depth : ℕ) (sts : List S) (acts : List A)
    (trace : List (WithTop ℤ))
    (hrun : run_hill_climbing fuel inits goal succ h thresh depth =
      some (sts, acts, trace)) :
    (trace ≠ [] ∧ ∃ F L, trace.head? = some F ∧ trace.getLast? = some L ∧ L ≤ F)
    ∧ (depth = 0 → nonIncreasingB trace = true) := by
  cases inits with
  | nil =>
    simp only [run_hill_climbing] at hrun
    cases hrun
  | cons i is =>
    simp only [run_hill_climbing] at hrun
    cases hloop : hcLoop goal succ h thresh depth fuel
        (hcInitFold h is ((rootNode i : SNode S A), h i) [i]).1.1
        (hcInitFold h is ((rootNode i : SNode S A), h i) [i]).2
        ((hcInitFold h is ((rootNode i : SNode S A), h i) [i]).1.2 : WithTop ℤ)
        [((hcInitFold h is ((rootNode i : SNode S A), h i) [i]).1.2 : WithTop ℤ)] with
    | none => rw [hloop] at hrun; cases hrun
    | some p =>
      rw [hloop] at hrun
      dsimp only at hrun
      cases hrun
      constructor
      · obtain ⟨hne, hhead, L, hlast, hle⟩ :=
          hcLoop_trace goal succ h thresh depth fuel _ _ _ _ p hloop
            (by simp) (by simp)
        refine ⟨hne, ?_⟩
        exact ⟨_, L, by rw [hhead]; rfl, hlast, hle⟩
      · intro hd
        subst hd
        exact hcLoop_trace_zero goal succ h thresh fuel _ _ _ _ p hloop
          (by simp) (by simp) (by simp [nonIncreasingB])

/-- Witness for the amended C4 at a concrete depth-0 run. -/
theorem claim_C4_trace_monotonicity_witness :
    (([(3 : WithTop ℤ)] : List (WithTop ℤ)) ≠ [] ∧
      ∃ F L, ([(3 : WithTop ℤ)] : List (WithTop ℤ)).head? = some F ∧
        ([(3 : WithTop ℤ)] : List (WithTop ℤ)).getLast? = some L ∧ L ≤ F)
    ∧ ((0 : ℕ) = 0 → nonIncreasingB [(3 : WithTop ℤ)] = true) :=
  claim_C4_trace_monotonicity 10 [0] (fun _ => false) succ4 h4 none 0
    [0] [] [(3 : WithTop ℤ)] (by decide)

/-- Claim C4 (counterexample to the claim as stated): at enforced depth 1 on
the chain `0 → 1 → 2` with heuristics 3, 5, 1, the returned trace is
[3, 5, 1], which increases from its first to its second entry. -/
theorem claim_C4_counterexample_depth_one :
    run_hill_climbing 10 [0] (fun _ => false) succ4 h4 none 1 =
      some ([0, 1, 2], [0, 0], [(3 : WithTop ℤ), 5, 1])
    ∧ nonIncreasingB [(3 : WithTop ℤ), 5, 1] = false := by
  exact ⟨by decide, by decide⟩

/-! ## Search-loop invariants: anytime behavior and plan shape -/

lemma popMin_mem {l : List (ℤ × ℕ × SNode S A)} {e : ℤ × ℕ × SNode S A}
    {rest : List (ℤ × ℕ × SNode S A)} (h : popMin l = some (e, rest)) :
    e ∈ l ∧ ∀ x ∈ rest, x ∈ l := by
  induction l generalizing e rest with
  | nil => cases h
  | cons a as ih =>
    simp only [popMin] at h
    cases hp : popMin as with
    | none =>
      rw [hp] at h
      cases h
      exact ⟨List.mem_cons_self _ _, by simp⟩
    | some p =>
      obtain ⟨m, r⟩ := p
      rw [hp] at h
      dsimp only at h
      by_cases hcmp : entryLt (m.1, m.2.1) (a.1, a.2.1) = true
      · rw [if_pos hcmp] at h
        cases h
        obtain ⟨hm, hr⟩ := ih hp
        refine ⟨List.mem_cons_of_mem _ hm, ?_⟩
        intro x hx
        rcases List.mem_cons.mp hx with rfl | hx'
        · exact List.mem_cons_self _ _
        · exact List.mem_cons_of_mem _ (hr x hx')
      · rw [if_neg hcmp] at h
        cases h
        exact ⟨List.mem_cons_self _ _, fun x hx => List.mem_cons_of_mem _ hx⟩

lemma procSuccs_inv [DecidableEq S] {inits : List S}
    {succ : S → List (A × S × ℤ)} {prio : SNode S A → ℤ} {maxEvals : ℕ}
    {lazy : Bool} {node : SNode S A} (hnode : NodeOK inits succ node) :
    ∀ (l : List (A × S × ℤ)) (st : SearchState S A),
    SInv inits succ st → (∀ x ∈ l, x ∈ succ node.state) →
    SInv inits succ (procSuccs prio maxEvals lazy node l st) := by
  intro l
  induction l with
  | nil => intro st hst _; exact hst
  | cons x rest ih =>
    obtain ⟨a, s', c⟩ := x
    intro st hst hl
    simp only [procSuccs]
    split
    · exact ih st hst (fun y hy => hl y (List.mem_cons_of_mem _ hy))
    · have hchild : NodeOK inits succ
          (.mk s' c (node.cumCost + c) (some node) (some a)) :=
        NodeOK.child node a s' c hnode (hl _ (List.mem_cons_self _ _))
      split
      · rename_i hplt
        have hst'' : SInv inits succ
            { st with
              queue := (prio (.mk s' c (node.cumCost + c) (some node) (some a)),
                st.tb, (.mk s' c (node.cumCost + c) (some node) (some a) : SNode S A)) :: st.queue
              tb := st.tb + 1
              nEvals := st.nEvals + 1
              costs := (s', node.cumCost + c) :: st.costs
              pushedG := (s', node.cumCost + c) :: st.pushedG
              evaledG := (prio (.mk s' c (node.cumCost + c) (some node) (some a)),
                (.mk s' c (node.cumCost + c) (some node) (some a) : SNode S A)) :: st.evaledG
              best := (.mk s' c (node.cumCost + c) (some node) (some a) : SNode S A)
              bestPrio := prio (.mk s' c (node.cumCost + c) (some node) (some a)) } := by
          refine ⟨?_, hchild, List.mem_cons_self _ _, ?_⟩
          · intro e he
            rcases List.mem_cons.mp he with rfl | he'
            · exact hchild
            · exact hst.queueOK e he'
          · intro e he
            rcases List.mem_cons.mp he with rfl | he'
            · exact le_refl _
            · exact le_of_lt (lt_of_lt_of_le hplt (hst.bestMin e he'))
        split
        · exact ⟨fun e he => by
            rcases List.mem_cons.mp he with rfl | he'
            · exact hnode
            · exact hst''.queueOK e he',
            hst''.bestOK, hst''.bestEvaled, hst''.bestMin⟩
        · split
          · exact hst''
          · exact ih _ hst'' (fun y hy => hl y (List.mem_cons_of_mem _ hy))
      · rename_i hpge
        have hst' : SInv inits succ
            { st with
              queue := (prio (.mk s' c (node.cumCost + c) (some node) (some a)),
                st.tb, (.mk s' c (node.cumCost + c) (some node) (some a) : SNode S A)) :: st.queue
              tb := st.tb + 1
              nEvals := st.nEvals + 1
              costs := (s', node.cumCost + c) :: st.costs
              pushedG := (s', node.cumCost + c) :: st.pushedG
              evaledG := (prio (.mk s' c (node.cumCost + c) (some node) (some a)),
                (.mk s' c (node.cumCost + c) (some node) (some a) : SNode S A)) :: st.evaledG } := by
          refine ⟨?_, hst.bestOK, List.mem_cons_of_mem _ hst.bestEvaled, ?_⟩
          · intro e he
            rcases List.mem_cons.mp he with rfl | he'
            · exact hchild
            · exact hst.queueOK e he'
          · intro e he
            rcases List.mem_cons.mp he with rfl | he'
            · exact le_of_not_lt hpge
            · exact hst.bestMin e he'
        split
        · exact hst'
        · exact ih _ hst' (fun y hy => hl y (List.mem_cons_of_mem _ hy))

lemma addRoot_inv {inits : List S} {succ : S → List (A × S × ℤ)}
    {prio : SNode S A → ℤ} {st : SearchState S A} {s : S}
    (hst : SInv inits succ st) (hs : s ∈ inits) :
    SInv inits succ (addRoot prio st s) := by
  have hroot : NodeOK inits succ (rootNode s : SNode S A) := NodeOK.root s hs
  simp only [addRoot]
  split
  · rename_i hlt
    refine ⟨?_, hroot, List.mem_cons_self _ _, ?_⟩
    · intro e he
      rcases List.mem_cons.mp he with rfl | he'
      · exact hroot
      · exact hst.queueOK e he'
    · intro e he
      rcases List.mem_cons.mp he with rfl | he'
      · exact le_refl _
      · exact le_of_lt (lt_of_lt_of_le hlt (hst.bestMin e he'))
  · rename_i hge
    refine ⟨?_, hst.bestOK, List.mem_cons_of_mem _ hst.bestEvaled, ?_⟩
    · intro e he
      rcases List.mem_cons.mp he with rfl | he'
      · exact hroot
      · exact hst.queueOK e he'
    · intro e he
      rcases List.mem_cons.mp he with rfl | he'
      · exact le_of_not_lt hge
      · exact hst.bestMin e he'

lemma foldl_addRoot_inv {inits : List S} {succ : S → List (A × S × ℤ)}
    {prio : SNode S A → ℤ} :
    ∀ (l : List S) (st : SearchState S A), SInv inits succ st →
    (∀ s ∈ l, s ∈ inits) → SInv inits succ (l.foldl (addRoot prio) st) := by
  intro l
  induction l with
  | nil => intro st hst _; exact hst
  | cons s l ih =>
    intro st hst hl
    exact ih _ (addRoot_inv hst (hl s (List.mem_cons_self _ _)))
      (fun x hx => hl x (List.mem_cons_of_mem _ hx))

lemma initState_inv {succ : S → List (A × S × ℤ)} {prio : SNode S A → ℤ}
    {inits : List S} {st : SearchState S A}
    (h : initState prio inits = some st) : SInv inits succ st := by
  cases inits with
  | nil => cases h
  | cons i is =>
    simp only [initState] at h
    cases h
    apply foldl_addRoot_inv is _ ?_ (fun s hs => List.mem_cons_of_mem _ hs)
    refine ⟨?_, NodeOK.root i (List.mem_cons_self _ _), List.mem_cons_self _ _, ?_⟩
    · intro e he
      rcases List.mem_cons.mp he with rfl | he'
      · exact NodeOK.root i (List.mem_cons_self _ _)
      · cases he'
    · intro e he
      rcases List.mem_cons.mp he with rfl | he'
      · exact le_refl _
      · cases he'

lemma finishPlan_fst_ne_nil (n : SNode S A) : (finishPlan n).1 ≠ [] := by
  cases n with
  | mk s e c p a =>
    cases p with
    | none => simp [finishPlan]
    | some q => simp [finishPlan]

lemma finishPlan_shape {inits : List S} {succ : S → List (A × S × ℤ)}
    {n : SNode S A} (h : NodeOK inits succ n) :
    (finishPlan n).1.length = (finishPlan n).2.length + 1 ∧
      ∃ s0 ∈ inits, (finishPlan n).1.head? = some s0 := by
  induction h with
  | root s hs => exact ⟨rfl, s, hs, rfl⟩
  | child parent a s' c hp hs ih =>
    obtain ⟨hlen, s0, hs0, hhead⟩ := ih
    constructor
    · simp [finishPlan, hlen, Option.toList]
    · refine ⟨s0, hs0, ?_⟩
      simp only [finishPlan]
      rw [List.head?_append_of_ne_nil _ (finishPlan_fst_ne_nil parent)]
      exact hhead

lemma searchLoop_props [DecidableEq S] {inits : List S} {goal : S → Bool}
    {succ : S → List (A × S × ℤ)} {prio : SNode S A → ℤ}
    {maxExp maxEvals : ℕ} {lazy : Bool} :
    ∀ (fuel : ℕ) (st : SearchState S A) (res : SearchResult S A),
    SInv inits succ st →
    searchLoop goal succ prio maxExp maxEvals lazy fuel st = some res →
    NodeOK inits succ res.node ∧ res.states = (finishPlan res.node).1 ∧
      res.actions = (finishPlan res.node).2 ∧
      (res.exit = .exhausted → res.node = res.final.best ∧
        (res.final.bestPrio, res.final.best) ∈ res.final.evaledG ∧
        ∀ e ∈ res.final.evaledG, res.final.bestPrio ≤ e.1) := by
  intro fuel
  induction fuel with
  | zero => intro st res _ h; cases h
  | succ fuel ih =>
    intro st res hst hrun
    simp only [searchLoop] at hrun
    split at hrun
    · cases hrun
      exact ⟨hst.bestOK, rfl, rfl,
        fun _ => ⟨rfl, hst.bestEvaled, hst.bestMin⟩⟩
    · cases hpop : popMin st.queue with
      | none => rw [hpop] at hrun; cases hrun
      | some p =>
        obtain ⟨⟨pp, pt, node⟩, rest⟩ := p
        rw [hpop] at hrun
        dsimp only at hrun
        have hmem := popMin_mem hpop
        have hnode : NodeOK inits succ node := hst.queueOK _ hmem.1
        have hrest : SInv inits succ { st with queue := rest } :=
          ⟨fun e he => hst.queueOK e (hmem.2 e he), hst.bestOK,
            hst.bestEvaled, hst.bestMin⟩
        split at hrun
        · exact ih _ res hrest hrun
        · split at hrun
          · cases hrun
            refine ⟨hnode, rfl, rfl, ?_⟩
            intro hex
            cases hex
          · refine ih _ res ?_ hrun
            apply procSuccs_inv hnode
            · exact ⟨hrest.queueOK, hrest.bestOK, hrest.bestEvaled, hrest.bestMin⟩
            · intro x hx; exact hx

/-- Claim C8: when the generic heuristic search exits because the queue
emptied or a resource budget was exhausted (expansions or evaluations; the
wall-clock timeout is modelled as non-binding), it returns — rather than
raising or returning an empty result — the non-empty path to the best node:
the final best node was evaluated during the run and its priority is less
than or equal to the priority of every node ever evaluated. -/
theorem claim_C8_exhaustion_returns_best {S A : Type} [DecidableEq S]
    (fuel : ℕ) (inits : List S) (goal : S → Bool)
    (succ : S → List (A × S × ℤ)) (prio : SNode S A → ℤ)
    (maxExp maxEvals : ℕ) (lazy : Bool) (res : SearchResult S A)
    (hrun : runHeuristicSearch fuel inits goal succ prio maxExp maxEvals lazy =
      some res)
    (hexit : res.exit = .exhausted) :
    res.states ≠ [] ∧ res.node = res.final.best ∧
      res.states = (finishPlan res.final.best).1 ∧
      res.actions = (finishPlan res.final.best).2 ∧
      (res.final.bestPrio, res.final.best) ∈ res.final.evaledG ∧
      ∀ e ∈ res.final.evaledG, res.final.bestPrio ≤ e.1 := by
  simp only [runHeuristicSearch] at hrun
  cases hinit : initState prio inits with
  | none => rw [hinit] at hrun; cases hrun
  | some st =>
    rw [hinit] at hrun
    obtain ⟨hnode, hsts, hacts, hex⟩ :=
      searchLoop_props fuel st res (initState_inv hinit) hrun
    obtain ⟨hbest, hbe, hbm⟩ := hex hexit
    refine ⟨?_, hbest, hbest ▸ hsts, hbest ▸ hacts, hbe, hbm⟩
    rw [hsts]
    exact finishPlan_fst_ne_nil _

/-- Witness for C8: a one-state, successor-less search exhausts its queue
and returns the path [0] to the (only) evaluated node. -/
theorem claim_C8_exhaustion_returns_best_witness :
    res0.states ≠ [] ∧ res0.node = res0.final.best ∧
      res0.states = (finishPlan res0.final.best).1 ∧
      res0.actions = (finishPlan res0.final.best).2 ∧
      (res0.final.bestPrio, res0.final.best) ∈ res0.final.evaledG ∧
      ∀ e ∈ res0.final.evaledG, res0.final.bestPrio ≤ e.1 :=
  claim_C8_exhaustion_returns_best 5 [0] (fun _ => false) (fun _ => [])
    (fun n => n.cumCost) 10 10 false res0 rfl rfl

/-! ## Hill-climbing node-chain invariants (for the plan-shape claim) -/

lemma hcScanUpd_succs {h : S → ℤ} {s' : S} {child : SNode S A}
    {acc : ScanAcc S A} :
    (hcScanUpd h s' child acc).succs = acc.succs ++ [child] := by
  simp only [hcScanUpd]
  split
  · rfl
  · rfl

lemma hcScanUpd_bestChild {h : S → ℤ} {s' : S} {child : SNode S A}
    {acc : ScanAcc S A} {n : SNode S A}
    (hn : (hcScanUpd h s' child acc).bestChild = some n) :
    n = child ∨ acc.bestChild = some n := by
  simp only [hcScanUpd] at hn
  split at hn
  · cases hn
    exact Or.inl rfl
  · exact Or.inr hn

lemma hcScan_nodeOK [DecidableEq S] {inits : List S}
    {succ : S → List (A × S × ℤ)} {h : S → ℤ} {thresh : Option ℤ}
    {parent : SNode S A} (hparent : NodeOK inits succ parent) :
    ∀ (l : List (A × S × ℤ)) (acc : ScanAcc S A),
    (∀ x ∈ l, x ∈ succ parent.state) →
    (∀ n ∈ acc.succs, NodeOK inits succ n) →
    (∀ n, acc.bestChild = some n → NodeOK inits succ n) →
    (∀ n ∈ (hcScan h thresh parent l acc).succs, NodeOK inits succ n) ∧
    (∀ n, (hcScan h thresh parent l acc).bestChild = some n →
      NodeOK inits succ n) := by
  intro l
  induction l with
  | nil => intro acc _ h1 h2; exact ⟨h1, h2⟩
  | cons x rest ih =>
    obtain ⟨a, s', c⟩ := x
    intro acc hl h1 h2
    have hlrest : ∀ y ∈ rest, y ∈ succ parent.state :=
      fun y hy => hl y (List.mem_cons_of_mem _ hy)
    simp only [hcScan]
    split
    · exact ih acc hlrest h1 h2
    · have hchild : NodeOK inits succ
          (.mk s' c (parent.cumCost + c) (some parent) (some a)) :=
        NodeOK.child parent a s' c hparent (hl _ (List.mem_cons_self _ _))
      have h1' : ∀ n ∈ (hcScanUpd h s'
          (.mk s' c (parent.cumCost + c) (some parent) (some a)) acc).succs,
          NodeOK inits succ n := by
        rw [hcScanUpd_succs]
        intro n hn
        rcases List.mem_append.mp hn with hn' | hn'
        · exact h1 n hn'
        · rw [List.mem_singleton] at hn'
          subst hn'
          exact hchild
      have h2' : ∀ n, (hcScanUpd h s'
          (.mk s' c (parent.cumCost + c) (some parent) (some a)) acc).bestChild =
          some n → NodeOK inits succ n := by
        intro n hn
        rcases hcScanUpd_bestChild hn with rfl | hn'
        · exact hchild
        · exact h2 n hn'
      split
      · exact ⟨h1', h2'⟩
      · exact ih _ hlrest h1' h2'

lemma hcDepthStep_nodeOK [DecidableEq S] {inits : List S}
    {succ : S → List (A × S × ℤ)} {h : S → ℤ} {thresh : Option ℤ} :
    ∀ (parents : List (SNode S A)) (acc : ScanAcc S A),
    (∀ p ∈ parents, NodeOK inits succ p) →
    (∀ n ∈ acc.succs, NodeOK inits succ n) →
    (∀ n, acc.bestChild = some n → NodeOK inits succ n) →
    (∀ n ∈ (hcDepthStep h thresh succ parents acc).succs, NodeOK inits succ n) ∧
    (∀ n, (hcDepthStep h thresh succ parents acc).bestChild = some n →
      NodeOK inits succ n) := by
  intro parents
  induction parents with
  | nil => intro acc _ h1 h2; exact ⟨h1, h2⟩
  | cons p ps ih =>
    intro acc hp h1 h2
    simp only [hcDepthStep]
    have hparent := hp p (List.mem_cons_self _ _)
    obtain ⟨h1', h2'⟩ := hcScan_nodeOK hparent (succ p.state) acc
      (fun x hx => hx) h1 h2
    exact ih _ (fun q hq => hp q (List.mem_cons_of_mem _ hq)) h1' h2'

lemma hcDepthLoop_nodeOK [DecidableEq S] {inits : List S}
    {succ : S → List (A × S × ℤ)} {h : S → ℤ} {thresh : Option ℤ} :
    ∀ (lastH : WithTop ℤ) (n : ℕ) (parents : List (SNode S A)) (acc : ScanAcc S A)
      (allBest : List (WithTop ℤ)),
    (∀ p ∈ parents, NodeOK inits succ p) →
    (∀ q ∈ acc.succs, NodeOK inits succ q) →
    (∀ q, acc.bestChild = some q → NodeOK inits succ q) →
    ∀ q, (hcDepthLoop h thresh succ lastH n parents acc allBest).bestChild =
      some q → NodeOK inits succ q := by
  intro lastH n
  induction n with
  | zero =>
    intro parents acc allBest _ _ h2
    simp only [hcDepthLoop]
    exact h2
  | succ m ih =>
    intro parents acc allBest hp h1 h2
    rw [hcDepthLoop_succ_eq]
    simp only
    obtain ⟨h1', h2'⟩ := hcDepthStep_nodeOK parents
      { succs := [], bestH := acc.bestH, bestChild := acc.bestChild
        visited := acc.visited, earlyBreak := acc.earlyBreak }
      hp (by intro q hq; cases hq) h2
    split
    · exact h2'
    · exact ih _ _ _ h1' h1' h2'

lemma hcLoop_nodeOK [DecidableEq S] {inits : List S} {goal : S → Bool}
    {succ : S → List (A × S × ℤ)} {h : S → ℤ} {thresh : Option ℤ}
    {depth : ℕ} :
    ∀ (fuel : ℕ) (cur : SNode S A) (vis : List S) (lastH : WithTop ℤ)
      (trace : List (WithTop ℤ)) (res : SNode S A × List (WithTop ℤ)),
    NodeOK inits succ cur →
    hcLoop goal succ h thresh depth fuel cur vis lastH trace = some res →
    NodeOK inits succ res.1 := by
  intro fuel
  induction fuel with
  | zero => intro cur vis lastH trace res _ hrun; cases hrun
  | succ fuel ih =>
    intro cur vis lastH trace res hcur hrun
    simp only [hcLoop] at hrun
    split at hrun
    · cases hrun; exact hcur
    · split at hrun
      · cases hrun; exact hcur
      · have hbc : ∀ q, (hcDepthLoop h thresh succ lastH (depth + 1) [cur]
            { succs := [], bestH := ⊤, bestChild := none
              visited := vis, earlyBreak := false } []).bestChild = some q →
            NodeOK inits succ q :=
          hcDepthLoop_nodeOK lastH (depth + 1) [cur]
            { succs := [], bestH := ⊤, bestChild := none
              visited := vis, earlyBreak := false } []
            (by intro p hp; rw [List.mem_singleton] at hp; subst hp; exact hcur)
            (by intro q hq; cases hq) (by intro q hq; cases hq)
        split at hrun
        · cases hrun; exact hcur
        · rename_i bc hbcEq
          split at hrun
          · cases hrun; exact hcur
          · split at hrun
            · cases hrun; exact hbc bc hbcEq
            · exact ih bc _ _ _ res (hbc bc hbcEq) hrun

lemma hcInitFold_nodeOK {inits : List S} {succ : S → List (A × S × ℤ)}
    {h : S → ℤ} :
    ∀ (l : List S) (cur : SNode S A × ℤ) (vis : List S),
    NodeOK inits succ cur.1 → (∀ s ∈ l, s ∈ inits) →
    NodeOK inits succ (hcInitFold h l cur vis).1.1 := by
  intro l
  induction l with
  | nil => intro cur vis hcur _; exact hcur
  | cons i is ih =>
    intro cur vis hcur hl
    simp only [hcInitFold]
    split
    · exact ih _ _ (NodeOK.root i (hl i (List.mem_cons_self _ _)))
        (fun s hs => hl s (List.mem_cons_of_mem _ hs))
    · exact ih _ _ hcur (fun s hs => hl s (List.mem_cons_of_mem _ hs))

/-- Claim C9: every terminating run of the generic heuristic search (hence
of `run_gbfs` and `run_astar`, which delegate to it) and of
`run_hill_climbing` with non-empty initial states returns a non-empty state
sequence whose length is the action sequence's length plus one and whose
first element is one of the supplied initial states. -/
theorem claim_C9_plan_shape {S A : Type} [DecidableEq S] (fuel : ℕ)
    (inits : List S) (goal : S → Bool) (succ : S → List (A × S × ℤ))
    (prio : SNode S A → ℤ) (maxExp maxEvals : ℕ) (lazy : Bool)
    (h : S → ℤ) (thresh : Option ℤ) (depth : ℕ) :
    (∀ res : SearchResult S A,
      runHeuristicSearch fuel inits goal succ prio maxExp maxEvals lazy =
        some res →
      res.states ≠ [] ∧ res.states.length = res.actions.length + 1 ∧
        ∃ s0 ∈ inits, res.states.head? = some s0)
    ∧ (∀ (sts : List S) (acts : List A) (trace : List (WithTop ℤ)),
      run_hill_climbing fuel inits goal succ h thresh depth =
        some (sts, acts, trace) →
      sts ≠ [] ∧ sts.length = acts.length + 1 ∧
        ∃ s0 ∈ inits, sts.head? = some s0) := by
  constructor
  · intro res hrun
    simp only [runHeuristicSearch] at hrun
    cases hinit : initState prio inits with
    | none => rw [hinit] at hrun; cases hrun
    | some st =>
      rw [hinit] at hrun
      obtain ⟨hnode, hsts, hacts, -⟩ :=
        searchLoop_props fuel st res (initState_inv hinit) hrun
      obtain ⟨hlen, s0, hs0, hhead⟩ := finishPlan_shape hnode
      exact ⟨by rw [hsts]; exact finishPlan_fst_ne_nil _,
        by rw [hsts, hacts]; exact hlen, s0, hs0, by rw [hsts]; exact hhead⟩
  · intro sts acts trace hrun
    cases inits with
    | nil =>
      simp only [run_hill_climbing] at hrun
      cases hrun
    | cons i is =>
      simp only [run_hill_climbing] at hrun
      cases hloop : hcLoop goal succ h thresh depth fuel
          (hcInitFold h is ((rootNode i : SNode S A), h i) [i]).1.1
          (hcInitFold h is ((rootNode i : SNode S A), h i) [i]).2
          ((hcInitFold h is ((rootNode i : SNode S A), h i) [i]).1.2 : WithTop ℤ)
          [((hcInitFold h is ((rootNode i : SNode S A), h i) [i]).1.2 : WithTop ℤ)] with
      | none => rw [hloop] at hrun; cases hrun
      | some p =>
        rw [hloop] at hrun
        dsimp only at hrun
        cases hrun
        have hcur0 : NodeOK (i :: is) succ
            ((hcInitFold h is ((rootNode i : SNode S A), h i) [i]).1.1) :=
          hcInitFold_nodeOK is ((rootNode i : SNode S A), h i) [i]
            (NodeOK.root i (List.mem_cons_self _ _))
            (fun s hs => List.mem_cons_of_mem _ hs)
        have hnode := hcLoop_nodeOK fuel _ _ _ _ p hcur0 hloop
        obtain ⟨hlen, s0, hs0, hhead⟩ := finishPlan_shape hnode
        exact ⟨finishPlan_fst_ne_nil _, hlen, s0, hs0, hhead⟩

/-- Witness for C9 at concrete runs of both engines. -/
theorem claim_C9_plan_shape_witness :
    (res0.states ≠ [] ∧ res0.states.length = res0.actions.length + 1 ∧
      ∃ s0 ∈ ([0] : List ℕ), res0.states.head? = some s0)
    ∧ (([0] : List ℕ) ≠ [] ∧ ([0] : List ℕ).length = ([] : List ℕ).length + 1 ∧
      ∃ s0 ∈ ([0] : List ℕ), ([0] : List ℕ).head? = some s0) :=
  ⟨(claim_C9_plan_shape 5 [0] (fun _ => false) (fun _ => [])
      (fun n => n.cumCost) 10 10 false h4 none 0).1 res0 rfl,
   (claim_C9_plan_shape 10 [0] (fun _ => false) succ4
      (fun n => n.cumCost) 10 10 false h4 none 0).2 [0] [] [(3 : WithTop ℤ)] rfl⟩

/-! ## Trace infrastructure for the A* path-cost claim -/

lemma traceEnd_nil (s : S) : traceEnd s ([] : List S) = s := rfl

lemma traceEnd_cons (s s' : S) (ss : List S) :
    traceEnd s (s' :: ss) = traceEnd s' ss := by
  cases ss with
  | nil => rfl
  | cons y ys => rfl

lemma traceEnd_append (s : S) (ss₁ ss₂ : List S) :
    traceEnd s (ss₁ ++ ss₂) = traceEnd (traceEnd s ss₁) ss₂ := by
  induction ss₁ generalizing s with
  | nil => rfl
  | cons x ss₁ ih =>
    rw [List.cons_append, traceEnd_cons, traceEnd_cons]
    exact ih x

lemma traceEnd_snoc (s x : S) (ss : List S) :
    traceEnd s (ss ++ [x]) = x := by
  rw [traceEnd_append]
  rfl

lemma IsTrace_append {succ : S → List (A × S × ℤ)} :
    ∀ {as₁ : List A} {cs₁ : List ℤ} {ss₁ : List S} {s : S}
      {as₂ : List A} {cs₂ : List ℤ} {ss₂ : List S},
    IsTrace succ s as₁ cs₁ ss₁ →
    IsTrace succ (traceEnd s ss₁) as₂ cs₂ ss₂ →
    IsTrace succ s (as₁ ++ as₂) (cs₁ ++ cs₂) (ss₁ ++ ss₂) := by
  intro as₁
  induction as₁ with
  | nil =>
    intro cs₁ ss₁ s as₂ cs₂ ss₂ h1 h2
    cases cs₁ with
    | nil =>
      cases ss₁ with
      | nil => simpa using h2
      | cons x ss₁ => exact absurd h1 (by simp [IsTrace])
    | cons c cs₁ => exact absurd h1 (by simp [IsTrace])
  | cons a as₁ ih =>
    intro cs₁ ss₁ s as₂ cs₂ ss₂ h1 h2
    cases cs₁ with
    | nil => exact absurd h1 (by simp [IsTrace])
    | cons c cs₁ =>
      cases ss₁ with
      | nil => exact absurd h1 (by simp [IsTrace])
      | cons x ss₁ =>
        obtain ⟨hstep, htail⟩ := h1
        rw [traceEnd_cons] at h2
        exact ⟨hstep, ih htail h2⟩

lemma IsTrace_snoc {succ : S → List (A × S × ℤ)} {s : S}
    {as : List A} {cs : List ℤ} {ss : List S} {a : A} {s' : S} {c : ℤ}
    (h1 : IsTrace succ s as cs ss) (h2 : (a, s', c) ∈ succ (traceEnd s ss)) :
    IsTrace succ s (as ++ [a]) (cs ++ [c]) (ss ++ [s']) :=
  IsTrace_append h1 ⟨h2, trivial⟩

lemma IsTrace_sum_nonneg {succ : S → List (A × S × ℤ)}
    (hcost : ∀ (s : S), ∀ x ∈ succ s, 0 ≤ x.2.2) :
    ∀ {as : List A} {cs : List ℤ} {ss : List S} {s : S},
    IsTrace succ s as cs ss → 0 ≤ cs.sum := by
  intro as
  induction as with
  | nil =>
    intro cs ss s h1
    cases cs with
    | nil => simp
    | cons c cs => exact absurd h1 (by simp [IsTrace])
  | cons a as ih =>
    intro cs ss s h1
    cases cs with
    | nil => exact absurd h1 (by simp [IsTrace])
    | cons c cs =>
      cases ss with
      | nil => exact absurd h1 (by simp [IsTrace])
      | cons x ss =>
        obtain ⟨hstep, htail⟩ := h1
        have hc : (0 : ℤ) ≤ c := hcost s (a, x, c) hstep
        have := ih htail
        simp only [List.sum_cons]
        omega

lemma reach_init {inits : List S} {succ : S → List (A × S × ℤ)} {i : S}
    (hi : i ∈ inits) : ReachCost inits succ i 0 :=
  ⟨i, hi, [], [], [], trivial, rfl, rfl⟩

lemma reach_step {inits : List S} {succ : S → List (A × S × ℤ)}
    {s : S} {k : ℤ} {a : A} {s' : S} {c : ℤ}
    (h1 : ReachCost inits succ s k) (h2 : (a, s', c) ∈ succ s) :
    ReachCost inits succ s' (k + c) := by
  obtain ⟨i, hi, as, cs, ss, htr, hend, hsum⟩ := h1
  refine ⟨i, hi, as ++ [a], cs ++ [c], ss ++ [s'],
    IsTrace_snoc htr (by rw [hend]; exact h2), traceEnd_snoc _ _ _, ?_⟩
  simp [hsum]

lemma reach_nonneg {inits : List S} {succ : S → List (A × S × ℤ)}
    (hcost : ∀ (s : S), ∀ x ∈ succ s, 0 ≤ x.2.2) {s : S} {k : ℤ}
    (h1 : ReachCost inits succ s k) : 0 ≤ k := by
  obtain ⟨i, hi, as, cs, ss, htr, hend, hsum⟩ := h1
  rw [← hsum]
  exact IsTrace_sum_nonneg hcost htr

lemma splice_goal {inits : List S} {succ : S → List (A × S × ℤ)}
    {goal : S → Bool} {s : S} {m k : ℤ}
    (h1 : ReachCost inits succ s m) (h2 : GoalFrom succ goal s k) :
    GoalReach inits succ goal (m + k) := by
  obtain ⟨i, hi, as1, cs1, ss1, htr1, hend1, hsum1⟩ := h1
  obtain ⟨as2, cs2, ss2, htr2, hgoal2, hsum2⟩ := h2
  refine ⟨i, hi, as1 ++ as2, cs1 ++ cs2, ss1 ++ ss2,
    IsTrace_append htr1 (by rw [hend1]; exact htr2), ?_, ?_⟩
  · rw [traceEnd_append, hend1]
    exact hgoal2
  · simp [hsum1, hsum2]

lemma finishPlan_trace {inits : List S} {succ : S → List (A × S × ℤ)}
    {n : SNode S A} (hn : NodeOK inits succ n) :
    ∃ s0 ∈ inits, ∃ cs rest, (finishPlan n).1 = s0 :: rest ∧
      IsTrace succ s0 (finishPlan n).2 cs rest ∧ cs.sum = n.cumCost ∧
      traceEnd s0 rest = n.state := by
  induction hn with
  | root s hs => exact ⟨s, hs, [], [], rfl, trivial, rfl, rfl⟩
  | child parent a s' c hp hs ih =>
    obtain ⟨s0, hs0, cs, rest, hplan, htr, hsum, hend⟩ := ih
    refine ⟨s0, hs0, cs ++ [c], rest ++ [s'], ?_, ?_, ?_, ?_⟩
    · simp only [finishPlan, hplan]
      rfl
    · simp only [finishPlan, Option.toList]
      exact IsTrace_snoc htr (by rw [hend]; exact hs)
    · simp only [SNode.cumCost, List.sum_append, List.sum_cons, List.sum_nil,
        hsum]
      ring
    · exact traceEnd_snoc _ _ _

lemma nodeOK_reach {inits : List S} {succ : S → List (A × S × ℤ)}
    {n : SNode S A} (hn : NodeOK inits succ n) :
    ReachCost inits succ n.state n.cumCost := by
  obtain ⟨s0, hs0, cs, rest, hplan, htr, hsum, hend⟩ := finishPlan_trace hn
  exact ⟨s0, hs0, _, cs, rest, htr, hend, hsum⟩

lemma nodeOK_cum_nonneg {inits : List S} {succ : S → List (A × S × ℤ)}
    (hcost : ∀ (s : S), ∀ x ∈ succ s, 0 ≤ x.2.2) {n : SNode S A}
    (hn : NodeOK inits succ n) : 0 ≤ n.cumCost :=
  reach_nonneg hcost (nodeOK_reach hn)

/-! ## Cost-map, measure and queue lemmas for the A* claim -/

lemma lookupCost_cons [DecidableEq S] (s' : S) (v : ℤ) (m : List (S × ℤ))
    (t : S) :
    lookupCost ((s', v) :: m) t = if t = s' then some v else lookupCost m t := by
  simp only [lookupCost]
  by_cases hts : t = s'
  · subst hts
    rw [List.find?_cons_of_pos _ (by simp)]
    simp
  · rw [List.find?_cons_of_neg _
      (by simp only [beq_iff_eq]; exact fun h => hts h.symm)]
    rw [if_neg hts]

lemma lookupCost_mem [DecidableEq S] {m : List (S × ℤ)} {s : S} {v : ℤ}
    (h : lookupCost m s = some v) : (s, v) ∈ m := by
  simp only [lookupCost, Option.map_eq_some'] at h
  obtain ⟨p, hp, hv⟩ := h
  have hmem := List.mem_of_find?_eq_some hp
  have hpred := List.find?_some hp
  simp only [beq_iff_eq] at hpred
  have : p = (s, v) := by
    cases p
    simp only at hpred hv
    simp [hpred, hv]
  rw [this] at hmem
  exact hmem

lemma costLE_push [DecidableEq S] {m : List (S × ℤ)} {s : S} {c : ℤ}
    {s' : S} {v : ℤ} (h1 : costLE m s c = true) (h2 : costLE m s' v = false) :
    costLE ((s', v) :: m) s c = true := by
  by_cases hss : s = s'
  · subst hss
    have hnew : lookupCost ((s, v) :: m) s = some v := by
      rw [lookupCost_cons, if_pos rfl]
    cases hl : lookupCost m s with
    | none =>
      exfalso
      unfold costLE at h1
      rw [hl] at h1
      exact Bool.false_ne_true h1
    | some w =>
      unfold costLE at h1 h2 ⊢
      rw [hl] at h1 h2
      rw [hnew]
      simp only [decide_eq_true_eq] at h1 ⊢
      simp only [decide_eq_false_iff_not, not_le] at h2
      omega
  · unfold costLE at h1 ⊢
    rw [lookupCost_cons, if_neg hss]
    exact h1

lemma costLT_push [DecidableEq S] {m : List (S × ℤ)} {s : S} {c : ℤ}
    {s' : S} {v : ℤ} (h1 : costLT m s c = true) (h2 : costLE m s' v = false) :
    costLT ((s', v) :: m) s c = true := by
  by_cases hss : s = s'
  · subst hss
    have hnew : lookupCost ((s, v) :: m) s = some v := by
      rw [lookupCost_cons, if_pos rfl]
    cases hl : lookupCost m s with
    | none =>
      exfalso
      unfold costLT at h1
      rw [hl] at h1
      exact Bool.false_ne_true h1
    | some w =>
      unfold costLT at h1
      unfold costLE at h2
      unfold costLT
      rw [hl] at h1 h2
      rw [hnew]
      simp only [decide_eq_true_eq] at h1 ⊢
      simp only [decide_eq_false_iff_not, not_le] at h2
      omega
  · unfold costLT at h1 ⊢
    rw [lookupCost_cons, if_neg hss]
    exact h1

lemma measOne_push_none [DecidableEq S] {univ : Finset S}
    {st st' : SearchState S A} {s' : S} {v : ℤ}
    (hc : st'.costs = (s', v) :: st.costs) (hu : s' ∈ univ)
    (hnone : lookupCost st.costs s' = none) :
    measOne univ st' < measOne univ st := by
  apply Finset.card_lt_card
  constructor
  · intro t ht
    simp only [Finset.mem_filter] at ht ⊢
    obtain ⟨htu, htl⟩ := ht
    rw [hc, lookupCost_cons] at htl
    by_cases hts : t = s'
    · rw [if_pos hts] at htl; cases htl
    · rw [if_neg hts] at htl; exact ⟨htu, htl⟩
  · intro hsup
    have hmem : s' ∈ univ.filter (fun s => lookupCost st.costs s = none) := by
      simp only [Finset.mem_filter]
      exact ⟨hu, hnone⟩
    have := hsup hmem
    simp only [Finset.mem_filter, hc, lookupCost_cons, if_pos rfl] at this
    cases this.2

lemma measOne_push_some [DecidableEq S] {univ : Finset S}
    {st st' : SearchState S A} {s' : S} {v w : ℤ}
    (hc : st'.costs = (s', v) :: st.costs)
    (hsome : lookupCost st.costs s' = some w) :
    measOne univ st' = measOne univ st := by
  unfold measOne
  congr 1
  apply Finset.filter_congr
  intro t _
  rw [hc, lookupCost_cons]
  by_cases hts : t = s'
  · subst hts
    simp [hsome]
  · rw [if_neg hts]

lemma measTwo_push_lt [DecidableEq S] {univ : Finset S}
    {st st' : SearchState S A} {s' : S} {v w : ℤ}
    (hc : st'.costs = (s', v) :: st.costs) (hu : s' ∈ univ)
    (hsome : lookupCost st.costs s' = some w) (hlt : v < w) (hv : 0 ≤ v) :
    measTwo univ st' < measTwo univ st := by
  unfold measTwo
  apply Finset.sum_lt_sum
  · intro t _
    rw [hc, lookupCost_cons]
    by_cases hts : t = s'
    · subst hts
      rw [if_pos rfl, hsome]
      dsimp only
      omega
    · rw [if_neg hts]
  · refine ⟨s', hu, ?_⟩
    rw [hc, lookupCost_cons, if_pos rfl, hsome]
    dsimp only
    omega

lemma popMin_none_iff {l : List (ℤ × ℕ × SNode S A)} :
    popMin l = none ↔ l = [] := by
  cases l with
  | nil => simp [popMin]
  | cons a as =>
    simp only [popMin]
    cases hp : popMin as with
    | none => simp
    | some p =>
      obtain ⟨m, r⟩ := p
      dsimp only
      by_cases hcmp : entryLt (m.1, m.2.1) (a.1, a.2.1) = true
      · rw [if_pos hcmp]; simp
      · rw [if_neg hcmp]; simp

lemma popMin_remove {l : List (ℤ × ℕ × SNode S A)} {e : ℤ × ℕ × SNode S A}
    {rest : List (ℤ × ℕ × SNode S A)} (h : popMin l = some (e, rest)) :
    ∀ x ∈ l, x = e ∨ x ∈ rest := by
  induction l generalizing e rest with
  | nil => cases h
  | cons a as ih =>
    simp only [popMin] at h
    cases hp : popMin as with
    | none =>
      rw [hp] at h
      cases h
      have : as = [] := popMin_none_iff.mp hp
      subst this
      intro x hx
      simp only [List.mem_singleton] at hx
      exact Or.inl hx
    | some p =>
      obtain ⟨m, r⟩ := p
      rw [hp] at h
      dsimp only at h
      by_cases hcmp : entryLt (m.1, m.2.1) (a.1, a.2.1) = true
      · rw [if_pos hcmp] at h
        cases h
        intro x hx
        rcases List.mem_cons.mp hx with hxa | hxas
        · exact Or.inr (List.mem_cons.mpr (Or.inl hxa))
        · rcases ih hp x hxas with hxe | hxr
          · exact Or.inl hxe
          · exact Or.inr (List.mem_cons.mpr (Or.inr hxr))
      · rw [if_neg hcmp] at h
        cases h
        intro x hx
        rcases List.mem_cons.mp hx with hxa | hxas
        · exact Or.inl hxa
        · exact Or.inr hxas

lemma popMin_length {l : List (ℤ × ℕ × SNode S A)} {e : ℤ × ℕ × SNode S A}
    {rest : List (ℤ × ℕ × SNode S A)} (h : popMin l = some (e, rest)) :
    rest.length + 1 = l.length := by
  induction l generalizing e rest with
  | nil => cases h
  | cons a as ih =>
    simp only [popMin] at h
    cases hp : popMin as with
    | none =>
      rw [hp] at h
      cases h
      have : as = [] := popMin_none_iff.mp hp
      subst this
      rfl
    | some p =>
      obtain ⟨m, r⟩ := p
      rw [hp] at h
      dsimp only at h
      by_cases hcmp : entryLt (m.1, m.2.1) (a.1, a.2.1) = true
      · rw [if_pos hcmp] at h
        cases h
        simp only [List.length_cons]
        rw [← ih hp]
      · rw [if_neg hcmp] at h
        cases h
        rfl

lemma entryLt_false_le {x y : ℤ × ℕ} (h : entryLt x y = false) : y.1 ≤ x.1 := by
  simp only [entryLt, Bool.or_eq_false_iff, Bool.and_eq_false_iff,
    decide_eq_false_iff_not, not_lt] at h
  exact h.1

lemma popMin_min {l : List (ℤ × ℕ × SNode S A)} {e : ℤ × ℕ × SNode S A}
    {rest : List (ℤ × ℕ × SNode S A)} (h : popMin l = some (e, rest)) :
    ∀ x ∈ l, e.1 ≤ x.1 := by
  induction l generalizing e rest with
  | nil => cases h
  | cons a as ih =>
    simp only [popMin] at h
    cases hp : popMin as with
    | none =>
      rw [hp] at h
      cases h
      have : as = [] := popMin_none_iff.mp hp
      subst this
      intro x hx
      simp only [List.mem_singleton] at hx
      subst hx
      exact le_refl _
    | some p =>
      obtain ⟨m, r⟩ := p
      rw [hp] at h
      dsimp only at h
      by_cases hcmp : entryLt (m.1, m.2.1) (a.1, a.2.1) = true
      · rw [if_pos hcmp] at h
        cases h
        intro x hx
        rcases List.mem_cons.mp hx with hxa | hxas
        · subst hxa
          simp only [entryLt, Bool.or_eq_true, decide_eq_true_eq,
            Bool.and_eq_true, beq_iff_eq] at hcmp
          rcases hcmp with hlt | ⟨heq, _⟩
          · exact le_of_lt hlt
          · exact le_of_eq heq
        · exact ih hp x hxas
      · rw [if_neg hcmp] at h
        cases h
        intro x hx
        rcases List.mem_cons.mp hx with hxa | hxas
        · subst hxa; exact le_refl _
        · have hle := entryLt_false_le (Bool.eq_false_iff.mpr hcmp)
          exact le_trans hle (ih hp x hxas)

/-! ## Optimal-suffix lemmas -/

lemma optSuffix_cheapest {inits : List S} {succ : S → List (A × S × ℤ)}
    {goal : S → Bool} {cstar : ℤ} {s : S} {g : ℤ}
    {as : List A} {cs : List ℤ} {ss : List S}
    (h : OptSuffix inits succ goal cstar s g as cs ss) :
    ∀ m, ReachCost inits succ s m → g ≤ m := by
  cases as with
  | nil =>
    cases cs with
    | nil =>
      cases ss with
      | nil => exact h.2.2
      | cons x ss => cases h
    | cons c cs => cases h
  | cons a as =>
    cases cs with
    | nil => cases h
    | cons c cs =>
      cases ss with
      | nil => cases h
      | cons x ss => exact h.2.1

lemma optSuffix_goalFrom {inits : List S} {succ : S → List (A × S × ℤ)}
    {goal : S → Bool} {cstar : ℤ} :
    ∀ {as : List A} {cs : List ℤ} {ss : List S} {s : S} {g : ℤ},
    OptSuffix inits succ goal cstar s g as cs ss →
    GoalFrom succ goal s (cstar - g) := by
  intro as
  induction as with
  | nil =>
    intro cs ss s g h
    cases cs with
    | nil =>
      cases ss with
      | nil =>
        obtain ⟨hg, he, _⟩ := h
        exact ⟨[], [], [], trivial, by simpa [traceEnd] using hg,
          by simp [he]⟩
      | cons x ss => cases h
    | cons c cs => cases h
  | cons a as ih =>
    intro cs ss s g h
    cases cs with
    | nil => cases h
    | cons c cs =>
      cases ss with
      | nil => cases h
      | cons x ss =>
        obtain ⟨hstep, _, hrec⟩ := h
        obtain ⟨as2, cs2, ss2, htr, hgoal, hsum⟩ := ih hrec
        refine ⟨a :: as2, c :: cs2, x :: ss2, ⟨hstep, htr⟩, ?_, ?_⟩
        · rw [traceEnd_cons]; exact hgoal
        · simp only [List.sum_cons, hsum]; ring

lemma optSuffix_of_trace {inits : List S} {succ : S → List (A × S × ℤ)}
    {goal : S → Bool} {cstar : ℤ}
    (hlb : ∀ k, GoalReach inits succ goal k → cstar ≤ k) :
    ∀ {as : List A} {cs : List ℤ} {ss : List S} {s : S} {g : ℤ},
    IsTrace succ s as cs ss → goal (traceEnd s ss) = true →
    g + cs.sum = cstar → (∀ m, ReachCost inits succ s m → g ≤ m) →
    OptSuffix inits succ goal cstar s g as cs ss := by
  intro as
  induction as with
  | nil =>
    intro cs ss s g htr hgoal hsum hch
    cases cs with
    | nil =>
      cases ss with
      | nil =>
        exact ⟨by simpa [traceEnd] using hgoal, by simpa using hsum, hch⟩
      | cons x ss => cases htr
    | cons c cs => cases htr
  | cons a as ih =>
    intro cs ss s g htr hgoal hsum hch
    cases cs with
    | nil => cases htr
    | cons c cs =>
      cases ss with
      | nil => cases htr
      | cons x ss =>
        obtain ⟨hstep, htail⟩ := htr
        rw [traceEnd_cons] at hgoal
        simp only [List.sum_cons] at hsum
        refine ⟨hstep, hch, ih htail hgoal (by omega) ?_⟩
        intro m hm
        have hGR : GoalReach inits succ goal (m + cs.sum) :=
          splice_goal hm ⟨as, cs, ss, htail, hgoal, rfl⟩
        have := hlb _ hGR
        omega

/-! ## A* invariant maintenance -/

lemma AInv_retarget [DecidableEq S] {univ : Finset S} {inits : List S}
    {succ : S → List (A × S × ℤ)} {goal : S → Bool} {h : S → ℤ}
    {nd nd' : S × ℤ} {st : SearchState S A}
    (hi : AInv univ inits succ goal h nd [] st) :
    AInv univ inits succ goal h nd' [] st := by
  refine ⟨hi.queueOK, hi.queuePrio, hi.queueUniv, hi.costsReach, hi.costsUniv,
    hi.costsPushed, hi.pushedReach, hi.pushedDisj, hi.expGoal, ?_, hi.rootIn⟩
  intro p hp x hx
  rcases hi.expSucc p hp x hx with ⟨_, hmem⟩ | hle
  · exact absurd hmem (List.not_mem_nil x)
  · exact Or.inr hle

lemma AInv_best [DecidableEq S] {univ : Finset S} {inits : List S}
    {succ : S → List (A × S × ℤ)} {goal : S → Bool} {h : S → ℤ}
    {nd : S × ℤ} {pend : List (A × S × ℤ)} {st : SearchState S A}
    {b : SNode S A} {bp : ℤ}
    (hi : AInv univ inits succ goal h nd pend st) :
    AInv univ inits succ goal h nd pend { st with best := b, bestPrio := bp } :=
  ⟨hi.queueOK, hi.queuePrio, hi.queueUniv, hi.costsReach, hi.costsUniv,
    hi.costsPushed, hi.pushedReach, hi.pushedDisj, hi.expGoal, hi.expSucc,
    hi.rootIn⟩

lemma measOne_congr [DecidableEq S] {univ : Finset S}
    {st st' : SearchState S A} (hc : st'.costs = st.costs) :
    measOne univ st' = measOne univ st := by
  unfold measOne
  rw [hc]

lemma measTwo_congr [DecidableEq S] {univ : Finset S}
    {st st' : SearchState S A} (hc : st'.costs = st.costs) :
    measTwo univ st' = measTwo univ st := by
  unfold measTwo
  rw [hc]

lemma AInv_pend_tail [DecidableEq S] {univ : Finset S} {inits : List S}
    {succ : S → List (A × S × ℤ)} {goal : S → Bool} {h : S → ℤ}
    {nd : S × ℤ} {x : A × S × ℤ} {pend : List (A × S × ℤ)}
    {st : SearchState S A}
    (hinv : AInv univ inits succ goal h nd (x :: pend) st)
    (hLE : costLE st.costs x.2.1 (nd.2 + x.2.2) = true) :
    AInv univ inits succ goal h nd pend st := by
  refine ⟨hinv.queueOK, hinv.queuePrio, hinv.queueUniv, hinv.costsReach,
    hinv.costsUniv, hinv.costsPushed, hinv.pushedReach, hinv.pushedDisj,
    hinv.expGoal, ?_, hinv.rootIn⟩
  intro q hq y hy
  rcases hinv.expSucc q hq y hy with ⟨hqnd, hym⟩ | hold
  · rcases List.mem_cons.mp hym with hyh | hyr
    · subst hyh
      subst hqnd
      exact Or.inr hLE
    · exact Or.inl ⟨hqnd, hyr⟩
  · exact Or.inr hold

lemma push_meas [DecidableEq S] {univ : Finset S} {st st1 : SearchState S A}
    {s' : S} {cc : ℤ}
    (hc1 : st1.costs = (s', cc) :: st.costs) (hu : s' ∈ univ)
    (hLE : costLE st.costs s' cc = false) (hcc : 0 ≤ cc) :
    measOne univ st1 < measOne univ st ∨
      (measOne univ st1 = measOne univ st ∧
        measTwo univ st1 < measTwo univ st) := by
  cases hl : lookupCost st.costs s' with
  | none => exact Or.inl (measOne_push_none hc1 hu hl)
  | some w =>
    have hw : cc < w := by
      unfold costLE at hLE
      rw [hl] at hLE
      simp only [decide_eq_false_iff_not, not_le] at hLE
      exact hLE
    exact Or.inr ⟨measOne_push_some hc1 hl, measTwo_push_lt hc1 hu hl hw hcc⟩

lemma push_inv [DecidableEq S] {univ : Finset S} {inits : List S}
    {succ : S → List (A × S × ℤ)} {goal : S → Bool} {h : S → ℤ}
    {node : SNode S A} {a : A} {s' : S} {c : ℤ}
    {rest : List (A × S × ℤ)} {st st1 : SearchState S A}
    (hclosed : ∀ s ∈ univ, ∀ x ∈ succ s, x.2.1 ∈ univ)
    (hnode : NodeOK inits succ node) (hnodeU : node.state ∈ univ)
    (hstep : (a, s', c) ∈ succ node.state)
    (hLE : costLE st.costs s' (node.cumCost + c) = false)
    (hinv : AInv univ inits succ goal h (node.state, node.cumCost)
      ((a, s', c) :: rest) st)
    (hq1 : st1.queue =
      (astarPrio h (SNode.mk s' c (node.cumCost + c) (some node) (some a)),
        st.tb, SNode.mk s' c (node.cumCost + c) (some node) (some a)) ::
        st.queue)
    (hc1 : st1.costs = (s', node.cumCost + c) :: st.costs)
    (hp1 : st1.pushedG = (s', node.cumCost + c) :: st.pushedG)
    (hx1 : st1.expandedG = st.expandedG) :
    AInv univ inits succ goal h (node.state, node.cumCost) rest st1 := by
  have hreach : ReachCost inits succ s' (node.cumCost + c) :=
    reach_step (nodeOK_reach hnode) hstep
  have hs'univ : s' ∈ univ := hclosed node.state hnodeU (a, s', c) hstep
  refine ⟨?_, ?_, ?_, ?_, ?_, ?_, ?_, ?_, ?_, ?_, ?_⟩
  · intro e he
    rw [hq1] at he
    rcases List.mem_cons.mp he with rfl | he'
    · exact NodeOK.child node a s' c hnode hstep
    · exact hinv.queueOK e he'
  · intro e he
    rw [hq1] at he
    rcases List.mem_cons.mp he with rfl | he'
    · rfl
    · exact hinv.queuePrio e he'
  · intro e he
    rw [hq1] at he
    rcases List.mem_cons.mp he with rfl | he'
    · exact hs'univ
    · exact hinv.queueUniv e he'
  · intro q hq
    rw [hc1] at hq
    rcases List.mem_cons.mp hq with rfl | hq'
    · exact hreach
    · exact hinv.costsReach q hq'
  · intro q hq
    rw [hc1] at hq
    rcases List.mem_cons.mp hq with rfl | hq'
    · exact hs'univ
    · exact hinv.costsUniv q hq'
  · intro t v hlk
    rw [hc1, lookupCost_cons] at hlk
    rw [hp1]
    by_cases hts : t = s'
    · rw [if_pos hts] at hlk
      cases hlk
      subst hts
      exact List.mem_cons_self _ _
    · rw [if_neg hts] at hlk
      exact List.mem_cons_of_mem _ (hinv.costsPushed t v hlk)
  · intro q hq
    rw [hp1] at hq
    rcases List.mem_cons.mp hq with rfl | hq'
    · exact hreach
    · exact hinv.pushedReach q hq'
  · intro q hq
    rw [hp1] at hq
    rcases List.mem_cons.mp hq with rfl | hq'
    · refine Or.inl
        ⟨(astarPrio h (SNode.mk s' c (node.cumCost + c) (some node) (some a)),
          st.tb, SNode.mk s' c (node.cumCost + c) (some node) (some a)),
          ?_, rfl, rfl⟩
      rw [hq1]
      exact List.mem_cons_self _ _
    · rcases hinv.pushedDisj q hq' with ⟨e, he, hes, hec⟩ | hexp | hlt
      · refine Or.inl ⟨e, ?_, hes, hec⟩
        rw [hq1]
        exact List.mem_cons_of_mem _ he
      · rw [hx1]
        exact Or.inr (Or.inl hexp)
      · refine Or.inr (Or.inr ?_)
        rw [hc1]
        exact costLT_push hlt hLE
  · intro q hq
    rw [hx1] at hq
    exact hinv.expGoal q hq
  · intro q hq x hx
    rw [hx1] at hq
    rcases hinv.expSucc q hq x hx with ⟨hqnd, hxm⟩ | hold
    · rcases List.mem_cons.mp hxm with hxh | hxr
      · subst hxh
        subst hqnd
        refine Or.inr ?_
        rw [hc1]
        unfold costLE
        rw [lookupCost_cons, if_pos rfl]
        simp
      · exact Or.inl ⟨hqnd, hxr⟩
    · refine Or.inr ?_
      rw [hc1]
      exact costLE_push hold hLE
  · intro i hi
    rw [hp1]
    exact List.mem_cons_of_mem _ (hinv.rootIn i hi)

/-- Processing the successor list of a popped node preserves the A*
invariant (with the pending exception list emptied), does not expand or
touch the expansion history, evaluates at most one child per successor, and
either leaves the queue and cost map untouched or strictly decreases the
cost measure. -/
lemma procSuccs_astar [DecidableEq S] {univ : Finset S} {inits : List S}
    {succ : S → List (A × S × ℤ)} {goal : S → Bool} {h : S → ℤ}
    {node : SNode S A}
    (hcost : ∀ s : S, ∀ x ∈ succ s, 0 ≤ x.2.2)
    (hclosed : ∀ s ∈ univ, ∀ x ∈ succ s, x.2.1 ∈ univ)
    (hnode : NodeOK inits succ node) (hnodeU : node.state ∈ univ)
    (hcum : 0 ≤ node.cumCost) :
    ∀ (l : List (A × S × ℤ)) (st : SearchState S A),
      (∀ x ∈ l, x ∈ succ node.state) →
      AInv univ inits succ goal h (node.state, node.cumCost) l st →
      ∃ st2, procSuccsU (astarPrio h) node l st = st2 ∧
        AInv univ inits succ goal h (node.state, node.cumCost) [] st2 ∧
        st2.nExp = st.nExp ∧ st2.expandedG = st.expandedG ∧
        st2.nEvals ≤ st.nEvals + l.length ∧
        ((st2.queue = st.queue ∧ st2.costs = st.costs) ∨
          (measOne univ st2 < measOne univ st ∨
            (measOne univ st2 = measOne univ st ∧
              measTwo univ st2 < measTwo univ st))) := by
  intro l
  induction l with
  | nil =>
    intro st hsub hinv
    exact ⟨st, rfl, hinv, rfl, rfl, Nat.le_add_right _ _, Or.inl ⟨rfl, rfl⟩⟩
  | cons hd rest ih =>
    obtain ⟨a, s', c⟩ := hd
    intro st hsub hinv
    have hstep : (a, s', c) ∈ succ node.state := hsub _ (List.mem_cons_self _ _)
    have hc0 : (0 : ℤ) ≤ c := hcost node.state (a, s', c) hstep
    have hs'univ : s' ∈ univ := hclosed node.state hnodeU (a, s', c) hstep
    by_cases hLE : costLE st.costs s' (node.cumCost + c) = true
    · -- child does not improve the recorded cost: skipped
      have hinv' : AInv univ inits succ goal h (node.state, node.cumCost)
          rest st := AInv_pend_tail hinv hLE
      obtain ⟨st2, heq2, hI2, hX2, hG2, hE2, hM2⟩ :=
        ih st (fun x hx => hsub x (List.mem_cons_of_mem _ hx)) hinv'
      refine ⟨st2, ?_, hI2, hX2, hG2, ?_, hM2⟩
      · simp only [procSuccsU]
        rw [if_pos hLE]
        exact heq2
      · simp only [List.length_cons]
        omega
    · -- child improves: pushed
      have hLEf : costLE st.costs s' (node.cumCost + c) = false :=
        Bool.eq_false_iff.mpr hLE
      have key : ∀ stX : SearchState S A,
          AInv univ inits succ goal h (node.state, node.cumCost) rest stX →
          stX.nEvals = st.nEvals + 1 → stX.nExp = st.nExp →
          stX.expandedG = st.expandedG →
          stX.costs = (s', node.cumCost + c) :: st.costs →
          ∃ st2, procSuccsU (astarPrio h) node rest stX = st2 ∧
            AInv univ inits succ goal h (node.state, node.cumCost) [] st2 ∧
            st2.nExp = st.nExp ∧ st2.expandedG = st.expandedG ∧
            st2.nEvals ≤ st.nEvals + ((a, s', c) :: rest).length ∧
            ((st2.queue = st.queue ∧ st2.costs = st.costs) ∨
              (measOne univ st2 < measOne univ st ∨
                (measOne univ st2 = measOne univ st ∧
                  measTwo univ st2 < measTwo univ st))) := by
        intro stX hinvX hEv hXp hXg hCS
        have hm1 : measOne univ stX < measOne univ st ∨
            (measOne univ stX = measOne univ st ∧
              measTwo univ stX < measTwo univ st) :=
          push_meas hCS hs'univ hLEf (by omega)
        obtain ⟨st2, heq2, hI2, hX2, hG2, hE2, hM2⟩ :=
          ih stX (fun x hx => hsub x (List.mem_cons_of_mem _ hx)) hinvX
        refine ⟨st2, heq2, hI2, hX2.trans hXp, hG2.trans hXg, ?_, ?_⟩
        · simp only [List.length_cons]
          omega
        · refine Or.inr ?_
          rcases hM2 with ⟨hq2, hc2⟩ | hlex
          · have e1 : measOne univ st2 = measOne univ stX := measOne_congr hc2
            have e2 : measTwo univ st2 = measTwo univ stX := measTwo_congr hc2
            omega
          · omega
      simp only [procSuccsU]
      rw [if_neg (by rw [hLEf]; exact Bool.false_ne_true)]
      by_cases hbp : astarPrio h
          (SNode.mk s' c (node.cumCost + c) (some node) (some a)) <
            st.bestPrio
      · rw [if_pos hbp]
        apply key
        · exact push_inv hclosed hnode hnodeU hstep hLEf hinv rfl rfl rfl rfl
        · rfl
        · rfl
        · rfl
        · rfl
      · rw [if_neg hbp]
        apply key
        · exact push_inv hclosed hnode hnodeU hstep hLEf hinv rfl rfl rfl rfl
        · rfl
        · rfl
        · rfl
        · rfl

lemma addRoot_fields (prio : SNode S A → ℤ) (acc : SearchState S A) (i : S) :
    (addRoot prio acc i).queue =
        (prio (rootNode i), acc.tb, rootNode i) :: acc.queue ∧
      (addRoot prio acc i).costs = acc.costs ∧
      (addRoot prio acc i).expandedG = acc.expandedG ∧
      (addRoot prio acc i).pushedG = (i, (0 : ℤ)) :: acc.pushedG := by
  unfold addRoot
  dsimp only
  split
  · exact ⟨rfl, rfl, rfl, rfl⟩
  · exact ⟨rfl, rfl, rfl, rfl⟩

/-- The root-initialization fold keeps the cost map and expansion history
empty, queues well-formed root nodes carrying their A* priority, and pushes
every processed initial state at cost 0. -/
lemma foldl_addRoot_astar [DecidableEq S] {univ : Finset S} {inits : List S}
    {h : S → ℤ} (succ : S → List (A × S × ℤ))
    (hinitsU : ∀ i ∈ inits, i ∈ univ) :
    ∀ (is : List S) (acc : SearchState S A),
      (∀ i ∈ is, i ∈ inits) →
      acc.costs = [] → acc.expandedG = [] →
      (∀ e ∈ acc.queue, NodeOK inits succ (e.2.2 : SNode S A) ∧
        e.1 = astarPrio h e.2.2 ∧ (e.2.2 : SNode S A).state ∈ univ) →
      (∀ p ∈ acc.pushedG, ReachCost inits succ p.1 p.2 ∧
        ∃ e ∈ acc.queue, (e.2.2 : SNode S A).state = p.1 ∧
          (e.2.2 : SNode S A).cumCost = p.2) →
      (is.foldl (addRoot (astarPrio h)) acc).costs = [] ∧
      (is.foldl (addRoot (astarPrio h)) acc).expandedG = [] ∧
      (∀ e ∈ (is.foldl (addRoot (astarPrio h)) acc).queue,
        NodeOK inits succ (e.2.2 : SNode S A) ∧
        e.1 = astarPrio h e.2.2 ∧ (e.2.2 : SNode S A).state ∈ univ) ∧
      (∀ p ∈ (is.foldl (addRoot (astarPrio h)) acc).pushedG,
        ReachCost inits succ p.1 p.2 ∧
        ∃ e ∈ (is.foldl (addRoot (astarPrio h)) acc).queue,
          (e.2.2 : SNode S A).state = p.1 ∧
          (e.2.2 : SNode S A).cumCost = p.2) ∧
      (∀ p ∈ acc.pushedG, p ∈ (is.foldl (addRoot (astarPrio h)) acc).pushedG) ∧
      (∀ i ∈ is, (i, (0 : ℤ)) ∈ (is.foldl (addRoot (astarPrio h)) acc).pushedG)
    := by
  intro is
  induction is with
  | nil =>
    intro acc _ hco hex hq hp
    refine ⟨hco, hex, hq, hp, fun p hp' => hp', fun i hi => absurd hi ?_⟩
    exact List.not_mem_nil i
  | cons i is ih =>
    intro acc hsub hco hex hq hp
    have hiin : i ∈ inits := hsub i (List.mem_cons_self _ _)
    obtain ⟨hfq, hfc, hfx, hfp⟩ := addRoot_fields (astarPrio h) acc i
    have hq' : ∀ e ∈ (addRoot (astarPrio h) acc i).queue,
        NodeOK inits succ (e.2.2 : SNode S A) ∧
        e.1 = astarPrio h e.2.2 ∧ (e.2.2 : SNode S A).state ∈ univ := by
      intro e he
      rw [hfq] at he
      rcases List.mem_cons.mp he with rfl | he'
      · exact ⟨NodeOK.root i hiin, rfl, hinitsU i hiin⟩
      · exact hq e he'
    have hp' : ∀ p ∈ (addRoot (astarPrio h) acc i).pushedG,
        ReachCost inits succ p.1 p.2 ∧
        ∃ e ∈ (addRoot (astarPrio h) acc i).queue,
          (e.2.2 : SNode S A).state = p.1 ∧
          (e.2.2 : SNode S A).cumCost = p.2 := by
      intro p hpm
      rw [hfp] at hpm
      rcases List.mem_cons.mp hpm with rfl | hpm'
      · have hm : (@astarPrio S A h (rootNode i), acc.tb,
            (rootNode i : SNode S A)) ∈ (addRoot (astarPrio h) acc i).queue := by
          rw [hfq]
          exact List.mem_cons_self _ _
        exact ⟨reach_init hiin, _, hm, rfl, rfl⟩
      · obtain ⟨hr, e, he, hes, hec⟩ := hp p hpm'
        refine ⟨hr, e, ?_, hes, hec⟩
        rw [hfq]
        exact List.mem_cons_of_mem _ he
    obtain ⟨h1, h2, h3, h4, h5, h6⟩ := ih (addRoot (astarPrio h) acc i)
      (fun j hj => hsub j (List.mem_cons_of_mem _ hj))
      (hfc.trans hco) (hfx.trans hex) hq' hp'
    refine ⟨h1, h2, h3, h4, ?_, ?_⟩
    · intro p hpm
      apply h5
      rw [hfp]
      exact List.mem_cons_of_mem _ hpm
    · intro j hj
      rcases List.mem_cons.mp hj with rfl | hj'
      · apply h5
        rw [hfp]
        exact List.mem_cons_self _ _
      · exact h6 j hj'

/-- After root initialization the A* invariant holds. -/
lemma initState_astar [DecidableEq S] {univ : Finset S}
    {succ : S → List (A × S × ℤ)} {goal : S → Bool} {h : S → ℤ}
    {nd : S × ℤ} {i0 : S} {is0 : List S}
    (hinitsU : ∀ i ∈ (i0 :: is0 : List S), i ∈ univ) :
    ∃ st0 : SearchState S A,
      initState (astarPrio h) (i0 :: is0) = some st0 ∧
      AInv univ (i0 :: is0) succ goal h nd [] st0 := by
  refine ⟨_, rfl, ?_⟩
  have hi0 : i0 ∈ (i0 :: is0 : List S) := List.mem_cons_self _ _
  obtain ⟨h1, h2, h3, h4, h5, h6⟩ :=
    foldl_addRoot_astar succ hinitsU is0
      { queue := [(astarPrio h (rootNode i0), 0, rootNode i0)]
        costs := []
        best := rootNode i0
        bestPrio := astarPrio h (rootNode i0)
        tb := 1
        nExp := 0
        nEvals := 1
        expandedG := []
        pushedG := [(i0, 0)]
        evaledG := [(astarPrio h (rootNode i0), rootNode i0)] }
      (fun j hj => List.mem_cons_of_mem _ hj) rfl rfl
      (by
        intro e he
        rcases List.mem_singleton.mp he with rfl
        exact ⟨NodeOK.root i0 hi0, rfl, hinitsU i0 hi0⟩)
      (by
        intro p hpm
        rcases List.mem_singleton.mp hpm with rfl
        exact ⟨reach_init hi0,
          (astarPrio h (rootNode i0), 0, rootNode i0),
          List.mem_singleton.mpr rfl, rfl, rfl⟩)
  refine ⟨fun e he => (h3 e he).1, fun e he => (h3 e he).2.1,
    fun e he => (h3 e he).2.2, ?_, ?_, ?_,
    fun p hpm => (h4 p hpm).1, fun p hpm => Or.inl (h4 p hpm).2, ?_, ?_, ?_⟩
  · intro p hpm
    rw [h1] at hpm
    exact absurd hpm (List.not_mem_nil p)
  · intro p hpm
    rw [h1] at hpm
    exact absurd hpm (List.not_mem_nil p)
  · intro t v hlk
    rw [h1] at hlk
    simp [lookupCost] at hlk
  · intro p hpm
    rw [h2] at hpm
    exact absurd hpm (List.not_mem_nil p)
  · intro p hpm x hx
    rw [h2] at hpm
    exact absurd hpm (List.not_mem_nil p)
  · intro j hj
    rcases List.mem_cons.mp hj with rfl | hj'
    · apply h5
      exact List.mem_singleton.mpr rfl
    · exact h6 j hj'

lemma queue_witness_bound [DecidableEq S] {univ : Finset S} {inits : List S}
    {succ : S → List (A × S × ℤ)} {goal : S → Bool} {h : S → ℤ}
    {cstar : ℤ} {nd : S × ℤ} {st : SearchState S A} {s : S} {g : ℤ}
    {e : ℤ × ℕ × SNode S A}
    (hadm : Admissible succ goal h)
    (hinv : AInv univ inits succ goal h nd [] st)
    (hGF : GoalFrom succ goal s (cstar - g))
    (he : e ∈ st.queue) (hes : (e.2.2 : SNode S A).state = s)
    (hec : (e.2.2 : SNode S A).cumCost = g) : e.1 ≤ cstar := by
  have hprio := hinv.queuePrio e he
  rw [hprio]
  unfold astarPrio
  rw [hes, hec]
  have := (hadm s).2 _ hGF
  omega

lemma stale_contra [DecidableEq S] {univ : Finset S} {inits : List S}
    {succ : S → List (A × S × ℤ)} {goal : S → Bool} {h : S → ℤ}
    {nd : S × ℤ} {st : SearchState S A} {s : S} {g : ℤ}
    (hinv : AInv univ inits succ goal h nd [] st)
    (hlt : costLT st.costs s g = true)
    (hch : ∀ m, ReachCost inits succ s m → g ≤ m) : False := by
  unfold costLT at hlt
  cases hl : lookupCost st.costs s with
  | none =>
    rw [hl] at hlt
    cases hlt
  | some v =>
    rw [hl] at hlt
    simp only [decide_eq_true_eq] at hlt
    have hreach := hinv.costsReach _ (lookupCost_mem hl)
    have := hch v hreach
    omega

/-- Along an optimal suffix whose start was ever pushed, some queue entry
has priority at most the optimal cost: the frontier always holds a node on
an optimal path whose f-value does not exceed `cstar`. -/
lemma chain_queue_witness [DecidableEq S] {univ : Finset S} {inits : List S}
    {succ : S → List (A × S × ℤ)} {goal : S → Bool} {h : S → ℤ}
    {cstar : ℤ} {nd : S × ℤ}
    (hadm : Admissible succ goal h)
    {st : SearchState S A} (hinv : AInv univ inits succ goal h nd [] st) :
    ∀ (as : List A) (cs : List ℤ) (ss : List S) (s : S) (g : ℤ),
      OptSuffix inits succ goal cstar s g as cs ss →
      (s, g) ∈ st.pushedG →
      ∃ e ∈ st.queue, e.1 ≤ cstar := by
  intro as
  induction as with
  | nil =>
    intro cs ss s g hopt hpush
    rcases hinv.pushedDisj (s, g) hpush with ⟨e, he, hes, hec⟩ | hexp | hlt
    · exact ⟨e, he, queue_witness_bound hadm hinv
        (optSuffix_goalFrom hopt) he hes hec⟩
    · exfalso
      have hg := hinv.expGoal _ hexp
      cases cs with
      | nil =>
        cases ss with
        | nil =>
          obtain ⟨hgs, _, _⟩ := hopt
          rw [hgs] at hg
          cases hg
        | cons x ss => cases hopt
      | cons c cs => cases hopt
    · exact absurd (stale_contra hinv hlt (optSuffix_cheapest hopt)) id
  | cons a as ih =>
    intro cs ss s g hopt hpush
    cases cs with
    | nil => cases hopt
    | cons c cs =>
      cases ss with
      | nil => cases hopt
      | cons x ss =>
        have hGF := optSuffix_goalFrom hopt
        obtain ⟨hstep, hch, hrec⟩ := hopt
        rcases hinv.pushedDisj (s, g) hpush with ⟨e, he, hes, hec⟩ | hexp | hlt
        · exact ⟨e, he, queue_witness_bound hadm hinv hGF he hes hec⟩
        · rcases hinv.expSucc (s, g) hexp (a, x, c) hstep with ⟨_, hmem⟩ | hle
          · exact absurd hmem (List.not_mem_nil _)
          · cases hl : lookupCost st.costs x with
            | none =>
              exfalso
              unfold costLE at hle
              rw [hl] at hle
              cases hle
            | some v =>
              have hub : v ≤ g + c := by
                unfold costLE at hle
                rw [hl] at hle
                simpa using hle
              have hreach := hinv.costsReach _ (lookupCost_mem hl)
              have hlb2 := optSuffix_cheapest hrec v hreach
              have hveq : v = g + c := le_antisymm hub hlb2
              have hpush2 : (x, g + c) ∈ st.pushedG := by
                rw [← hveq]
                exact hinv.costsPushed x v hl
              exact ih cs ss x (g + c) hrec hpush2
        · exact absurd (stale_contra hinv hlt hch) id

/-! ## Budget transfer: `searchLoop` agrees with the budget-free loop when
the budgets exceed every count the run reaches -/

lemma procSuccsU_nExp_eq [DecidableEq S] (prio : SNode S A → ℤ)
    (node : SNode S A) :
    ∀ (l : List (A × S × ℤ)) (st : SearchState S A),
      (procSuccsU prio node l st).nExp = st.nExp := by
  intro l
  induction l with
  | nil => intro st; rfl
  | cons hd rest ih =>
    obtain ⟨a, s', c⟩ := hd
    intro st
    simp only [procSuccsU]
    by_cases hLE : costLE st.costs s' (node.cumCost + c) = true
    · rw [if_pos hLE]
      exact ih st
    · rw [if_neg hLE]
      by_cases hbp : prio (SNode.mk s' c (node.cumCost + c) (some node)
          (some a)) < st.bestPrio
      · rw [if_pos hbp]
        exact ih _
      · rw [if_neg hbp]
        exact ih _

lemma procSuccsU_nEvals_mono [DecidableEq S] (prio : SNode S A → ℤ)
    (node : SNode S A) :
    ∀ (l : List (A × S × ℤ)) (st : SearchState S A),
      st.nEvals ≤ (procSuccsU prio node l st).nEvals := by
  intro l
  induction l with
  | nil => intro st; exact le_refl _
  | cons hd rest ih =>
    obtain ⟨a, s', c⟩ := hd
    intro st
    simp only [procSuccsU]
    by_cases hLE : costLE st.costs s' (node.cumCost + c) = true
    · rw [if_pos hLE]
      exact ih st
    · rw [if_neg hLE]
      by_cases hbp : prio (SNode.mk s' c (node.cumCost + c) (some node)
          (some a)) < st.bestPrio
      · rw [if_pos hbp]
        refine Nat.le_trans ?_ (ih _)
        exact Nat.le_succ _
      · rw [if_neg hbp]
        refine Nat.le_trans ?_ (ih _)
        exact Nat.le_succ _

lemma procSuccsU_nEvals_mono' [DecidableEq S] (prio : SNode S A → ℤ)
    (node : SNode S A) (l : List (A × S × ℤ)) (st : SearchState S A) (n : ℕ)
    (hn : st.nEvals = n) : n ≤ (procSuccsU prio node l st).nEvals :=
  hn ▸ procSuccsU_nEvals_mono prio node l st

lemma searchLoopU_mono [DecidableEq S] {goal : S → Bool}
    {succ : S → List (A × S × ℤ)} {prio : SNode S A → ℤ} :
    ∀ (fuel : ℕ) (st : SearchState S A) (res : SearchResult S A),
      searchLoopU goal succ prio fuel st = some res →
      st.nExp ≤ res.final.nExp ∧ st.nEvals ≤ res.final.nEvals := by
  intro fuel
  induction fuel with
  | zero => intro st res hres; cases hres
  | succ fuel ih =>
    intro st res hres
    simp only [searchLoopU] at hres
    by_cases hemp : st.queue.isEmpty = true
    · rw [if_pos hemp] at hres
      cases hres
      exact ⟨le_refl _, le_refl _⟩
    · rw [if_neg hemp] at hres
      cases hpop : popMin st.queue with
      | none =>
        rw [hpop] at hres
        cases hres
      | some pr =>
        obtain ⟨e0, rest⟩ := pr
        obtain ⟨p0, t0, node⟩ := e0
        rw [hpop] at hres
        dsimp only at hres
        by_cases hstale : costLT st.costs node.state node.cumCost = true
        · rw [if_pos hstale] at hres
          exact ih { st with queue := rest } res hres
        · rw [if_neg hstale] at hres
          by_cases hg : goal node.state = true
          · rw [if_pos hg] at hres
            cases hres
            exact ⟨le_refl _, le_refl _⟩
          · rw [if_neg hg] at hres
            obtain ⟨h1, h2⟩ := ih _ res hres
            constructor
            · refine le_trans ?_ h1
              rw [procSuccsU_nExp_eq]
              exact Nat.le_succ _
            · refine le_trans ?_ h2
              exact procSuccsU_nEvals_mono' prio node (succ node.state) _ _ rfl

lemma procSuccs_eq_U [DecidableEq S] {prio : SNode S A → ℤ}
    {node : SNode S A} {maxEvals : ℕ} :
    ∀ (l : List (A × S × ℤ)) (st : SearchState S A),
      (procSuccsU prio node l st).nEvals < maxEvals →
      procSuccs prio maxEvals false node l st = procSuccsU prio node l st := by
  intro l
  induction l with
  | nil => intro st _; rfl
  | cons hd rest ih =>
    obtain ⟨a, s', c⟩ := hd
    intro st hbig
    simp only [procSuccsU] at hbig ⊢
    simp only [procSuccs]
    by_cases hLE : costLE st.costs s' (node.cumCost + c) = true
    · rw [if_pos hLE] at hbig
      rw [if_pos hLE, if_pos hLE]
      exact ih st hbig
    · rw [if_neg hLE] at hbig
      rw [if_neg hLE, if_neg hLE]
      by_cases hbp : prio (SNode.mk s' c (node.cumCost + c) (some node)
          (some a)) < st.bestPrio
      · rw [if_pos hbp] at hbig
        rw [if_pos hbp, if_pos hbp]
        rw [if_neg Bool.false_ne_true]
        have hle : st.nEvals + 1 ≤ (procSuccsU prio node rest
            { st with
              queue := (prio (SNode.mk s' c (node.cumCost + c) (some node)
                (some a)), st.tb,
                SNode.mk s' c (node.cumCost + c) (some node) (some a)) ::
                  st.queue
              tb := st.tb + 1
              nEvals := st.nEvals + 1
              costs := (s', node.cumCost + c) :: st.costs
              pushedG := (s', node.cumCost + c) :: st.pushedG
              evaledG := (prio (SNode.mk s' c (node.cumCost + c) (some node)
                (some a)),
                SNode.mk s' c (node.cumCost + c) (some node) (some a)) ::
                  st.evaledG
              best := SNode.mk s' c (node.cumCost + c) (some node) (some a)
              bestPrio := prio (SNode.mk s' c (node.cumCost + c) (some node)
                (some a)) }).nEvals :=
          procSuccsU_nEvals_mono' prio node rest _ _ rfl
        rw [if_neg (by omega)]
        exact ih _ hbig
      · rw [if_neg hbp] at hbig
        rw [if_neg hbp, if_neg hbp]
        have hle : st.nEvals + 1 ≤ (procSuccsU prio node rest
            { st with
              queue := (prio (SNode.mk s' c (node.cumCost + c) (some node)
                (some a)), st.tb,
                SNode.mk s' c (node.cumCost + c) (some node) (some a)) ::
                  st.queue
              tb := st.tb + 1
              nEvals := st.nEvals + 1
              costs := (s', node.cumCost + c) :: st.costs
              pushedG := (s', node.cumCost + c) :: st.pushedG
              evaledG := (prio (SNode.mk s' c (node.cumCost + c) (some node)
                (some a)),
                SNode.mk s' c (node.cumCost + c) (some node) (some a)) ::
                  st.evaledG }).nEvals :=
          procSuccsU_nEvals_mono' prio node rest _ _ rfl
        rw [if_neg (by omega)]
        exact ih _ hbig

/-- `searchLoop` reproduces the budget-free run exactly when both budgets
exceed the final expansion and evaluation counts of that run (the counters
are non-decreasing, so no budget test ever fires). -/
lemma searchLoop_eq_U [DecidableEq S] {goal : S → Bool}
    {succ : S → List (A × S × ℤ)} {prio : SNode S A → ℤ}
    {maxExp maxEvals : ℕ} :
    ∀ (fuel : ℕ) (st : SearchState S A) (res : SearchResult S A),
      searchLoopU goal succ prio fuel st = some res →
      res.final.nExp < maxExp → res.final.nEvals < maxEvals →
      searchLoop goal succ prio maxExp maxEvals false fuel st = some res := by
  intro fuel
  induction fuel with
  | zero => intro st res hres; cases hres
  | succ fuel ih =>
    intro st res hres hE hV
    obtain ⟨hmE, hmV⟩ := searchLoopU_mono (fuel + 1) st res hres
    simp only [searchLoopU] at hres
    simp only [searchLoop]
    by_cases hemp : st.queue.isEmpty = true
    · rw [if_pos hemp] at hres
      rw [hemp]
      simp only [Bool.true_or, if_pos rfl]
      exact hres
    · rw [if_neg hemp] at hres
      have hempf : st.queue.isEmpty = false := Bool.eq_false_iff.mpr hemp
      have hcond : (st.queue.isEmpty || decide (maxExp ≤ st.nExp) ||
          decide (maxEvals ≤ st.nEvals)) = false := by
        rw [hempf, decide_eq_false (by omega : ¬ maxExp ≤ st.nExp),
          decide_eq_false (by omega : ¬ maxEvals ≤ st.nEvals)]
        rfl
      rw [hcond, if_neg Bool.false_ne_true]
      cases hpop : popMin st.queue with
      | none =>
        rw [hpop] at hres
        cases hres
      | some pr =>
        obtain ⟨e0, rest⟩ := pr
        obtain ⟨p0, t0, node⟩ := e0
        rw [hpop] at hres
        dsimp only at hres ⊢
        by_cases hstale : costLT st.costs node.state node.cumCost = true
        · rw [if_pos hstale] at hres
          rw [if_pos hstale]
          exact ih _ res hres hE hV
        · rw [if_neg hstale] at hres
          rw [if_neg hstale]
          by_cases hg : goal node.state = true
          · rw [if_pos hg] at hres
            rw [if_pos hg]
            exact hres
          · rw [if_neg hg] at hres
            rw [if_neg hg]
            have hbig : (procSuccsU prio node (succ node.state)
                { st with
                  queue := rest
                  nExp := st.nExp + 1
                  expandedG := (node.state, node.cumCost) ::
                    st.expandedG }).nEvals < maxEvals := by
              have := (searchLoopU_mono fuel _ res hres).2
              omega
            rw [procSuccs_eq_U (succ node.state) _ hbig]
            exact ih _ res hres hE hV

/-- Core A* optimality run: from any loop state satisfying the invariant
(with a fixed optimal trace from a pushed initial state), the budget-free
loop terminates by popping a goal node whose reconstructed plan is a real
trace of exactly the optimal cost. -/
lemma astar_loopU [DecidableEq S] {univ : Finset S} {inits : List S}
    {succ : S → List (A × S × ℤ)} {goal : S → Bool} {h : S → ℤ} {cstar : ℤ}
    {istar : S} {as0 : List A} {cs0 : List ℤ} {ss0 : List S}
    (hcost : ∀ s : S, ∀ x ∈ succ s, 0 ≤ x.2.2)
    (hadm : Admissible succ goal h)
    (hclosed : ∀ s ∈ univ, ∀ x ∈ succ s, x.2.1 ∈ univ)
    (hlb : ∀ k, GoalReach inits succ goal k → cstar ≤ k)
    (histar : istar ∈ inits)
    (hopt0 : OptSuffix inits succ goal cstar istar 0 as0 cs0 ss0) :
    ∀ (m1 m2 q : ℕ) (st : SearchState S A),
      measOne univ st = m1 → measTwo univ st = m2 → st.queue.length = q →
      AInv univ inits succ goal h (istar, 0) [] st →
      ∃ fuel res,
        searchLoopU goal succ (astarPrio h) fuel st = some res ∧
        res.exit = .goalFound ∧
        ∃ s0 ∈ inits, ∃ cs rest, res.states = s0 :: rest ∧
          IsTrace succ s0 res.actions cs rest ∧
          goal (traceEnd s0 rest) = true ∧ cs.sum = cstar := by
  intro m1
  induction m1 using Nat.strong_induction_on with
  | _ m1 ih1 =>
  intro m2
  induction m2 using Nat.strong_induction_on with
  | _ m2 ih2 =>
  intro q
  induction q using Nat.strong_induction_on with
  | _ q ih3 =>
  intro st hm1 hm2 hq hinv
  obtain ⟨ew, hew, hewb⟩ := chain_queue_witness hadm hinv as0 cs0 ss0 istar 0
    hopt0 (hinv.rootIn istar histar)
  have hqne : st.queue ≠ [] := by
    intro hnil
    rw [hnil] at hew
    exact absurd hew (List.not_mem_nil _)
  have hempf : st.queue.isEmpty = false := by
    cases hql : st.queue with
    | nil => exact absurd hql hqne
    | cons a as => rfl
  cases hpop : popMin st.queue with
  | none => exact absurd (popMin_none_iff.mp hpop) hqne
  | some pr =>
    obtain ⟨e0, rest⟩ := pr
    obtain ⟨p0, t0, node⟩ := e0
    have he0mem : (p0, t0, node) ∈ st.queue := (popMin_mem hpop).1
    have hrest_sub : ∀ x ∈ rest, x ∈ st.queue := (popMin_mem hpop).2
    have hnodeOK : NodeOK inits succ node := hinv.queueOK _ he0mem
    have hnodeU : node.state ∈ univ := hinv.queueUniv _ he0mem
    have hremove := popMin_remove hpop
    by_cases hstale : costLT st.costs node.state node.cumCost = true
    · -- попped node is stale: it is skipped and the queue shrinks
      have hinv1 : AInv univ inits succ goal h (istar, 0) []
          { st with queue := rest } := by
        refine ⟨?_, ?_, ?_, hinv.costsReach, hinv.costsUniv, hinv.costsPushed,
          hinv.pushedReach, ?_, hinv.expGoal, hinv.expSucc, hinv.rootIn⟩
        · intro e he
          exact hinv.queueOK e (hrest_sub e he)
        · intro e he
          exact hinv.queuePrio e (hrest_sub e he)
        · intro e he
          exact hinv.queueUniv e (hrest_sub e he)
        · intro p hp
          rcases hinv.pushedDisj p hp with ⟨e, he, hes, hec⟩ | hexp | hlt
          · rcases hremove e he with rfl | her
            · refine Or.inr (Or.inr ?_)
              rw [← hes, ← hec]
              exact hstale
            · exact Or.inl ⟨e, her, hes, hec⟩
          · exact Or.inr (Or.inl hexp)
          · exact Or.inr (Or.inr hlt)
      have hlen : rest.length < q := by
        have := popMin_length hpop
        omega
      obtain ⟨fuel1, res, hres, hexit, hconc⟩ :=
        ih3 rest.length hlen { st with queue := rest }
          ((measOne_congr rfl).trans hm1) ((measTwo_congr rfl).trans hm2)
          rfl hinv1
      refine ⟨fuel1 + 1, res, ?_, hexit, hconc⟩
      simp only [searchLoopU]
      rw [hempf, if_neg Bool.false_ne_true, hpop]
      dsimp only
      rw [if_pos hstale]
      exact hres
    · by_cases hg : goal node.state = true
      · -- goal node popped: its cumulative cost is exactly the optimum
        have hprio0 : (p0, t0, node).1 = astarPrio h (p0, t0, node).2.2 :=
          hinv.queuePrio _ he0mem
        have hple : p0 ≤ cstar := le_trans (popMin_min hpop ew hew) hewb
        have hh0 : 0 ≤ h node.state := (hadm node.state).1
        have hcle : node.cumCost ≤ cstar := by
          simp only at hprio0
          rw [hprio0] at hple
          unfold astarPrio at hple
          omega
        have hGF0 : GoalFrom succ goal node.state 0 :=
          ⟨[], [], [], trivial, by simpa [traceEnd] using hg, rfl⟩
        have hGR : GoalReach inits succ goal (node.cumCost + 0) :=
          splice_goal (nodeOK_reach hnodeOK) hGF0
        have hcge : cstar ≤ node.cumCost := by
          have := hlb _ hGR
          omega
        have hcum : node.cumCost = cstar := le_antisymm hcle hcge
        obtain ⟨s0, hs0, cs, rest2, hplan, htr, hsum, hend⟩ :=
          finishPlan_trace hnodeOK
        refine ⟨1, mkResult .goalFound node { st with queue := rest }, ?_, rfl,
          s0, hs0, cs, rest2, hplan, htr, ?_, ?_⟩
        · simp only [searchLoopU]
          rw [hempf, if_neg Bool.false_ne_true, hpop]
          dsimp only
          rw [if_neg hstale, if_pos hg]
        · rw [hend]
          exact hg
        · rw [hsum, hcum]
      · -- expansion step
        have hgf : goal node.state = false := Bool.eq_false_iff.mpr hg
        set stMid : SearchState S A :=
          { st with
            queue := rest
            nExp := st.nExp + 1
            expandedG := (node.state, node.cumCost) :: st.expandedG }
          with hstMid
        have hinvMid : AInv univ inits succ goal h (node.state, node.cumCost)
            (succ node.state) stMid := by
          refine ⟨?_, ?_, ?_, hinv.costsReach, hinv.costsUniv,
            hinv.costsPushed, hinv.pushedReach, ?_, ?_, ?_, hinv.rootIn⟩
          · intro e he
            exact hinv.queueOK e (hrest_sub e he)
          · intro e he
            exact hinv.queuePrio e (hrest_sub e he)
          · intro e he
            exact hinv.queueUniv e (hrest_sub e he)
          · intro p hp
            rcases hinv.pushedDisj p hp with ⟨e, he, hes, hec⟩ | hexp | hlt
            · rcases hremove e he with rfl | her
              · refine Or.inr (Or.inl ?_)
                have hpe : p = (node.state, node.cumCost) :=
                  Prod.ext hes.symm hec.symm
                rw [hpe]
                exact List.mem_cons_self _ _
              · exact Or.inl ⟨e, her, hes, hec⟩
            · exact Or.inr (Or.inl (List.mem_cons_of_mem _ hexp))
            · exact Or.inr (Or.inr hlt)
          · intro p hp
            rcases List.mem_cons.mp hp with rfl | hp'
            · exact hgf
            · exact hinv.expGoal p hp'
          · intro p hp x hx
            rcases List.mem_cons.mp hp with rfl | hp'
            · exact Or.inl ⟨rfl, hx⟩
            · rcases hinv.expSucc p hp' x hx with ⟨_, hm⟩ | hle
              · exact absurd hm (List.not_mem_nil _)
              · exact Or.inr hle
        have hcum0 : 0 ≤ node.cumCost := nodeOK_cum_nonneg hcost hnodeOK
        obtain ⟨st2, heq2, hI2, hX2, hG2, hE2, hM2⟩ :=
          procSuccs_astar hcost hclosed hnodeOK hnodeU hcum0
            (succ node.state) stMid (fun x hx => hx) hinvMid
        have hI2' : AInv univ inits succ goal h (istar, 0) [] st2 :=
          AInv_retarget hI2
        have em1 : measOne univ stMid = measOne univ st :=
          measOne_congr (by rw [hstMid])
        have em2 : measTwo univ stMid = measTwo univ st :=
          measTwo_congr (by rw [hstMid])
        have hstep : ∀ fuelX : ℕ,
            searchLoopU goal succ (astarPrio h) (fuelX + 1) st =
              searchLoopU goal succ (astarPrio h) fuelX st2 := by
          intro fuelX
          simp only [searchLoopU]
          rw [hempf, if_neg Bool.false_ne_true, hpop]
          dsimp only
          rw [if_neg hstale, if_neg hg, ← hstMid, heq2]
        rcases hM2 with ⟨hq2, hc2⟩ | hlex
        · have hlen : st2.queue.length < q := by
            rw [hq2, hstMid]
            have := popMin_length hpop
            dsimp only
            omega
          have hmeq1 : measOne univ st2 = m1 :=
            (measOne_congr hc2).trans (em1.trans hm1)
          have hmeq2 : measTwo univ st2 = m2 :=
            (measTwo_congr hc2).trans (em2.trans hm2)
          obtain ⟨fuel1, res, hres, hexit, hconc⟩ :=
            ih3 st2.queue.length hlen st2 hmeq1 hmeq2 rfl hI2'
          exact ⟨fuel1 + 1, res, (hstep fuel1).trans hres, hexit, hconc⟩
        · rcases hlex with hl1 | ⟨hleq, hl2⟩
          · obtain ⟨fuel1, res, hres, hexit, hconc⟩ :=
              ih1 (measOne univ st2) (by omega) (measTwo univ st2)
                st2.queue.length st2 rfl rfl rfl hI2'
            exact ⟨fuel1 + 1, res, (hstep fuel1).trans hres, hexit, hconc⟩
          · obtain ⟨fuel1, res, hres, hexit, hconc⟩ :=
              ih2 (measTwo univ st2) (by omega) st2.queue.length st2
                (by omega) rfl rfl hI2'
            exact ⟨fuel1 + 1, res, (hstep fuel1).trans hres, hexit, hconc⟩

lemma succW_cost_nonneg : ∀ s : ℕ, ∀ x ∈ succW s, 0 ≤ x.2.2 := by
  intro s x hx
  cases s with
  | zero =>
    simp only [succW, List.mem_singleton] at hx
    subst hx
    decide
  | succ n => exact absurd hx (List.not_mem_nil x)

lemma succW_admissible : Admissible succW goalW (fun _ => (0 : ℤ)) := by
  intro s
  refine ⟨le_refl 0, ?_⟩
  rintro k ⟨as, cs, ss, htr, _, hsum⟩
  rw [← hsum]
  exact IsTrace_sum_nonneg succW_cost_nonneg htr

lemma goalReachW : GoalReach [0] succW goalW 1 := by
  refine ⟨0, by decide, [0], [1], [1], ⟨by decide, trivial⟩, by decide,
    by decide⟩

lemma goalReachW_lb : ∀ k, GoalReach [0] succW goalW k → 1 ≤ k := by
  rintro k ⟨i, hi, as, cs, ss, htr, hg, hsum⟩
  rcases List.mem_singleton.mp hi with rfl
  cases as with
  | nil =>
    cases cs with
    | nil =>
      cases ss with
      | nil => cases hg
      | cons x ss => cases htr
    | cons c cs => cases htr
  | cons a as =>
    cases cs with
    | nil => cases htr
    | cons c cs =>
      cases ss with
      | nil => cases htr
      | cons x ss =>
        obtain ⟨hstep, htail⟩ := htr
        simp only [succW, List.mem_singleton, Prod.mk.injEq] at hstep
        obtain ⟨ha, hx, hc⟩ := hstep
        subst hx
        subst hc
        have hnn := IsTrace_sum_nonneg succW_cost_nonneg htail
        simp only [List.sum_cons] at hsum
        omega

/-- C5: on every finite weighted graph with non-negative edge costs, under
an admissible heuristic, `run_astar` with sufficient budgets (and enough
fuel) terminates by finding a goal, and the plan it returns is a genuine
trace from an initial state to a goal state whose cumulative edge cost
equals the true shortest-path cost `cstar`. -/
theorem claim_C5_astar_optimal [DecidableEq S]
    (univ : Finset S) (inits : List S) (goal : S → Bool)
    (succ : S → List (A × S × ℤ)) (h : S → ℤ) (cstar : ℤ)
    (hcost : ∀ s : S, ∀ x ∈ succ s, 0 ≤ x.2.2)
    (hadm : Admissible succ goal h)
    (hinitsU : ∀ i ∈ inits, i ∈ univ)
    (hclosed : ∀ s ∈ univ, ∀ x ∈ succ s, x.2.1 ∈ univ)
    (hreach : GoalReach inits succ goal cstar)
    (hlb : ∀ k, GoalReach inits succ goal k → cstar ≤ k) :
    ∃ fuel maxExp maxEvals res,
      run_astar fuel inits goal succ h maxExp maxEvals false = some res ∧
      res.exit = .goalFound ∧
      ∃ s0 ∈ inits, ∃ cs rest, res.states = s0 :: rest ∧
        IsTrace succ s0 res.actions cs rest ∧
        goal (traceEnd s0 rest) = true ∧ cs.sum = cstar := by
  obtain ⟨istar, histar, hGFstar⟩ := hreach
  obtain ⟨as0, cs0, ss0, htr0, hg0, hsum0⟩ := hGFstar
  have hopt0 : OptSuffix inits succ goal cstar istar 0 as0 cs0 ss0 :=
    optSuffix_of_trace hlb htr0 hg0 (by omega)
      (fun m hm => reach_nonneg hcost hm)
  cases inits with
  | nil => exact absurd histar (List.not_mem_nil _)
  | cons i0 is0 =>
    obtain ⟨st0, hinit, hinv0⟩ :=
      @initState_astar S A _ univ succ goal h (istar, 0) i0 is0 hinitsU
    obtain ⟨fuel, res, hres, hexit, hconc⟩ :=
      astar_loopU hcost hadm hclosed hlb histar hopt0 (measOne univ st0)
        (measTwo univ st0) st0.queue.length st0 rfl rfl rfl hinv0
    refine ⟨fuel, res.final.nExp + 1, res.final.nEvals + 1, res, ?_, hexit,
      hconc⟩
    have hloop := searchLoop_eq_U fuel st0 res hres (Nat.lt_succ_self _)
      (Nat.lt_succ_self _)
    have hinit2 : initState (fun n : SNode S A => h n.state + n.cumCost)
        (i0 :: is0) = some st0 := hinit
    unfold run_astar runHeuristicSearch
    rw [hinit2]
    exact hloop

/-- Witness for C5: the two-state graph `0 —1→ 1` with goal `1`, the zero
heuristic and shortest-path cost 1. -/
theorem claim_C5_astar_optimal_witness :
    ∃ fuel maxExp maxEvals res,
      run_astar fuel [0] goalW succW (fun _ => (0 : ℤ)) maxExp maxEvals
          false = some res ∧
      res.exit = .goalFound ∧
      ∃ s0 ∈ [0], ∃ cs rest, res.states = s0 :: rest ∧
        IsTrace succW s0 res.actions cs rest ∧
        goalW (traceEnd s0 rest) = true ∧ cs.sum = 1 :=
  claim_C5_astar_optimal {0, 1} [0] goalW succW (fun _ => 0) 1
    succW_cost_nonneg succW_admissible (by decide) (by decide)
    goalReachW goalReachW_lb

end PG3
